import Mathlib

/-!
Verification of the htag2 reactive tag tree and its session-synchronization
engine, as implemented in `htag/core.py` and `htag/server.py`.

The development is a shallow embedding of the python code:

* `StateCell` embeds `core.State` (the reactive cell), with the thread-local
  `_ctx.current_eval` passed explicitly and dirty flags of all nodes modelled
  as a map from node id to `Bool`.
* `HStore` is a heap model of the mutable `GTag` object graph (parent
  pointers, child lists, dirty flags), used for `GTag.add` / `GTag.remove`
  and the one-parent invariant.
* `Node` / `Kid` is a tree model of a `GTag` with its interleaved child list
  (text, literal sub-tags, reactive producers with their cached output) used
  for rendering, reconciliation, mount/unmount and event dispatch.
  A reactive producer (a python callable child) is embedded as a `Template`:
  evaluating it instantiates fresh tags with fresh ids, mirroring the fact
  that every call of the callable constructs brand-new `GTag` objects.
* `App` embeds the server-side session object of `server.App`
  (`collect_updates`, `collect_statics`, `find_tag`, `render_tag`,
  `handle_event`, `broadcast_updates`, `_render_page`), with transports
  (websockets, SSE queues) as lists of opaque identifiers and the outgoing
  wire messages reified in an ordered trace.

Python object ids (`f"{self.tag}-{id(self)}"`) are modelled as natural
numbers; the id counter is threaded through every operation that constructs
tags, so freshly produced tags always get ids distinct from existing ones.
Callback bodies (user code) are modelled as data: a list of "mark this node
dirty" effects per step plus a final outcome (return value or raised
exception), covering the four callback shapes dispatched by
`App.handle_event` (direct, coroutine, generator, async generator).

One deliberate deviation: when a render raises, python keeps the tree
mutations that happened before the raise (partially cleared dirty flags);
the embedding returns the pre-pass tree instead. No property below examines
the tree after a failed pass, so the deviation is unobservable here.
-/

namespace Htag

/-- JSON-ish attribute / payload values (python attribute values and
inbound event data fields). -/
inductive JVal where
  | null
  | bool (b : Bool)
  | num (n : Int)
  | str (s : String)
deriving DecidableEq, Repr

/-- A callback's python return value, as far as the server cares:
`tagVal` marks "the callback returned a `GTag` instance"
(`isinstance(res, GTag)` in `handle_event`). -/
inductive RVal where
  | null
  | bool (b : Bool)
  | num (n : Int)
  | str (s : String)
  | tagVal
deriving DecidableEq, Repr

/-- A bound event callback, as data.  Each step of user code is abstracted
to the list of node ids it marks dirty; the four constructors mirror the
four shapes `App.handle_event` dispatches on
(`iscoroutinefunction`, `isasyncgen`, `isgenerator`, plain call).
A generator's `fin` is either the raised exception or the `StopIteration`
value together with the effects of the last resumption; an async
generator has no return value (python forbids it), so its `fin` carries
only effects. -/
inductive Callback where
  | direct (eff : List Nat) (out : Except String RVal)
  | asyncDirect (eff : List Nat) (out : Except String RVal)
  | gen (yields : List (List Nat)) (fin : Except String (List Nat × RVal))
  | asyncGen (yields : List (List Nat)) (fin : Except String (List Nat))

/-- An entry of `GTag.__events`: either a literal javascript string or a
python callback. -/
inductive EvBind where
  | js (s : String)
  | cb (c : Callback)

/- ----------------------------------------------------------------------
Reactive cell: `core.State`.
`_observers` is a `WeakSet` of `GTag`s; it is modelled as a list of node
ids with set-like insertion.  The dirty flags of all tags are modelled as
one map `Nat → Bool` (node id to `_GTag__dirty`).  The thread-local
`_ctx.current_eval` (the tag currently evaluating a reactive lambda, set
by `GTag._eval_child` around `child()`) is the explicit `ctx` argument of
`readValue`.
---------------------------------------------------------------------- -/

/-- `core.State`: one value and the observing tags. -/
structure StateCell (α : Type) where
  value : α
  observers : List Nat

/-- `WeakSet.add`: set-like insertion into the observer list. -/
def StateCell.addObserver {α : Type} (s : StateCell α) (i : Nat) : StateCell α :=
  if i ∈ s.observers then s else { s with observers := s.observers ++ [i] }

/-- The `value` property getter: if a tag is currently evaluating a
reactive function (`_ctx.current_eval is not None`), it records itself
as an observer; the stored value is returned either way. -/
def StateCell.readValue {α : Type} (ctx : Option Nat) (s : StateCell α) :
    α × StateCell α :=
  match ctx with
  | some i => (s.value, s.addObserver i)
  | none => (s.value, s)

/-- `State._notify_observers`: set `observer._GTag__dirty = True` for every
observer, leaving every other tag's flag untouched. -/
def StateCell.notifyObservers {α : Type} (s : StateCell α) (w : Nat → Bool) :
    Nat → Bool :=
  fun j => if j ∈ s.observers then true else w j

/-- The `value` property setter: only a value unequal (python `!=`) to the
stored one stores the new value and notifies the observers. -/
def StateCell.setValue {α : Type} [DecidableEq α] (s : StateCell α) (v : α)
    (w : Nat → Bool) : StateCell α × (Nat → Bool) :=
  if s.value ≠ v then ({ s with value := v }, s.notifyObservers w)
  else (s, w)

/-- `State.notify`: force notification without a value change. -/
def StateCell.notify {α : Type} (s : StateCell α) (w : Nat → Bool) : Nat → Bool :=
  s.notifyObservers w

/- ----------------------------------------------------------------------
Heap model of the mutable `GTag` object graph: parent pointers and child
lists with aliasing, for `GTag.add` / `GTag.remove` / `GTag.remove_self`
/ `GTag.root` and the one-parent invariant.  A node id is its index in
the store.  Only the fields those operations touch are modelled.
---------------------------------------------------------------------- -/

/-- A child-list entry of a `GTag` in the heap model: literal text or a
reference to another tag.  (Callable children are irrelevant to parent
bookkeeping: `add` does nothing to them besides appending.) -/
inductive HChild where
  | text (s : String)
  | node (j : Nat)
deriving DecidableEq, Repr

/-- The mutable per-object state of a `GTag` that `add`/`remove` touch.
`isApp` marks `Tag.App` instances, the root sentinel of the
`GTag.root` walk. -/
structure PNode where
  isApp : Bool
  parent : Option Nat
  childs : List HChild
  dirty : Bool
deriving DecidableEq, Repr

/-- The object heap: node id = index. -/
def HStore : Type := List PNode

/-- Read a node from the heap. -/
def HStore.get? (s : HStore) (i : Nat) : Option PNode :=
  List.get? s i

/-- Update one node of the heap in place. -/
def HStore.upd (s : HStore) (i : Nat) (f : PNode → PNode) : HStore :=
  match List.get? s i with
  | some p => List.set s i (f p)
  | none => s

/-- Parent pointer of node `i` (`None` for absent ids). -/
def HStore.parentOf (s : HStore) (i : Nat) : Option Nat :=
  match s.get? i with
  | some p => p.parent
  | none => none

/-- Child list of node `i`. -/
def HStore.childsOf (s : HStore) (i : Nat) : List HChild :=
  match s.get? i with
  | some p => p.childs
  | none => []

/-- The `GTag.root` property: walk the parent chain until a `Tag.App`
instance is found; fuelled because the walk is a python `while` loop. -/
def HStore.rootOfAux (s : HStore) : Nat → Nat → Option Nat
  | 0, _ => none
  | fuel + 1, i =>
    match s.get? i with
    | none => none
    | some p =>
      if p.isApp then some i
      else
        match p.parent with
        | none => none
        | some j => s.rootOfAux fuel j

/-- `GTag.root` for node `i`: `some` app id when rooted, else `none`. -/
def HStore.rootOf (s : HStore) (i : Nat) : Option Nat :=
  s.rootOfAux (s.length + 1) i

/-- `GTag._trigger_mount` / `_trigger_unmount` visit order in the heap
model: the node itself, then its tag children recursively (fuelled,
since heap recursion has no structural measure).  Returns the list of
node ids whose hook fires. -/
def HStore.triggerEventsAux (s : HStore) : Nat → Nat → List Nat
  | 0, _ => []
  | fuel + 1, i =>
    i :: (s.childsOf i).flatMap (fun c =>
      match c with
      | .text _ => []
      | .node j => s.triggerEventsAux fuel j)

/-- Hook-fire order for attaching/detaching node `i` in the heap model. -/
def HStore.triggerEvents (s : HStore) (i : Nat) : List Nat :=
  s.triggerEventsAux (s.length + 1) i

/-- `GTag.remove(self=i, item)`: only when `item` is currently a child;
fires unmount hooks when `self` is rooted, removes the first occurrence,
clears the child's parent pointer and marks `self` dirty.  Returns the
new heap and the unmount events. -/
def HStore.removeChild (s : HStore) (i : Nat) (item : HChild) :
    HStore × List Nat :=
  if item ∈ s.childsOf i then
    let events :=
      match item with
      | .node j => if s.rootOf i ≠ none then s.triggerEvents j else []
      | .text _ => []
    let s₁ := s.upd i (fun p => { p with childs := p.childs.erase item })
    let s₂ :=
      match item with
      | .node j => s₁.upd j (fun p => { p with parent := none })
      | .text _ => s₁
    (s₂.upd i (fun p => { p with dirty := true }), events)
  else (s, [])

/-- `GTag.remove_self`. -/
def HStore.removeSelf (s : HStore) (j : Nat) : HStore × List Nat :=
  match s.parentOf j with
  | some p => s.removeChild p (.node j)
  | none => (s, [])

/-- `GTag.add(self=i, item)` for a single item, following the source step
by step: detach from a previous different parent, drop a previous
occurrence in `self.childs`, set the parent pointer, fire mount hooks if
`self` is rooted, append, mark dirty.  Returns the new heap and the
fired mount events. -/
def HStore.addChild (s : HStore) (i : Nat) (item : HChild) :
    HStore × List Nat :=
  let s₁ :=
    match item with
    | .node j =>
      if s.parentOf j ≠ none ∧ s.parentOf j ≠ some i then (s.removeSelf j).1
      else s
    | .text _ => s
  let s₂ :=
    match item with
    | .node _ => s₁.upd i (fun p => { p with childs := p.childs.erase item })
    | .text _ => s₁
  let s₃ :=
    match item with
    | .node j => s₂.upd j (fun p => { p with parent := some i })
    | .text _ => s₂
  let events :=
    match item with
    | .node j => if s₃.rootOf i ≠ none then s₃.triggerEvents j else []
    | .text _ => []
  let s₄ := s₃.upd i (fun p =>
    { p with childs := p.childs ++ [item], dirty := true })
  (s₄, events)

/-- The heap invariant behind "a node belongs to at most one parent":
no child list references a tag twice, a referenced tag's parent pointer
names exactly the referencing tag (so two distinct lists cannot share a
child), a parented tag is a child of its parent, and child references
are valid ids. -/
def HStore.WF (s : HStore) : Prop :=
  (∀ i j, (s.childsOf i).count (HChild.node j) ≤ 1) ∧
  (∀ i j, HChild.node j ∈ s.childsOf i → s.parentOf j = some i) ∧
  (∀ i j, s.parentOf j = some i → HChild.node j ∈ s.childsOf i) ∧
  (∀ i j, HChild.node j ∈ s.childsOf i → j < s.length)

/-- Executable check of the one-parent invariant for a concrete heap. -/
def HStore.wfCheck (s : HStore) : Bool :=
  (List.range s.length).all (fun i =>
    decide (s.childsOf i).Nodup &&
    (s.childsOf i).all (fun c =>
      match c with
      | .node j => decide (s.parentOf j = some i) && decide (j < s.length)
      | .text _ => true) &&
    (match s.parentOf i with
     | some p => decide (HChild.node i ∈ s.childsOf p)
     | none => true))

/-- Concrete heap used to exercise reparenting: an `App` root `0` with two
containers `1` and `2`; tag `3` starts as a child of `1`. -/
def c3store : HStore :=
  [⟨true, none, [.node 1, .node 2], false⟩,
   ⟨false, some 0, [.node 3], false⟩,
   ⟨false, some 0, [], false⟩,
   ⟨false, some 1, [.text "hi"], false⟩]

/- ----------------------------------------------------------------------
Tree model of a `GTag` for rendering, reconciliation, lifecycle and
event dispatch: a node owns its children, a producer kid owns its
`__rendered_callables` cache entry.
---------------------------------------------------------------------- -/

/-- A reactive producer (python callable child) as data: the template of
the value a call returns.  Every call builds brand-new `GTag` objects
from it.  `fails` stands for a callable that raises. -/
inductive Template where
  | fails (msg : String)
  | text (s : String)
  | node (tagName : String) (kids : List Template)
  | list (items : List Template)

mutual
/-- A `GTag`: tag name, id (`f"{tag}-{id(self)}"` modelled as a number),
`__attrs`, `__events`, `__dirty`, `__js_calls`, the static fragments its
kind declares (class- and instance-level `statics` folded into one
list), and the interleaved `childs` list. -/
inductive Node : Type where
  | mk (tagName : String) (idn : Nat) (attrs : List (String × JVal))
       (events : List (String × EvBind)) (dirty : Bool)
       (jsCalls : List String) (statics : List String) (kids : List Kid)

/-- One entry of `GTag.childs`.  A producer kid also carries its
`__rendered_callables` entry: the tags its latest evaluation produced. -/
inductive Kid : Type where
  | text (s : String)
  | node (n : Node)
  | prodr (t : Template) (cache : List Node)
end

def Node.tagName : Node → String
  | .mk tg _ _ _ _ _ _ _ => tg

def Node.idn : Node → Nat
  | .mk _ i _ _ _ _ _ _ => i

def Node.attrs : Node → List (String × JVal)
  | .mk _ _ a _ _ _ _ _ => a

def Node.events : Node → List (String × EvBind)
  | .mk _ _ _ e _ _ _ _ => e

def Node.dirty : Node → Bool
  | .mk _ _ _ _ d _ _ _ => d

def Node.jsCalls : Node → List String
  | .mk _ _ _ _ _ j _ _ => j

def Node.statics : Node → List String
  | .mk _ _ _ _ _ _ st _ => st

def Node.kids : Node → List Kid
  | .mk _ _ _ _ _ _ _ _ks => _ks

def Node.withKids : Node → List Kid → Node
  | .mk tg i a e d j st _, ks => .mk tg i a e d j st ks

def Node.withJs : Node → List String → Node
  | .mk tg i a e d _ st ks, j => .mk tg i a e d j st ks

/-- The single quote character, for building the injected javascript. -/
def sq : String := String.singleton (Char.ofNat 39)

/-- `html.escape` (with quote escaping), as used by `_render_attrs`. -/
def escapeHtml (s : String) : String :=
  ((((s.replace "&" "&amp;").replace "<" "&lt;").replace ">" "&gt;").replace
      "\"" "&quot;").replace sq "&#x27;"

/-- The python DOM id string `f"{self.tag}-{id(self)}"`. -/
def Node.idString (n : Node) : String :=
  n.tagName ++ "-" ++ toString n.idn

/-- `core.VOID_ELEMENTS`: the fixed set of self-closing tag names. -/
def voidElements : List String :=
  ["area", "base", "br", "col", "embed", "hr", "img", "input", "link",
   "meta", "param", "source", "track", "wbr"]

/-- Python dict assignment `d[k] = v` on an insertion-ordered mapping. -/
def setAttr (attrs : List (String × JVal)) (k : String) (v : JVal) :
    List (String × JVal) :=
  if attrs.any (fun p => p.1 = k) then
    attrs.map (fun p => if p.1 = k then (k, v) else p)
  else attrs ++ [(k, v)]

/-- One attribute of `_render_attrs`: `True` renders as the bare name,
`False`/`None` is omitted, anything else as `name="escaped value"`
(names have `_` replaced by `-`). -/
def renderAttr (p : String × JVal) : List String :=
  let nm := p.1.replace "_" "-"
  match p.2 with
  | .bool true => [nm]
  | .bool false => []
  | .null => []
  | .num n => [nm ++ "=\"" ++ escapeHtml (toString n) ++ "\""]
  | .str s => [nm ++ "=\"" ++ escapeHtml s ++ "\""]

/-- The injected bridge call `htag_event('{id}', '{name}', event)`. -/
def htagEventJs (idStr nm : String) : String :=
  "htag_event(" ++ sq ++ idStr ++ sq ++ ", " ++ sq ++ nm ++ sq ++ ", event)"

/-- One event of `_render_attrs`: a literal script string is escaped, a
python callback becomes the bridge call.  (The `prevent`/`stop`
decorator prefixes are not modelled.) -/
def renderEvent (idStr : String) (p : String × EvBind) : String :=
  match p.2 with
  | .js s => "on" ++ p.1 ++ "=\"" ++ escapeHtml s ++ "\""
  | .cb _ => "on" ++ p.1 ++ "=\"" ++ htagEventJs idStr p.1 ++ "\""

/-- `GTag._render_attrs`: attributes, then events, then the id. -/
def renderAttrs (n : Node) : String :=
  let parts := n.attrs.flatMap renderAttr ++ n.events.map (renderEvent n.idString)
  let joined := String.intercalate " " parts
  (if joined = "" then "" else " " ++ joined) ++ " id=\"" ++ n.idString ++ "\""

/-- The python value a producer call returns: a string, a tag or a
(nested) list thereof. -/
inductive PyVal : Type where
  | str (s : String)
  | tag (n : Node)
  | list (vs : List PyVal)

mutual
/-- Flattening a constructor argument into `childs` entries, as
`GTag.add` does (nested lists are flattened, strings and tags kept). -/
def PyVal.toKids : PyVal → List Kid
  | .str s => [.text s]
  | .tag n => [.node n]
  | .list vs => toKidsList vs

def toKidsList : List PyVal → List Kid
  | [] => []
  | v :: vs => v.toKids ++ toKidsList vs
end

mutual
/-- The `collect` helper of `GTag._eval_child`: the tags reachable in the
returned value, in order, for the `__rendered_callables` cache. -/
def PyVal.collectTags : PyVal → List Node
  | .str _ => []
  | .tag n => [n]
  | .list vs => collectTagsList vs

def collectTagsList : List PyVal → List Node
  | [] => []
  | v :: vs => v.collectTags ++ collectTagsList vs
end

mutual
/-- Evaluate a producer body: a fresh `GTag` gets the next counter value
as id and is born dirty exactly when it was given children
(`GTag.__init__` runs `add` per argument, which sets `__dirty`). -/
def instTemplate : Template → Nat → Except String (PyVal × Nat)
  | .fails m, _ => .error m
  | .text s, c => .ok (.str s, c)
  | .list ts, c =>
    match instTemplateList ts c with
    | .error e => .error e
    | .ok (vs, c₁) => .ok (.list vs, c₁)
  | .node tg ts, c =>
    match instTemplateList ts c with
    | .error e => .error e
    | .ok (vs, c₁) =>
      .ok (.tag (Node.mk tg c₁ [] []
        (!((PyVal.list vs).toKids).isEmpty) [] [] ((PyVal.list vs).toKids)),
        c₁ + 1)

def instTemplateList : List Template → Nat → Except String (List PyVal × Nat)
  | [], c => .ok ([], c)
  | t :: ts, c =>
    match instTemplate t c with
    | .error e => .error e
    | .ok (v, c₁) =>
      match instTemplateList ts c₁ with
      | .error e => .error e
      | .ok (vs, c₂) => .ok (v :: vs, c₂)
end

mutual
/-- `GTag.__str__` on a producer-free tree (template output, which never
contains further producers), where rendering needs no id counter. -/
def renderPureNode : Node → String
  | .mk tg i a e d j st ks =>
    let n := Node.mk tg i a e d j st ks
    let content := renderPureKids ks
    if tg ∈ voidElements then "<" ++ tg ++ renderAttrs n ++ "/>"
    else "<" ++ tg ++ renderAttrs n ++ ">" ++ content ++ "</" ++ tg ++ ">"

def renderPureKids : List Kid → String
  | [] => ""
  | k :: ks => renderPureKid k ++ renderPureKids ks

def renderPureKid : Kid → String
  | .text s => s
  | .node n => renderPureNode n
  | .prodr _ cache => renderPureCache cache

def renderPureCache : List Node → String
  | [] => ""
  | n :: ns => renderPureNode n ++ renderPureCache ns
end

mutual
/-- Stringification of a producer's value (`_eval_child` on the result):
strings raw, tags via `__str__`, lists joined. -/
def renderPyVal : PyVal → String
  | .str s => s
  | .tag n => renderPureNode n
  | .list vs => renderPyValList vs

def renderPyValList : List PyVal → String
  | [] => ""
  | v :: vs => renderPyVal v ++ renderPyValList vs
end

mutual
/-- The `process` closure of `App.render_tag`: inject `oninput` on
text-input-like tags lacking an explicit `input` binding, clear the
dirty flag, recurse into literal tag children only. -/
def processNode : Node → Node
  | .mk tg i a e _ j st ks =>
    let a₁ :=
      if tg ∈ ["input", "textarea", "select"] ∧ ¬ e.any (fun p => p.1 = "input")
      then setAttr a "oninput" (.str (htagEventJs (tg ++ "-" ++ toString i) "input"))
      else a
    Node.mk tg i a₁ e false j st (processKids ks)

def processKids : List Kid → List Kid
  | [] => []
  | k :: ks => processKid k :: processKids ks

def processKid : Kid → Kid
  | .text s => .text s
  | .node n => .node (processNode n)
  | .prodr t cache => .prodr t cache
end

mutual
/-- `GTag.__str__`: render attributes, resolve each child (evaluating
producers afresh, replacing their cache), honour the void-element set.
Returns the html, the tree with refreshed caches and the counter. -/
def renderNode : Node → Nat → Except String (String × Node × Nat)
  | .mk tg i a e d j st ks, c =>
    match renderKids ks c with
    | .error er => .error er
    | .ok (content, ks₁, c₁) =>
      if tg ∈ voidElements then
        .ok ("<" ++ tg ++ renderAttrs (Node.mk tg i a e d j st ks₁) ++ "/>",
          Node.mk tg i a e d j st ks₁, c₁)
      else
        .ok ("<" ++ tg ++ renderAttrs (Node.mk tg i a e d j st ks₁) ++ ">" ++
            content ++ "</" ++ tg ++ ">",
          Node.mk tg i a e d j st ks₁, c₁)

def renderKids : List Kid → Nat → Except String (String × List Kid × Nat)
  | [], c => .ok ("", [], c)
  | k :: ks, c =>
    match renderKid k c with
    | .error er => .error er
    | .ok (s₁, k₁, c₁) =>
      match renderKids ks c₁ with
      | .error er => .error er
      | .ok (s₂, ks₁, c₂) => .ok (s₁ ++ s₂, k₁ :: ks₁, c₂)

/-- `GTag._eval_child`: text renders raw, a tag recurses, a producer is
called (possibly raising), its produced tags replace the cache and its
value is stringified. -/
def renderKid : Kid → Nat → Except String (String × Kid × Nat)
  | .text s, c => .ok (s, .text s, c)
  | .node n, c =>
    match renderNode n c with
    | .error er => .error er
    | .ok (s, n₁, c₁) => .ok (s, .node n₁, c₁)
  | .prodr t _, c =>
    match instTemplate t c with
    | .error er => .error er
    | .ok (v, c₁) => .ok (renderPyVal v, .prodr t v.collectTags, c₁)
end

/-- `App.render_tag`: run `process` (clear dirty flags of the literal
subtree, inject auto-binding) then stringify. -/
def renderTag (n : Node) (c : Nat) : Except String (String × Node × Nat) :=
  renderNode (processNode n) c

mutual
/-- All node ids of a tree: the node itself, its literal tag children and
its cached producer output, recursively (kid order). -/
def Node.allIds : Node → List Nat
  | .mk _ i _ _ _ _ _ ks => i :: allIdsKids ks

def allIdsKids : List Kid → List Nat
  | [] => []
  | k :: ks => allIdsKid k ++ allIdsKids ks

def allIdsKid : Kid → List Nat
  | .text _ => []
  | .node n => n.allIds
  | .prodr _ cache => allIdsCache cache

def allIdsCache : List Node → List Nat
  | [] => []
  | n :: ns => n.allIds ++ allIdsCache ns
end

mutual
/-- Ids of the literal skeleton only (the node and its literal tag
children, recursively) — the part of the tree `process` walks. -/
def Node.litIds : Node → List Nat
  | .mk _ i _ _ _ _ _ ks => i :: litIdsKids ks

def litIdsKids : List Kid → List Nat
  | [] => []
  | .node n :: ks => n.litIds ++ litIdsKids ks
  | _ :: ks => litIdsKids ks
end

mutual
/-- Whether any node of the tree (caches included) is dirty. -/
def Node.anyDirty : Node → Bool
  | .mk _ _ _ _ d _ _ ks => d || anyDirtyKids ks

def anyDirtyKids : List Kid → Bool
  | [] => false
  | k :: ks => anyDirtyKid k || anyDirtyKids ks

def anyDirtyKid : Kid → Bool
  | .text _ => false
  | .node n => n.anyDirty
  | .prodr _ cache => anyDirtyCache cache

def anyDirtyCache : List Node → Bool
  | [] => false
  | n :: ns => n.anyDirty || anyDirtyCache ns
end

mutual
/-- Whether the literal skeleton is entirely clean (caches not looked at). -/
def Node.litClean : Node → Bool
  | .mk _ _ _ _ d _ _ ks => !d && litCleanKids ks

def litCleanKids : List Kid → Bool
  | [] => true
  | .node n :: ks => n.litClean && litCleanKids ks
  | _ :: ks => litCleanKids ks
end

mutual
/-- Ids of the dirty nodes that have no dirty strict ancestor: a dirty
node covers its whole subtree (literal and cached), so only the
outermost dirty nodes survive as candidates of their own. -/
def Node.minKeys : Node → List Nat
  | .mk _ i _ _ d _ _ ks => if d then [i] else minKeysKids ks

def minKeysKids : List Kid → List Nat
  | [] => []
  | k :: ks => minKeysKid k ++ minKeysKids ks

def minKeysKid : Kid → List Nat
  | .text _ => []
  | .node n => n.minKeys
  | .prodr _ cache => minKeysCache cache

def minKeysCache : List Node → List Nat
  | [] => []
  | n :: ns => n.minKeys ++ minKeysCache ns
end

mutual
/-- `GTag._trigger_mount` visit order: the node's own hook, then the
literal tag children in order, then every cached producer-output tag.
`_trigger_unmount` walks identically. -/
def Node.mountEvents : Node → List Nat
  | .mk _ i _ _ _ _ _ ks => i :: (mountEventsKidsLit ks ++ mountEventsKidsCache ks)

def mountEventsKidsLit : List Kid → List Nat
  | [] => []
  | .node n :: ks => n.mountEvents ++ mountEventsKidsLit ks
  | _ :: ks => mountEventsKidsLit ks

def mountEventsKidsCache : List Kid → List Nat
  | [] => []
  | .prodr _ cache :: ks => mountEventsCache cache ++ mountEventsKidsCache ks
  | _ :: ks => mountEventsKidsCache ks

def mountEventsCache : List Node → List Nat
  | [] => []
  | n :: ns => n.mountEvents ++ mountEventsCache ns
end

/-- `GTag._trigger_unmount`: same traversal as `_trigger_mount`, firing
`on_unmount` instead. -/
def Node.unmountEvents (n : Node) : List Nat :=
  n.mountEvents

mutual
/-- `observer._GTag__dirty = True` on the tag with id `i` (the effect of a
reactive-cell notification or any model callback step). -/
def markDirty : Node → Nat → Node
  | .mk tg i a e d j st ks, target =>
    Node.mk tg i a e (d || decide (i = target)) j st (markDirtyKids ks target)

def markDirtyKids : List Kid → Nat → List Kid
  | [], _ => []
  | k :: ks, target => markDirtyKid k target :: markDirtyKids ks target

def markDirtyKid : Kid → Nat → Kid
  | .text s, _ => .text s
  | .node n, target => .node (markDirty n target)
  | .prodr t cache, target => .prodr t (markDirtyCache cache target)

def markDirtyCache : List Node → Nat → List Node
  | [], _ => []
  | n :: ns, target => markDirty n target :: markDirtyCache ns target
end

/-- Apply a list of callback-step effects (ids to mark dirty). -/
def applyEffects (n : Node) (eff : List Nat) : Node :=
  eff.foldl markDirty n

mutual
/-- `App.find_tag`: the node itself by id, then the literal tag children,
then the cached producer output. -/
def findTag : Node → Nat → Option Node
  | .mk tg i a e d j st ks, tid =>
    if i = tid then some (Node.mk tg i a e d j st ks)
    else
      match findTagKidsLit ks tid with
      | some r => some r
      | none => findTagKidsCache ks tid

def findTagKidsLit : List Kid → Nat → Option Node
  | [], _ => none
  | .node n :: ks, tid =>
    match findTag n tid with
    | some r => some r
    | none => findTagKidsLit ks tid
  | _ :: ks, tid => findTagKidsLit ks tid

def findTagKidsCache : List Kid → Nat → Option Node
  | [], _ => none
  | .prodr _ cache :: ks, tid =>
    match findTagCache cache tid with
    | some r => some r
    | none => findTagKidsCache ks tid
  | _ :: ks, tid => findTagKidsCache ks tid

def findTagCache : List Node → Nat → Option Node
  | [], _ => none
  | n :: ns, tid =>
    match findTag n tid with
    | some r => some r
    | none => findTagCache ns tid
end

mutual
/-- The auto-sync step of `App.handle_event`: the tag `find_tag` returned
is mutated in place through `target_tag._GTag__attrs["value"] = v`,
bypassing `__setattr__`.  `find_tag` reaches the node itself, the
literal tag children and the cached producer output, so the write lands
wherever the target lives; since the write is to the object carrying
that id, every tree position holding that object (an alias) shows it. -/
def echoValueAt : Node → Nat → JVal → Node
  | .mk tg i a e d j st ks, tid, v =>
    if i = tid then Node.mk tg i (setAttr a "value" v) e d j st ks
    else Node.mk tg i a e d j st (echoValueAtKids ks tid v)

def echoValueAtKids : List Kid → Nat → JVal → List Kid
  | [], _, _ => []
  | .node n :: ks, tid, v => .node (echoValueAt n tid v) :: echoValueAtKids ks tid v
  | .prodr t cache :: ks, tid, v =>
    .prodr t (echoValueAtCache cache tid v) :: echoValueAtKids ks tid v
  | k :: ks, tid, v => k :: echoValueAtKids ks tid v

def echoValueAtCache : List Node → Nat → JVal → List Node
  | [], _, _ => []
  | n :: ns, tid, v => echoValueAt n tid v :: echoValueAtCache ns tid v
end

/-- The in-place effect of the echo write on the found tag itself:
`_GTag__attrs["value"] = v` and nothing else. -/
def echoSelf : Node → JVal → Node
  | .mk tg i a e d j st ks, v => .mk tg i (setAttr a "value" v) e d j st ks

/-- Append each fragment not already collected (`if s_str not in result`). -/
def csAddAll : List String → List String → List String
  | [], acc => acc
  | s :: ss, acc => csAddAll ss (if s ∈ acc then acc else acc ++ [s])

mutual
/-- `App.collect_statics`: statics of the node (appended unless already
present), then the literal tag children, then the cached producer
output. -/
def collectStatics : Node → List String → List String
  | .mk _ _ _ _ _ _ st ks, acc => csKids ks (csAddAll st acc)

def csKids : List Kid → List String → List String
  | [], acc => acc
  | .node n :: ks, acc => csKids ks (collectStatics n acc)
  | .prodr _ cache :: ks, acc => csKids ks (csCache cache acc)
  | _ :: ks, acc => csKids ks acc

def csCache : List Node → List String → List String
  | [], acc => acc
  | n :: ns, acc => csCache ns (collectStatics n acc)
end

mutual
/-- Whether a template contains no raising producer body. -/
def tmplOk : Template → Bool
  | .fails _ => false
  | .text _ => true
  | .node _ ts => tmplOkList ts
  | .list ts => tmplOkList ts

def tmplOkList : List Template → Bool
  | [] => true
  | t :: ts => tmplOk t && tmplOkList ts
end

mutual
/-- Whether no producer anywhere in the tree can raise when called. -/
def Node.noFails : Node → Bool
  | .mk _ _ _ _ _ _ _ ks => noFailsKids ks

def noFailsKids : List Kid → Bool
  | [] => true
  | k :: ks => noFailsKid k && noFailsKids ks

def noFailsKid : Kid → Bool
  | .text _ => true
  | .node n => n.noFails
  | .prodr t cache => tmplOk t && noFailsCache cache

def noFailsCache : List Node → Bool
  | [] => true
  | n :: ns => n.noFails && noFailsCache ns
end

mutual
/-- Weight of a template: an upper bound of the weight of anything it can
instantiate, used for the reconciliation fuel. -/
def wTmpl : Template → Nat
  | .fails _ => 1
  | .text _ => 1
  | .node _ ts => 3 + wTmplList ts
  | .list ts => 1 + wTmplList ts

def wTmplList : List Template → Nat
  | [] => 0
  | t :: ts => wTmpl t + wTmplList ts
end

mutual
/-- Weight of a tree: an upper bound (stable under rendering, since a
producer kid weighs at least any cache its template can produce) of the
number of node visits a reconciliation pass can make. -/
def Node.weight : Node → Nat
  | .mk _ _ _ _ _ _ _ ks => 1 + wKids ks

def wKids : List Kid → Nat
  | [] => 0
  | k :: ks => wKid k + wKids ks

def wKid : Kid → Nat
  | .text _ => 1
  | .node n => 1 + n.weight
  | .prodr t cache => 1 + max (wTmpl t) (wCache cache)

def wCache : List Node → Nat
  | [] => 0
  | n :: ns => 1 + n.weight + wCache ns
end

/-- The `for child in tag.childs` loop of `collect_updates`: recurse (via
`go`, the next fuel stage of `cuGo`) into literal tag kids. -/
def cuKidsLitF
    (go : Node → Nat → Except String (Node × Nat × List (Nat × String) × List String)) :
    List Kid → Nat → Except String (List Kid × Nat × List (Nat × String) × List String)
  | [], c => .ok ([], c, [], [])
  | .node n :: ks, c =>
    match go n c with
    | .error e => .error e
    | .ok (n₁, c₁, u₁, j₁) =>
      match cuKidsLitF go ks c₁ with
      | .error e => .error e
      | .ok (ks₁, c₂, u₂, j₂) => .ok (.node n₁ :: ks₁, c₂, u₁ ++ u₂, j₁ ++ j₂)
  | k :: ks, c =>
    match cuKidsLitF go ks c with
    | .error e => .error e
    | .ok (ks₁, c₁, u, j) => .ok (k :: ks₁, c₁, u, j)

def cuCacheListF
    (go : Node → Nat → Except String (Node × Nat × List (Nat × String) × List String)) :
    List Node → Nat → Except String (List Node × Nat × List (Nat × String) × List String)
  | [], c => .ok ([], c, [], [])
  | n :: ns, c =>
    match go n c with
    | .error e => .error e
    | .ok (n₁, c₁, u₁, j₁) =>
      match cuCacheListF go ns c₁ with
      | .error e => .error e
      | .ok (ns₁, c₂, u₂, j₂) => .ok (n₁ :: ns₁, c₂, u₁ ++ u₂, j₁ ++ j₂)

/-- The `for tag_list in rendered.values()` loop of `collect_updates`:
recurse into every cached producer-output tag, rebuilding the kid list
produced by the literal pass (which leaves producer kids untouched). -/
def cuKidsCacheF
    (go : Node → Nat → Except String (Node × Nat × List (Nat × String) × List String)) :
    List Kid → List Kid → Nat →
      Except String (List Kid × Nat × List (Nat × String) × List String)
  | [], _, c => .ok ([], c, [], [])
  | _ :: _, [], c => .ok ([], c, [], [])
  | .prodr _ cache :: os, p :: ps, c =>
    match cuCacheListF go cache c with
    | .error e => .error e
    | .ok (cache₁, c₁, u₁, j₁) =>
      match cuKidsCacheF go os ps c₁ with
      | .error e => .error e
      | .ok (rest, c₂, u₂, j₂) =>
        .ok ((match p with
              | .prodr t₂ _ => Kid.prodr t₂ cache₁
              | other => other) :: rest, c₂, u₁ ++ u₂, j₁ ++ j₂)
  | _ :: os, p :: ps, c =>
    match cuKidsCacheF go os ps c with
    | .error e => .error e
    | .ok (rest, c₁, u, j) => .ok (p :: rest, c₁, u, j)

/-- `App.collect_updates`, fuelled (the recursion is not structural: a
rendered dirty node's refreshed caches are traversed next).  Per node:
render if dirty (keying the update map by id), recurse into the literal
tag children, then into the cached producer output (read after the
render), then drain the node's pending js calls after those of its
descendants. -/
def cuGo : Nat → Node → Nat → Except String (Node × Nat × List (Nat × String) × List String)
  | 0, _, _ => .error "recursion limit"
  | fuel + 1, n, c =>
    match (if n.dirty then
        match renderTag n c with
        | .error e => Except.error e
        | .ok (s, n', c') => Except.ok (n', c', [(n.idn, s)])
      else Except.ok (n, c, ([] : List (Nat × String)))) with
    | .error e => .error e
    | .ok (n₁, c₁, ups₁) =>
      match cuKidsLitF (cuGo fuel) n₁.kids c₁ with
      | .error e => .error e
      | .ok (ks₂, c₂, ups₂, js₂) =>
        match cuKidsCacheF (cuGo fuel) n₁.kids ks₂ c₂ with
        | .error e => .error e
        | .ok (ks₃, c₃, ups₃, js₃) =>
          .ok ((n₁.withKids ks₃).withJs [], c₃, ups₁ ++ ups₂ ++ ups₃,
               js₂ ++ js₃ ++ n₁.jsCalls)

/-- One reconciliation pass over the tree rooted at `n`: `collect_updates`
with fuel that always suffices (`Node.weight` dominates the visits a
pass can make; see the fuel-sufficiency theorem). -/
def collectUpdates (n : Node) (c : Nat) : Except String (Node × Nat × List (Nat × String) × List String) :=
  cuGo n.weight n c

def Node.withDirty : Node → Bool → Node
  | .mk tg i a e _ j st ks, d => .mk tg i a e d j st ks

/-- `GTag.add(self=p, item=c)` for attaching a subtree in the tree model:
when `self` is rooted the subtree's mount hooks fire
(`item._trigger_mount()`), the child list gains the subtree, the parent
goes dirty.  Returns the parent and the fired hooks. -/
def Node.addSubtree (p : Node) (rooted : Bool) (c : Node) : Node × List Nat :=
  ((p.withKids (p.kids ++ [.node c])).withDirty true,
   if rooted then c.mountEvents else [])

/-- `self.childs.remove(item)`: drop the first literal child whose object
identity (its id) matches, returning it. -/
def removeKidById : List Kid → Nat → List Kid × Option Node
  | [], _ => ([], none)
  | .node n :: ks, i =>
    if n.idn = i then (ks, some n)
    else
      let r := removeKidById ks i
      (.node n :: r.1, r.2)
  | k :: ks, i =>
    let r := removeKidById ks i
    (k :: r.1, r.2)

/-- `GTag.remove(self=p, item)` for detaching a subtree in the tree model:
when the item is a child and `self` is rooted, the subtree's unmount
hooks fire (`item._trigger_unmount()`); the child is dropped and the
parent goes dirty. -/
def Node.removeSubtree (p : Node) (rooted : Bool) (i : Nat) : Node × List Nat :=
  match removeKidById p.kids i with
  | (ks₁, some n) =>
    ((p.withKids ks₁).withDirty true, if rooted then n.unmountEvents else [])
  | (_, none) => (p, [])

mutual
/-- Whether the tree holds no producer kid at all (true of any tree a
template instantiation produces). -/
def Node.prodFree : Node → Bool
  | .mk _ _ _ _ _ _ _ ks => prodFreeKids ks

def prodFreeKids : List Kid → Bool
  | [] => true
  | .text _ :: ks => prodFreeKids ks
  | .node n :: ks => n.prodFree && prodFreeKids ks
  | .prodr _ _ :: _ => false
end

mutual
/-- Whether every node of the tree is dirty exactly when it has children —
the state of any freshly instantiated tree (`__init__` leaves the flag
off and `add` raises it per child). -/
def Node.dirtyIffKids : Node → Bool
  | .mk _ _ _ _ d _ _ ks => (d == !ks.isEmpty) && dirtyIffKidsList ks

def dirtyIffKidsList : List Kid → Bool
  | [] => true
  | .text _ :: ks => dirtyIffKidsList ks
  | .node n :: ks => n.dirtyIffKids && dirtyIffKidsList ks
  | .prodr _ cache :: ks => dirtyIffKidsCache cache && dirtyIffKidsList ks

def dirtyIffKidsCache : List Node → Bool
  | [] => true
  | n :: ns => n.dirtyIffKids && dirtyIffKidsCache ns
end

/-- A freshly instantiated cache tree: producer-free, dirty exactly where
it has children, with all ids inside `[lo, hi)`. -/
def freshTree (lo hi : Nat) (n : Node) : Prop :=
  n.prodFree = true ∧ n.dirtyIffKids = true ∧
    ∀ i ∈ n.allIds, lo ≤ i ∧ i < hi

mutual
/-- Whether every producer cache anywhere in the tree is a fresh
instantiation with ids inside `[lo, hi)` — the state a render leaves
the tree in. -/
def Node.cachesFresh : Node → Nat → Nat → Prop
  | .mk _ _ _ _ _ _ _ ks, lo, hi => cachesFreshKids ks lo hi

def cachesFreshKids : List Kid → Nat → Nat → Prop
  | [], _, _ => True
  | .text _ :: ks, lo, hi => cachesFreshKids ks lo hi
  | .node n :: ks, lo, hi => n.cachesFresh lo hi ∧ cachesFreshKids ks lo hi
  | .prodr _ cache :: ks, lo, hi =>
    (∀ n ∈ cache, freshTree lo hi n) ∧ cachesFreshKids ks lo hi
end

/- ----------------------------------------------------------------------
Server model: `server.App` — one session's tree root plus its transports,
with the outgoing wire traffic reified as an ordered trace.
---------------------------------------------------------------------- -/

/-- A transport of the session: one duplex websocket client or one SSE
queue, each named by an opaque number. -/
inductive Dest where
  | ws (k : Nat)
  | sse (k : Nat)
deriving DecidableEq, Repr

/-- An outbound wire message.  `update` is
`{action: "update", updates, js, statics, callback_id?, result?}` —
the correlation id and result are present together or not at all.
`error` is `{action: "error", traceback, callback_id, result: null}`
(the null result is implicit here). -/
inductive OutMsg where
  | update (updates : List (Nat × String)) (js : List String)
           (statics : List String) (cb : Option (String × RVal))
  | error (traceback : String) (callbackId : Option String)

/-- An inbound client event message
`{id, event, data: {value?, callback_id?, ...}}`.  A missing or
non-string id is `none` (the `isinstance(tag_id, str)` guard). -/
structure InMsg where
  targetId : Option Nat
  eventName : Option String
  dataValue : Option JVal
  callbackId : Option String

/-- One session of `server.App`: the tree root (the `body` tag the `App`
itself is), the fresh-id counter, `debug`, the attached transports and
the statics already sent to this browser session. -/
structure App where
  root : Node
  ctr : Nat
  debug : Bool
  websockets : List Nat
  sseQueues : List Nat
  sentStatics : List String

/-- Push one payload to every websocket client, then to every SSE queue
(the two send loops of `broadcast_updates`). -/
def sendAll (app : App) (m : OutMsg) : List (Dest × OutMsg) :=
  app.websockets.map (fun k => (Dest.ws k, m)) ++
    app.sseQueues.map (fun k => (Dest.sse k, m))

/-- Python truthiness of the optional correlation id (`if callback_id:`). -/
def truthyCb : Option String → Bool
  | some s => !(s == "")
  | none => false

/-- `App.broadcast_updates`: collect the pass; on a collection error, send
one protocol error message to every attached transport and abort —
the partially collected update map is dropped.  Otherwise compute the
not-yet-sent statics, and if there is anything to say (updates, js,
new statics, or a truthy correlation id) record the statics as sent and
push one update message to every transport. -/
def broadcastUpdates (app : App) (result : RVal) (callbackId : Option String) :
    App × List (Dest × OutMsg) :=
  match collectUpdates app.root app.ctr with
  | .error e =>
    let tb := if app.debug then e else "Internal Server Error"
    (app, sendAll app (.error tb callbackId))
  | .ok (root₁, c₁, ups, js) =>
    let allStatics := collectStatics root₁ []
    let newStatics := allStatics.filter (fun s => s ∉ app.sentStatics)
    if ups ≠ [] ∨ js ≠ [] ∨ newStatics ≠ [] ∨ truthyCb callbackId then
      let app₁ := { app with root := root₁, ctr := c₁,
                             sentStatics := app.sentStatics ++ newStatics }
      let m := OutMsg.update ups js newStatics
        (if truthyCb callbackId then some (callbackId.getD "", result) else none)
      (app₁, sendAll app₁ m)
    else ({ app with root := root₁, ctr := c₁ }, [])

/-- Drive a generator / async generator: each completed resumption applies
its effects, then `broadcast_updates()` runs with no result and no
correlation id. -/
def runYields (app : App) (tr : List (Dest × OutMsg)) :
    List (List Nat) → App × List (Dest × OutMsg)
  | [] => (app, tr)
  | eff :: rest =>
    let app₁ := { app with root := applyEffects app.root eff }
    let (app₂, tr₁) := broadcastUpdates app₁ RVal.null none
    runYields app₂ (tr ++ tr₁) rest

/-- Execute a bound callback in any of its four shapes, returning the
session after its effects and intermediate broadcasts, the trace so
far and the completion outcome.  A generator's completion value is its
`StopIteration` value; an async generator completes with `None`
(`res = None` in the source). -/
def runCallback (app : App) (cb : Callback) :
    App × List (Dest × OutMsg) × Except String RVal :=
  match cb with
  | .direct eff out => ({ app with root := applyEffects app.root eff }, [], out)
  | .asyncDirect eff out => ({ app with root := applyEffects app.root eff }, [], out)
  | .gen yields fin =>
    let (app₁, tr) := runYields app [] yields
    match fin with
    | .error e => (app₁, tr, .error e)
    | .ok (eff, v) => ({ app₁ with root := applyEffects app₁.root eff }, tr, .ok v)
  | .asyncGen yields fin =>
    let (app₁, tr) := runYields app [] yields
    match fin with
    | .error e => (app₁, tr, .error e)
    | .ok eff => ({ app₁ with root := applyEffects app₁.root eff }, tr, .ok RVal.null)

/-- The `except` branch of `handle_event`: one error payload
(`traceback` full in debug mode, generic otherwise, plus the
correlation id and a null result), delivered to the originating
websocket when the event arrived on one, otherwise to every SSE queue
of the session. -/
def emitError (app : App) (e : String) (cbid : Option String) (ws : Option Nat)
    (tr : List (Dest × OutMsg)) : App × List (Dest × OutMsg) :=
  let msg := OutMsg.error (if app.debug then e else "Internal Server Error") cbid
  match ws with
  | some w => (app, tr ++ [(Dest.ws w, msg)])
  | none => (app, tr ++ app.sseQueues.map (fun k => (Dest.sse k, msg)))

/-- `App.handle_event`: drop messages without a usable id or whose id
matches no reachable tag; echo an inbound `value` straight into the
target's attribute dict; then dispatch on the bound callback (a literal
script string bound as handler raises `TypeError` when called); a
successful completion coerces a returned tag to `True` and triggers the
final broadcast with result and correlation id; a raising callback
takes the error path instead. -/
def handleEvent (app : App) (m : InMsg) (ws : Option Nat) :
    App × List (Dest × OutMsg) :=
  match m.targetId with
  | none => (app, [])
  | some tid =>
    match findTag app.root tid with
    | none => (app, [])
    | some target =>
      let cbid := m.callbackId
      let app₁ :=
        match m.dataValue with
        | some v => { app with root := echoValueAt app.root tid v }
        | none => app
      match m.eventName.bind
          (fun nm => (target.events.find? (fun p => p.1 = nm)).map Prod.snd) with
      | none => broadcastUpdates app₁ RVal.null cbid
      | some (.js _) =>
        emitError app₁ "TypeError: str object is not callable" cbid ws []
      | some (.cb cb) =>
        let (app₂, tr, outcome) := runCallback app₁ cb
        match outcome with
        | .ok v =>
          let v₁ := match v with | .tagVal => RVal.bool true | other => other
          let (app₃, tr₁) := broadcastUpdates app₂ v₁ cbid
          (app₃, tr ++ tr₁)
        | .error e => emitError app₂ e cbid ws tr

/-- `App._render_page`: render the initial body (an error is caught and
replaced by a best-effort error body), then clear the sent-statics
record, collect every static of the whole tree, record them all as
sent and inline them in the page.  Returns the session, the inlined
statics and the body html. -/
def renderPage (app : App) : App × List String × String :=
  match renderTag app.root app.ctr with
  | .ok (body, root₁, c₁) =>
    let statics := collectStatics root₁ []
    ({ app with root := root₁, ctr := c₁, sentStatics := statics }, statics, body)
  | .error e =>
    let statics := collectStatics app.root []
    ({ app with sentStatics := statics }, statics,
     if app.debug then "<body><htag-error show=\"true\"/>" ++ e ++ "</body>"
     else "<body><h1>Internal Server Error</h1></body>")

/-- The statics field of a broadcast's update message ([] when the
broadcast sent nothing or sent an error). -/
def traceStatics : List (Dest × OutMsg) → List String
  | (_, OutMsg.update _ _ st _) :: _ => st
  | _ => []

/-- A session after its initial page: each round lets user code mutate
the tree arbitrarily (callbacks can add tags and with them new statics;
they never touch `sent_statics`), then one `broadcast_updates` runs.
Returns the statics field pushed by each round. -/
def sessionStaticsRun (app : App) : List (Node × Nat) → List (List String)
  | [] => []
  | mu :: rest =>
    let app₁ := { app with root := mu.1, ctr := mu.2 }
    let (app₂, tr) := broadcastUpdates app₁ RVal.null none
    traceStatics tr :: sessionStaticsRun app₂ rest

/-- A small concrete session for exercising event dispatch: a body holding
an input tag (with a bound click callback) and a producer-cached span. -/
def demoRoot : Node :=
  Node.mk "body" 0 [] [] false [] []
    [.node (Node.mk "input" 1 [("value", JVal.str "a"), ("class", JVal.str "c")]
       [("click", EvBind.cb (.direct [] (.ok (.num 5))))] false [] [] []),
     .prodr (.text "t") [Node.mk "span" 2 [] [] false [] [] []]]

def demoApp : App := ⟨demoRoot, 10, true, [31], [41], []⟩

/-- A session whose dirty root holds a raising producer, so the next
reconciliation pass fails. -/
def failRoot : Node :=
  Node.mk "body" 0 [] [] true [] [] [.prodr (.fails "boom") []]

def failApp : App := ⟨failRoot, 10, true, [1, 2], [7], []⟩

/-- A session for the statics lifecycle: the page declares `S1`; later
user code declares `S2` as well. -/
def c9root : Node := Node.mk "body" 0 [] [] false [] ["S1"] []

def c9app : App := ⟨c9root, 5, true, [3], [], []⟩

def c9round : Node := Node.mk "body" 0 [] [] false [] ["S1", "S2"] []

/-- The exception a callback's execution ends in, if any (`direct` and
`async` raise from the call itself, a generator or async generator from
a resumption after its yields). -/
def Callback.raises : Callback → Option String
  | .direct _ (.error e) => some e
  | .asyncDirect _ (.error e) => some e
  | .gen _ (.error e) => some e
  | .asyncGen _ (.error e) => some e
  | _ => none

/-- The value a callback's execution completes with, if it does not raise
(a generator completes with its `StopIteration` value, an async
generator always with `None`). -/
def Callback.completes : Callback → Option RVal
  | .direct _ (.ok v) => some v
  | .asyncDirect _ (.ok v) => some v
  | .gen _ (.ok p) => some p.2
  | .asyncGen _ (.ok _) => some RVal.null
  | _ => none

/-- The result coercion of `handle_event`: a returned `GTag` becomes the
boolean `True` on the wire, anything else passes through. -/
def coerceResult : RVal → RVal
  | .tagVal => .bool true
  | v => v

/-- Whether an outbound message is an update payload (as opposed to a
protocol error payload). -/
def OutMsg.isUpdate : OutMsg → Bool
  | .update _ _ _ _ => true
  | .error _ _ => false

/-- Whether an outbound message carries no correlation id — the shape of
everything an intermediate (yield-time) broadcast can emit, which runs
with `callback_id=None`. -/
def noCbMsg : OutMsg → Bool
  | .update _ _ _ cb => cb.isNone
  | .error _ cbid => cbid.isNone

/-- Whether a message is an update payload without correlation id. -/
def isUpdateNone : OutMsg → Bool
  | .update _ _ _ none => true
  | _ => false

mutual
/-- Ids of the nodes whose dirty flag is currently raised, everywhere in
the tree (literal children and cached producer output alike). -/
def Node.dirtyIds : Node → List Nat
  | .mk _ i _ _ d _ _ ks => (if d then [i] else []) ++ dirtyIdsKids ks

def dirtyIdsKids : List Kid → List Nat
  | [] => []
  | k :: ks => dirtyIdsKid k ++ dirtyIdsKids ks

def dirtyIdsKid : Kid → List Nat
  | .text _ => []
  | .node n => n.dirtyIds
  | .prodr _ cache => dirtyIdsCache cache

def dirtyIdsCache : List Node → List Nat
  | [] => []
  | n :: ns => n.dirtyIds ++ dirtyIdsCache ns
end

/-- Kid-level view of `litCleanKids`: a literal tag child must be clean,
anything else imposes nothing. -/
def litCleanKid : Kid → Bool
  | .node n => n.litClean
  | _ => true

/-- Kid-level view of `cachesFreshKids`. -/
def cachesFreshKid : Kid → Nat → Nat → Prop
  | .text _, _, _ => True
  | .node n, lo, hi => n.cachesFresh lo hi
  | .prodr _ cache, lo, hi => ∀ n ∈ cache, freshTree lo hi n

/-- A clean body whose dirty div child holds a dirty span grandchild: the
pass renders the div whole, so the span never contributes a key of its
own. -/
def c1root : Node :=
  Node.mk "body" 0 [] [] false [] []
    [.node (Node.mk "div" 1 [] [] true [] []
       [.node (Node.mk "span" 2 [] [] true [] [] [])])]

/-- A session whose one bound callback is a generator that dirties the
root on its first yield and then raises. -/
def c4root : Node :=
  Node.mk "body" 0 [] [("click", EvBind.cb (.gen [[0]] (.error "err1")))]
    false [] [] []

def c4app : App := ⟨c4root, 10, true, [31], [], []⟩

def c4msg : InMsg := ⟨some 0, some "click", none, some "K"⟩

/-- A click on the demo input, carrying a correlation id. -/
def c6msg : InMsg := ⟨some 1, some "click", none, some "K"⟩

/-- The demo session's reactively produced span: it lives only inside the
producer cache of `demoRoot`, never among literal children. -/
def c8span : Node := Node.mk "span" 2 [] [] false [] [] []

/-- The input tag of the demo session, as found by `find_tag`. -/
def c6target : Node :=
  Node.mk "input" 1 [("value", JVal.str "a"), ("class", JVal.str "c")]
    [("click", EvBind.cb (.direct [] (.ok (.num 5))))] false [] [] []

/- ----------------------------------------------------------------------
Theorems.
---------------------------------------------------------------------- -/

/-- C2: for every reactive cell and node — reading the cell's value while
the node is rendering (`_ctx.current_eval = some i`) registers the node
in the observer set and yields the stored value; reading outside a
render changes nothing; assigning a value unequal (by equality) to the
stored value stores it and sets the dirty flag of exactly the
registered observers and of no other node; assigning an equal value
sets no flag and changes nothing; `notify()` marks all observers dirty
without requiring a value change. -/
theorem claim_C2_reactive_cell {α : Type} [DecidableEq α] (s : StateCell α)
    (i j : Nat) (v : α) (w : Nat → Bool) :
    (i ∈ (StateCell.readValue (some i) s).2.observers ∧
      (StateCell.readValue (some i) s).1 = s.value) ∧
    StateCell.readValue none s = (s.value, s) ∧
    (s.value ≠ v →
      (s.setValue v w).1.value = v ∧
      (j ∈ s.observers → (s.setValue v w).2 j = true) ∧
      (j ∉ s.observers → (s.setValue v w).2 j = w j)) ∧
    (s.value = v → s.setValue v w = (s, w)) ∧
    (j ∈ s.observers → s.notify w j = true) ∧
    (j ∉ s.observers → s.notify w j = w j) := by
  refine ⟨⟨?_, rfl⟩, rfl, ?_, ?_, ?_, ?_⟩
  · simp only [StateCell.readValue, StateCell.addObserver]
    by_cases h : i ∈ s.observers
    · simp [h]
    · simp [h]
  · intro hne
    refine ⟨?_, ?_, ?_⟩
    · simp [StateCell.setValue, hne]
    · intro hj
      simp [StateCell.setValue, hne, StateCell.notifyObservers, hj]
    · intro hj
      simp [StateCell.setValue, hne, StateCell.notifyObservers, hj]
  · intro he
    simp [StateCell.setValue, he]
  · intro hj
    simp [StateCell.notify, StateCell.notifyObservers, hj]
  · intro hj
    simp [StateCell.notify, StateCell.notifyObservers, hj]

/-- Witness for C2: a concrete cell holding `0` observed by node `3`;
writing `1` marks node `3` dirty and leaves node `9` untouched, writing
`0` again changes nothing. -/
theorem claim_C2_reactive_cell_witness :
    7 ∈ (StateCell.readValue (some 7) (⟨(0 : Nat), [3]⟩ : StateCell Nat)).2.observers ∧
    ((⟨(0 : Nat), [3]⟩ : StateCell Nat).setValue 1 (fun _ => false)).2 3 = true ∧
    ((⟨(0 : Nat), [3]⟩ : StateCell Nat).setValue 1 (fun _ => false)).2 9 = false ∧
    ((⟨(0 : Nat), [3]⟩ : StateCell Nat).setValue 0 (fun _ => false)) =
      (⟨(0 : Nat), [3]⟩, fun _ => false) := by
  have h3 := claim_C2_reactive_cell (⟨(0 : Nat), [3]⟩ : StateCell Nat) 7 3 1 (fun _ => false)
  have h9 := claim_C2_reactive_cell (⟨(0 : Nat), [3]⟩ : StateCell Nat) 7 9 1 (fun _ => false)
  have h0 := claim_C2_reactive_cell (⟨(0 : Nat), [3]⟩ : StateCell Nat) 7 3 0 (fun _ => false)
  exact ⟨h3.1.1, (h3.2.2.1 (by decide)).2.1 (by decide),
    (h9.2.2.1 (by decide)).2.2 (by decide), h0.2.2.2.1 rfl⟩

theorem HStore.upd_out {s : HStore} {i : Nat} (f : PNode → PNode)
    (h : s.get? i = none) : s.upd i f = s := by
  unfold HStore.upd
  rw [show List.get? s i = none from h]

theorem HStore.length_upd (s : HStore) (i : Nat) (f : PNode → PNode) :
    (s.upd i f).length = s.length := by
  unfold HStore.upd
  cases h : List.get? s i
  · rfl
  · exact List.length_set ..

theorem HStore.get?_upd (s : HStore) (i : Nat) (f : PNode → PNode) (k : Nat) :
    (s.upd i f).get? k = if i = k then (s.get? i).map f else s.get? k := by
  show (s.upd i f).get? k = if i = k then (List.get? s i).map f else List.get? s k
  unfold HStore.upd
  cases h : List.get? s i with
  | none =>
    have hlen : s.length ≤ i := by
      rw [List.get?_eq_getElem?, List.getElem?_eq_none_iff] at h
      exact h
    by_cases hik : i = k
    · subst hik
      simp [HStore.get?, h, hlen]
    · simp [hik, HStore.get?, List.get?_eq_getElem?]
  | some p =>
    have hi : i < s.length := by
      by_contra hle
      rw [List.get?_eq_getElem?, List.getElem?_eq_none (Nat.le_of_not_lt hle)] at h
      exact Option.noConfusion h
    show (List.set s i (f p)).get? k = _
    by_cases hik : i = k
    · subst hik
      rw [List.get?_eq_getElem?, List.getElem?_set, if_pos rfl, if_pos hi]
      simp
    · rw [List.get?_eq_getElem?, List.getElem?_set, if_neg hik,
        ← List.get?_eq_getElem?]
      simp [hik]

theorem HStore.childsOf_upd_self {s : HStore} {i : Nat} {p : PNode}
    (f : PNode → PNode) (h : s.get? i = some p) :
    (s.upd i f).childsOf i = (f p).childs := by
  unfold HStore.childsOf
  rw [HStore.get?_upd, if_pos rfl, h]
  rfl

theorem HStore.childsOf_upd_ne {s : HStore} {i k : Nat} (f : PNode → PNode)
    (h : i ≠ k) : (s.upd i f).childsOf k = s.childsOf k := by
  unfold HStore.childsOf
  rw [HStore.get?_upd, if_neg h]

theorem HStore.parentOf_upd_self {s : HStore} {i : Nat} {p : PNode}
    (f : PNode → PNode) (h : s.get? i = some p) :
    (s.upd i f).parentOf i = (f p).parent := by
  unfold HStore.parentOf
  rw [HStore.get?_upd, if_pos rfl, h]
  rfl

theorem HStore.parentOf_upd_ne {s : HStore} {i k : Nat} (f : PNode → PNode)
    (h : i ≠ k) : (s.upd i f).parentOf k = s.parentOf k := by
  unfold HStore.parentOf
  rw [HStore.get?_upd, if_neg h]

theorem HStore.get?_isSome_of_mem_childs {s : HStore} {i : Nat} {c : HChild}
    (h : c ∈ s.childsOf i) : ∃ p, s.get? i = some p := by
  unfold HStore.childsOf at h
  cases hg : s.get? i with
  | none => rw [hg] at h; exact absurd h (List.not_mem_nil c)
  | some p => exact ⟨p, rfl⟩

theorem HStore.get?_of_lt {s : HStore} {i : Nat} (h : i < s.length) :
    ∃ p, s.get? i = some p := by
  cases hg : s.get? i with
  | none =>
    rw [show HStore.get? s i = List.get? s i from rfl, List.get?_eq_getElem?,
      List.getElem?_eq_none_iff] at hg
    omega
  | some p => exact ⟨p, rfl⟩

theorem HStore.childsOf_eq_of_get? {s : HStore} {i : Nat} {p : PNode}
    (h : s.get? i = some p) : s.childsOf i = p.childs := by
  unfold HStore.childsOf
  rw [h]

theorem HStore.childsOf_upd_preserve {s : HStore} (f : PNode → PNode)
    (hf : ∀ p, (f p).childs = p.childs) (i k : Nat) :
    (s.upd i f).childsOf k = s.childsOf k := by
  by_cases hik : i = k
  · subst hik
    cases hg : s.get? i with
    | none => rw [HStore.upd_out f hg]
    | some p =>
      rw [HStore.childsOf_upd_self f hg, hf, HStore.childsOf_eq_of_get? hg]
  · exact HStore.childsOf_upd_ne f hik

theorem HStore.parentOf_eq_of_get? {s : HStore} {i : Nat} {p : PNode}
    (h : s.get? i = some p) : s.parentOf i = p.parent := by
  unfold HStore.parentOf
  rw [h]

theorem HStore.parentOf_upd_preserve {s : HStore} (f : PNode → PNode)
    (hf : ∀ p, (f p).parent = p.parent) (i k : Nat) :
    (s.upd i f).parentOf k = s.parentOf k := by
  by_cases hik : i = k
  · subst hik
    cases hg : s.get? i with
    | none => rw [HStore.upd_out f hg]
    | some p =>
      rw [HStore.parentOf_upd_self f hg, hf, HStore.parentOf_eq_of_get? hg]
  · exact HStore.parentOf_upd_ne f hik

/-- Field-level description of `GTag.remove` when the removed item is a
tag currently in the child list: the reference is erased, the child's
parent pointer is cleared, nothing else moves. -/
theorem HStore.removeChild_node_state {s : HStore} {i j : Nat}
    (hmem : HChild.node j ∈ s.childsOf i) (hj : j < s.length) :
    (s.removeChild i (.node j)).1.length = s.length ∧
    (s.removeChild i (.node j)).1.childsOf i = (s.childsOf i).erase (.node j) ∧
    (∀ k, k ≠ i → (s.removeChild i (.node j)).1.childsOf k = s.childsOf k) ∧
    (s.removeChild i (.node j)).1.parentOf j = none ∧
    (∀ k, k ≠ j → (s.removeChild i (.node j)).1.parentOf k = s.parentOf k) := by
  obtain ⟨p, hp⟩ := HStore.get?_isSome_of_mem_childs hmem
  have hres : (s.removeChild i (.node j)).1 =
      ((s.upd i (fun q => { q with childs := q.childs.erase (HChild.node j) })).upd
          j (fun q => { q with parent := none })).upd i
        (fun q => { q with dirty := true }) := by
    unfold HStore.removeChild
    rw [if_pos hmem]
  set s₁ := s.upd i (fun q => { q with childs := q.childs.erase (HChild.node j) })
    with hs₁
  set s₂ := s₁.upd j (fun q => { q with parent := none }) with hs₂
  have hlen₁ : s₁.length = s.length := HStore.length_upd ..
  have hlen₂ : s₂.length = s₁.length := HStore.length_upd ..
  have hchilds₁i : s₁.childsOf i = (s.childsOf i).erase (.node j) := by
    rw [hs₁, HStore.childsOf_upd_self _ hp, HStore.childsOf_eq_of_get? hp]
  have hchilds₁ : ∀ k, k ≠ i → s₁.childsOf k = s.childsOf k := by
    intro k hk
    exact HStore.childsOf_upd_ne _ (fun h => hk h.symm)
  have hpar₁ : ∀ k, s₁.parentOf k = s.parentOf k := by
    intro k
    conv_lhs => rw [hs₁]
    exact HStore.parentOf_upd_preserve
      (fun q => { q with childs := q.childs.erase (HChild.node j) })
      (fun _ => rfl) i k
  have hchilds₂ : ∀ k, s₂.childsOf k = s₁.childsOf k := by
    intro k
    conv_lhs => rw [hs₂]
    exact HStore.childsOf_upd_preserve (fun q => { q with parent := none })
      (fun _ => rfl) j k
  obtain ⟨q, hq⟩ : ∃ q, s₁.get? j = some q :=
    HStore.get?_of_lt (by rw [hlen₁]; exact hj)
  have hpar₂j : s₂.parentOf j = none := by
    rw [hs₂, HStore.parentOf_upd_self _ hq]
  have hpar₂ : ∀ k, k ≠ j → s₂.parentOf k = s₁.parentOf k := by
    intro k hk
    exact HStore.parentOf_upd_ne _ (fun h => hk h.symm)
  rw [hres]
  have hcd : ∀ k, (s₂.upd i (fun q => { q with dirty := true })).childsOf k =
      s₂.childsOf k :=
    fun k => HStore.childsOf_upd_preserve (fun q => { q with dirty := true })
      (fun _ => rfl) i k
  have hpd : ∀ k, (s₂.upd i (fun q => { q with dirty := true })).parentOf k =
      s₂.parentOf k :=
    fun k => HStore.parentOf_upd_preserve (fun q => { q with dirty := true })
      (fun _ => rfl) i k
  refine ⟨?_, ?_, ?_, ?_, ?_⟩
  · rw [HStore.length_upd, hlen₂, hlen₁]
  · rw [hcd, hchilds₂, hchilds₁i]
  · intro k hk
    rw [hcd, hchilds₂, hchilds₁ k hk]
  · rw [hpd, hpar₂j]
  · intro k hk
    rw [hpd, hpar₂ k hk, hpar₁]

/-- Field-level description of `GTag.add` for a tag child: the previous
parent's reference (if any, and different from the new parent) is
erased, a previous occurrence under the new parent is dropped, the tag
is appended to the new parent's child list, and its parent pointer now
names the new parent.  Nothing else moves. -/
theorem HStore.addChild_node_state {s : HStore} (hwf : s.WF) {i j : Nat}
    (hi : i < s.length) (hj : j < s.length) :
    (s.addChild i (.node j)).1.length = s.length ∧
    (s.addChild i (.node j)).1.childsOf i =
      ((s.childsOf i).erase (.node j)) ++ [.node j] ∧
    (∀ k, k ≠ i → (s.addChild i (.node j)).1.childsOf k =
      (if s.parentOf j = some k then (s.childsOf k).erase (.node j)
       else s.childsOf k)) ∧
    (s.addChild i (.node j)).1.parentOf j = some i ∧
    (∀ k, k ≠ j → (s.addChild i (.node j)).1.parentOf k = s.parentOf k) := by
  obtain ⟨W1, W2, W3, W4⟩ := hwf
  obtain ⟨s₁, hres, hlen₁, hchilds₁, hpar₁⟩ :
      ∃ s₁ : HStore,
        (s.addChild i (.node j)).1 =
          ((s₁.upd i (fun q => { q with childs := q.childs.erase (HChild.node j) })).upd
              j (fun q => { q with parent := some i })).upd i
            (fun q => { q with childs := q.childs ++ [HChild.node j], dirty := true }) ∧
        s₁.length = s.length ∧
        (∀ k, s₁.childsOf k =
          if s.parentOf j = some k ∧ k ≠ i then (s.childsOf k).erase (.node j)
          else s.childsOf k) ∧
        (∀ k, k ≠ j → s₁.parentOf k = s.parentOf k) := by
    rcases hpj : s.parentOf j with _ | p₁
    · -- no previous parent: no detach
      refine ⟨s, ?_, rfl, ?_, fun k _ => rfl⟩
      · unfold HStore.addChild
        dsimp only
        rw [if_neg]
        simp [hpj]
      · intro k
        rw [if_neg]
        simp [hpj]
    · by_cases hp₁i : p₁ = i
      · -- already a child of the new parent: no detach
        refine ⟨s, ?_, rfl, ?_, fun k _ => rfl⟩
        · unfold HStore.addChild
          dsimp only
          rw [if_neg]
          simp [hpj, hp₁i]
        · intro k
          rw [if_neg]
          rintro ⟨hk, hki⟩
          exact hki ((Option.some_injective _ hk).symm.trans hp₁i)
      · -- reparenting: detach from the old parent first
        have hcond : s.parentOf j ≠ none ∧ s.parentOf j ≠ some i := by
          constructor
          · rw [hpj]; exact fun h => Option.noConfusion h
          · rw [hpj]; exact fun h => hp₁i (Option.some_injective _ h)
        have hmem : HChild.node j ∈ s.childsOf p₁ := W3 p₁ j hpj
        have hrm := HStore.removeChild_node_state hmem hj
        refine ⟨(s.removeChild p₁ (.node j)).1, ?_, hrm.1, ?_, ?_⟩
        · unfold HStore.addChild
          dsimp only
          rw [if_pos hcond]
          unfold HStore.removeSelf
          rw [hpj]
        · intro k
          by_cases hkp : k = p₁
          · subst hkp
            rw [if_pos ⟨rfl, fun h => hp₁i h⟩]
            exact hrm.2.1
          · rw [hrm.2.2.1 k hkp, if_neg]
            rintro ⟨hk, -⟩
            exact hkp (Option.some_injective _ hk).symm
        · intro k hk
          exact hrm.2.2.2.2 k hk
  rw [hres]
  obtain ⟨p₁', hp₁'⟩ : ∃ p, s₁.get? i = some p :=
    HStore.get?_of_lt (by rw [hlen₁]; exact hi)
  set s₂ := s₁.upd i (fun q => { q with childs := q.childs.erase (HChild.node j) })
    with hs₂
  have hlen₂ : s₂.length = s₁.length := HStore.length_upd ..
  have hchilds₂i : s₂.childsOf i = (s₁.childsOf i).erase (.node j) := by
    rw [hs₂, HStore.childsOf_upd_self _ hp₁', HStore.childsOf_eq_of_get? hp₁']
  have hchilds₂ : ∀ k, k ≠ i → s₂.childsOf k = s₁.childsOf k := by
    intro k hk
    rw [hs₂]
    exact HStore.childsOf_upd_ne _ (fun h => hk h.symm)
  have hpar₂ : ∀ k, s₂.parentOf k = s₁.parentOf k := by
    intro k
    conv_lhs => rw [hs₂]
    exact HStore.parentOf_upd_preserve
      (fun q => { q with childs := q.childs.erase (HChild.node j) })
      (fun _ => rfl) i k
  obtain ⟨q', hq'⟩ : ∃ q, s₂.get? j = some q :=
    HStore.get?_of_lt (by rw [hlen₂, hlen₁]; exact hj)
  set s₃ := s₂.upd j (fun q => { q with parent := some i }) with hs₃
  have hlen₃ : s₃.length = s₂.length := HStore.length_upd ..
  have hchilds₃ : ∀ k, s₃.childsOf k = s₂.childsOf k := by
    intro k
    conv_lhs => rw [hs₃]
    exact HStore.childsOf_upd_preserve (fun q => { q with parent := some i })
      (fun _ => rfl) j k
  have hpar₃j : s₃.parentOf j = some i := by
    rw [hs₃, HStore.parentOf_upd_self _ hq']
  have hpar₃ : ∀ k, k ≠ j → s₃.parentOf k = s₂.parentOf k := by
    intro k hk
    rw [hs₃]
    exact HStore.parentOf_upd_ne _ (fun h => hk h.symm)
  obtain ⟨r', hr'⟩ : ∃ r, s₃.get? i = some r :=
    HStore.get?_of_lt (by rw [hlen₃, hlen₂, hlen₁]; exact hi)
  have hpar₄ : ∀ k,
      (s₃.upd i (fun q => { q with childs := q.childs ++ [HChild.node j], dirty := true })).parentOf k
        = s₃.parentOf k := by
    intro k
    exact HStore.parentOf_upd_preserve
      (fun q => { q with childs := q.childs ++ [HChild.node j], dirty := true })
      (fun _ => rfl) i k
  have hchilds₄i :
      (s₃.upd i (fun q => { q with childs := q.childs ++ [HChild.node j], dirty := true })).childsOf i
        = s₃.childsOf i ++ [HChild.node j] := by
    rw [HStore.childsOf_upd_self _ hr', HStore.childsOf_eq_of_get? hr']
  have hchilds₄ : ∀ k, k ≠ i →
      (s₃.upd i (fun q => { q with childs := q.childs ++ [HChild.node j], dirty := true })).childsOf k
        = s₃.childsOf k := by
    intro k hk
    exact HStore.childsOf_upd_ne _ (fun h => hk h.symm)
  refine ⟨?_, ?_, ?_, ?_, ?_⟩
  · rw [HStore.length_upd, hlen₃, hlen₂, hlen₁]
  · rw [hchilds₄i, hchilds₃, hchilds₂i, hchilds₁ i]
    rw [if_neg (by rintro ⟨-, h⟩; exact h rfl)]
  · intro k hk
    rw [hchilds₄ k hk, hchilds₃, hchilds₂ k hk, hchilds₁ k]
    by_cases hpk : s.parentOf j = some k
    · rw [if_pos ⟨hpk, hk⟩, if_pos hpk]
    · rw [if_neg (by rintro ⟨h, -⟩; exact hpk h), if_neg hpk]
  · rw [hpar₄, hpar₃j]
  · intro k hk
    rw [hpar₄, hpar₃ k hk, hpar₂, hpar₁ k hk]

/-- `GTag.remove` preserves the one-parent invariant. -/
theorem HStore.removeChild_node_WF {s : HStore} (hwf : s.WF) (i j : Nat) :
    ((s.removeChild i (.node j)).1).WF := by
  obtain ⟨W1, W2, W3, W4⟩ := hwf
  by_cases hmem : HChild.node j ∈ s.childsOf i
  · have hj : j < s.length := W4 i j hmem
    obtain ⟨hlen, hci, hck, hpj, hpk⟩ := HStore.removeChild_node_state hmem hj
    refine ⟨?_, ?_, ?_, ?_⟩
    · intro k j'
      by_cases hki : k = i
      · subst hki
        rw [hci, List.count_erase]
        exact le_trans (Nat.sub_le _ _) (W1 k j')
      · rw [hck k hki]
        exact W1 k j'
    · intro k j' hmem'
      by_cases hji : j' = j
      · subst hji
        exfalso
        by_cases hki : k = i
        · subst hki
          rw [hci] at hmem'
          have hc1 : List.count (HChild.node j') (s.childsOf k) = 1 := by
            have h1 := W1 k j'
            have h2 : 0 < List.count (HChild.node j') (s.childsOf k) :=
              List.count_pos_iff.mpr hmem
            omega
          have h0 : List.count (HChild.node j')
              ((s.childsOf k).erase (.node j')) = 0 := by
            rw [List.count_erase_self, hc1]
          exact absurd (List.count_pos_iff.mpr hmem') (by omega)
        · rw [hck k hki] at hmem'
          have h1 := W2 k j' hmem'
          have h2 := W2 i j' hmem
          rw [h1] at h2
          exact hki (Option.some_injective _ h2)
      · by_cases hki : k = i
        · subst hki
          rw [hci] at hmem'
          rw [hpk j' hji]
          exact W2 k j' (List.mem_of_mem_erase hmem')
        · rw [hck k hki] at hmem'
          rw [hpk j' hji]
          exact W2 k j' hmem'
    · intro k j' hp
      by_cases hji : j' = j
      · subst hji
        rw [hpj] at hp
        exact absurd hp (by simp)
      · rw [hpk j' hji] at hp
        have hm := W3 k j' hp
        by_cases hki : k = i
        · subst hki
          rw [hci]
          exact (List.mem_erase_of_ne (by simp [hji])).mpr hm
        · rw [hck k hki]
          exact hm
    · intro k j' hmem'
      rw [hlen]
      by_cases hki : k = i
      · subst hki
        rw [hci] at hmem'
        exact W4 k j' (List.mem_of_mem_erase hmem')
      · rw [hck k hki] at hmem'
        exact W4 k j' hmem'
  · unfold HStore.removeChild
    rw [if_neg hmem]
    exact ⟨W1, W2, W3, W4⟩

/-- `GTag.add` preserves the one-parent invariant. -/
theorem HStore.addChild_node_WF {s : HStore} (hwf : s.WF) {i j : Nat}
    (hi : i < s.length) (hj : j < s.length) :
    ((s.addChild i (.node j)).1).WF := by
  obtain ⟨hlen, hci, hck, hpj, hpk⟩ := HStore.addChild_node_state hwf hi hj
  obtain ⟨W1, W2, W3, W4⟩ := hwf
  refine ⟨?_, ?_, ?_, ?_⟩
  · intro k j'
    by_cases hki : k = i
    · subst hki
      rw [hci, List.count_append]
      by_cases hjj : j' = j
      · subst hjj
        rw [List.count_erase_self, List.count_singleton_self]
        have := W1 k j'
        omega
      · rw [List.count_erase_of_ne (by simp [hjj]), List.count_singleton]
        have hne : (HChild.node j == HChild.node j') = false := by
          simp only [beq_eq_false_iff_ne, ne_eq, HChild.node.injEq]
          exact fun h => hjj h.symm
        rw [hne]
        simpa using W1 k j'
    · rw [hck k hki]
      by_cases hpc : s.parentOf j = some k
      · rw [if_pos hpc, List.count_erase]
        exact le_trans (Nat.sub_le _ _) (W1 k j')
      · rw [if_neg hpc]
        exact W1 k j'
  · intro k j' hmem'
    by_cases hji : j' = j
    · subst hji
      by_cases hki : k = i
      · subst hki
        exact hpj
      · exfalso
        rw [hck k hki] at hmem'
        by_cases hpc : s.parentOf j' = some k
        · rw [if_pos hpc] at hmem'
          have hm := W3 k j' hpc
          have hc1 : List.count (HChild.node j') (s.childsOf k) = 1 := by
            have h1 := W1 k j'
            have h2 : 0 < List.count (HChild.node j') (s.childsOf k) :=
              List.count_pos_iff.mpr hm
            omega
          have h0 : List.count (HChild.node j')
              ((s.childsOf k).erase (.node j')) = 0 := by
            rw [List.count_erase_self, hc1]
          exact absurd (List.count_pos_iff.mpr hmem') (by omega)
        · rw [if_neg hpc] at hmem'
          exact hpc (W2 k j' hmem')
    · by_cases hki : k = i
      · subst hki
        rw [hci] at hmem'
        rcases List.mem_append.mp hmem' with h | h
        · rw [hpk j' hji]
          exact W2 k j' (List.mem_of_mem_erase h)
        · exfalso
          simp at h
          exact hji h
      · rw [hck k hki] at hmem'
        rw [hpk j' hji]
        by_cases hpc : s.parentOf j = some k
        · rw [if_pos hpc] at hmem'
          exact W2 k j' (List.mem_of_mem_erase hmem')
        · rw [if_neg hpc] at hmem'
          exact W2 k j' hmem'
  · intro k j' hp
    by_cases hji : j' = j
    · subst hji
      rw [hpj] at hp
      have hki : i = k := Option.some_injective _ hp
      subst hki
      rw [hci]
      exact List.mem_append_right _ (List.mem_singleton.mpr rfl)
    · rw [hpk j' hji] at hp
      have hm := W3 k j' hp
      by_cases hki : k = i
      · subst hki
        rw [hci]
        exact List.mem_append_left _ ((List.mem_erase_of_ne (by simp [hji])).mpr hm)
      · rw [hck k hki]
        by_cases hpc : s.parentOf j = some k
        · rw [if_pos hpc]
          exact (List.mem_erase_of_ne (by simp [hji])).mpr hm
        · rw [if_neg hpc]
          exact hm
  · intro k j' hmem'
    rw [hlen]
    by_cases hki : k = i
    · subst hki
      rw [hci] at hmem'
      rcases List.mem_append.mp hmem' with h | h
      · exact W4 k j' (List.mem_of_mem_erase h)
      · simp at h
        subst h
        exact hj
    · rw [hck k hki] at hmem'
      by_cases hpc : s.parentOf j = some k
      · rw [if_pos hpc] at hmem'
        exact W4 k j' (List.mem_of_mem_erase hmem')
      · rw [if_neg hpc] at hmem'
        exact W4 k j' hmem'

theorem HStore.childsOf_of_ge {s : HStore} {i : Nat} (h : s.length ≤ i) :
    s.childsOf i = [] := by
  unfold HStore.childsOf
  have hg : s.get? i = none := by
    show List.get? s i = none
    rw [List.get?_eq_getElem?]
    exact List.getElem?_eq_none h
  rw [hg]

theorem HStore.parentOf_of_ge {s : HStore} {i : Nat} (h : s.length ≤ i) :
    s.parentOf i = none := by
  unfold HStore.parentOf
  have hg : s.get? i = none := by
    show List.get? s i = none
    rw [List.get?_eq_getElem?]
    exact List.getElem?_eq_none h
  rw [hg]

/-- The executable invariant check implies the invariant. -/
theorem HStore.WF_of_wfCheck {s : HStore} (h : s.wfCheck = true) : s.WF := by
  unfold HStore.wfCheck at h
  rw [List.all_eq_true] at h
  have hval : ∀ i, i < s.length →
      (s.childsOf i).Nodup ∧
      (∀ c ∈ s.childsOf i, ∀ j, c = HChild.node j →
        s.parentOf j = some i ∧ j < s.length) ∧
      (∀ p, s.parentOf i = some p → HChild.node i ∈ s.childsOf p) := by
    intro i hi
    have hc := h i (List.mem_range.mpr hi)
    rw [Bool.and_assoc, Bool.and_eq_true, Bool.and_eq_true] at hc
    obtain ⟨hnd, hall, hpar⟩ := hc
    refine ⟨of_decide_eq_true hnd, ?_, ?_⟩
    · intro c hcmem j hcj
      subst hcj
      rw [List.all_eq_true] at hall
      have := hall _ hcmem
      rw [Bool.and_eq_true] at this
      exact ⟨of_decide_eq_true this.1, of_decide_eq_true this.2⟩
    · intro p hp
      rw [hp] at hpar
      exact of_decide_eq_true hpar
  have hmemlt : ∀ i j, HChild.node j ∈ s.childsOf i → i < s.length := by
    intro i j hm
    by_contra hI
    rw [HStore.childsOf_of_ge (Nat.le_of_not_lt hI)] at hm
    exact List.not_mem_nil _ hm
  refine ⟨?_, ?_, ?_, ?_⟩
  · intro i j
    by_cases hi : i < s.length
    · exact List.nodup_iff_count_le_one.mp (hval i hi).1 _
    · rw [HStore.childsOf_of_ge (Nat.le_of_not_lt hi)]
      simp
  · intro i j hm
    exact ((hval i (hmemlt i j hm)).2.1 _ hm j rfl).1
  · intro i j hp
    have hj : j < s.length := by
      by_contra hJ
      rw [HStore.parentOf_of_ge (Nat.le_of_not_lt hJ)] at hp
      exact Option.noConfusion hp
    exact (hval j hj).2.2 i hp
  · intro i j hm
    exact ((hval i (hmemlt i j hm)).2.1 _ hm j rfl).2

/-- C3: adding a tag `c` (here `j`) that is attached to a parent `p₁` to a
different parent `i` removes it from `p₁`'s child list before
attaching: afterwards `c.parent` is the new parent, `c` appears in the
new parent's child list exactly once and in no other child list.  Both
`add` and `remove` preserve the at-most-one-parent invariant. -/
theorem claim_C3_reparenting (s : HStore) (hwf : s.WF) (i j p₁ : Nat)
    (hi : i < s.length) (hj : j < s.length) :
    ((s.addChild i (.node j)).1).WF ∧
    (∀ i', ((s.removeChild i' (.node j)).1).WF) ∧
    (s.parentOf j = some p₁ → p₁ ≠ i →
      (s.addChild i (.node j)).1.parentOf j = some i ∧
      HChild.node j ∈ (s.addChild i (.node j)).1.childsOf i ∧
      ((s.addChild i (.node j)).1.childsOf i).count (.node j) = 1 ∧
      (∀ k, HChild.node j ∈ (s.addChild i (.node j)).1.childsOf k → k = i) ∧
      HChild.node j ∉ (s.addChild i (.node j)).1.childsOf p₁) := by
  obtain ⟨hlen, hci, hck, hpj, hpk⟩ := HStore.addChild_node_state hwf hi hj
  refine ⟨HStore.addChild_node_WF hwf hi hj,
    fun i' => HStore.removeChild_node_WF hwf i' j, ?_⟩
  intro hpar hp₁i
  obtain ⟨W1, W2, W3, W4⟩ := hwf
  have hcnt : List.count (HChild.node j)
      ((s.addChild i (.node j)).1.childsOf i) = 1 := by
    rw [hci, List.count_append, List.count_erase_self, List.count_singleton_self]
    have := W1 i j
    omega
  refine ⟨hpj, ?_, hcnt, ?_, ?_⟩
  · rw [hci]
    exact List.mem_append_right _ (List.mem_singleton.mpr rfl)
  · intro k hm
    by_contra hki
    rw [hck k hki] at hm
    by_cases hpc : s.parentOf j = some k
    · rw [if_pos hpc] at hm
      rw [hpar] at hpc
      have hkp : p₁ = k := Option.some_injective _ hpc
      subst hkp
      have hmem₁ : HChild.node j ∈ s.childsOf p₁ := W3 p₁ j hpar
      have hc1 : List.count (HChild.node j) (s.childsOf p₁) = 1 := by
        have h1 := W1 p₁ j
        have h2 : 0 < List.count (HChild.node j) (s.childsOf p₁) :=
          List.count_pos_iff.mpr hmem₁
        omega
      have h0 : List.count (HChild.node j)
          ((s.childsOf p₁).erase (.node j)) = 0 := by
        rw [List.count_erase_self, hc1]
      exact absurd (List.count_pos_iff.mpr hm) (by omega)
    · rw [if_neg hpc] at hm
      exact hpc (W2 k j hm)
  · intro hm
    rw [hck p₁ hp₁i, if_pos hpar] at hm
    have hmem₁ : HChild.node j ∈ s.childsOf p₁ := W3 p₁ j hpar
    have hc1 : List.count (HChild.node j) (s.childsOf p₁) = 1 := by
      have h1 := W1 p₁ j
      have h2 : 0 < List.count (HChild.node j) (s.childsOf p₁) :=
        List.count_pos_iff.mpr hmem₁
      omega
    have h0 : List.count (HChild.node j)
        ((s.childsOf p₁).erase (.node j)) = 0 := by
      rw [List.count_erase_self, hc1]
    exact absurd (List.count_pos_iff.mpr hm) (by omega)

/-- Witness for C3: in the concrete heap, reparenting tag `3` from
container `1` to container `2` leaves it with parent `2`, exactly one
occurrence under `2` and none under `1`. -/
theorem claim_C3_reparenting_witness :
    (c3store.addChild 2 (.node 3)).1.parentOf 3 = some 2 ∧
    HChild.node 3 ∈ (c3store.addChild 2 (.node 3)).1.childsOf 2 ∧
    ((c3store.addChild 2 (.node 3)).1.childsOf 2).count (.node 3) = 1 ∧
    HChild.node 3 ∉ (c3store.addChild 2 (.node 3)).1.childsOf 1 := by
  have h := claim_C3_reparenting c3store
    (HStore.WF_of_wfCheck (by decide)) 2 3 1 (by decide) (by decide)
  have h3 := h.2.2 (by decide) (by decide)
  exact ⟨h3.1, h3.2.1, h3.2.2.1, h3.2.2.2.2⟩

mutual
/-- `_trigger_mount` fires exactly over the subtree: its visit list is a
permutation of the subtree's ids (literal and cached alike). -/
theorem mountEvents_perm : ∀ n : Node, n.mountEvents.Perm n.allIds
  | .mk _ i _ _ _ _ _ ks => by
    show (i :: (mountEventsKidsLit ks ++ mountEventsKidsCache ks)).Perm
      (i :: allIdsKids ks)
    exact (mountEventsKids_perm ks).cons i

theorem mountEventsKids_perm : ∀ ks : List Kid,
    (mountEventsKidsLit ks ++ mountEventsKidsCache ks).Perm (allIdsKids ks)
  | [] => List.Perm.refl _
  | .text s :: ks => by
    show (mountEventsKidsLit ks ++ mountEventsKidsCache ks).Perm
      ([] ++ allIdsKids ks)
    exact mountEventsKids_perm ks
  | .node n :: ks => by
    show ((n.mountEvents ++ mountEventsKidsLit ks) ++ mountEventsKidsCache ks).Perm
      (n.allIds ++ allIdsKids ks)
    rw [List.append_assoc]
    exact (mountEvents_perm n).append (mountEventsKids_perm ks)
  | .prodr t cache :: ks => by
    show (mountEventsKidsLit ks ++
        (mountEventsCache cache ++ mountEventsKidsCache ks)).Perm
      (allIdsCache cache ++ allIdsKids ks)
    have h₁ : (mountEventsKidsLit ks ++
        (mountEventsCache cache ++ mountEventsKidsCache ks)).Perm
        (mountEventsCache cache ++
          (mountEventsKidsLit ks ++ mountEventsKidsCache ks)) := by
      rw [← List.append_assoc, ← List.append_assoc]
      exact (List.perm_append_comm.append_right _)
    exact h₁.trans ((mountEventsCache_perm cache).append (mountEventsKids_perm ks))

theorem mountEventsCache_perm : ∀ ns : List Node,
    (mountEventsCache ns).Perm (allIdsCache ns)
  | [] => List.Perm.refl _
  | n :: ns => by
    show (n.mountEvents ++ mountEventsCache ns).Perm (n.allIds ++ allIdsCache ns)
    exact (mountEvents_perm n).append (mountEventsCache_perm ns)
end

/-- On a subtree with unique ids, the lifecycle visit list hits every node
exactly once. -/
theorem mountEvents_count (c : Node) (hnd : c.allIds.Nodup) (i : Nat) :
    c.mountEvents.count i = if i ∈ c.allIds then 1 else 0 := by
  rw [(mountEvents_perm c).count_eq]
  by_cases hm : i ∈ c.allIds
  · rw [if_pos hm]
    exact Nat.le_antisymm (List.nodup_iff_count_le_one.mp hnd i)
      (List.count_pos_iff.mpr hm)
  · rw [if_neg hm]
    exact List.count_eq_zero_of_not_mem hm

theorem removeKidById_append (c : Node) (ks : List Kid)
    (h : ∀ n, Kid.node n ∈ ks → n.idn ≠ c.idn) :
    removeKidById (ks ++ [Kid.node c]) c.idn = (ks, some c) := by
  induction ks with
  | nil => simp [removeKidById]
  | cons k ks ih =>
    have ih' := ih (fun m hm => h m (List.mem_cons_of_mem _ hm))
    cases k with
    | text s => simp [removeKidById, ih']
    | node n =>
      have hne : n.idn ≠ c.idn := h n (List.mem_cons_self ..)
      simp [removeKidById, hne, ih']
    | prodr t cache => simp [removeKidById, ih']

/-- C7: attaching a subtree (of any depth, with unique ids) to a rooted
parent fires `on_mount` exactly once per node of the subtree — cached
reactive-producer output included — and detaching it again fires
`on_unmount` exactly once per node; the parent's literal children are
restored to what they were before the attach. -/
theorem claim_C7_mount_unmount (p c : Node) (hnd : c.allIds.Nodup)
    (hks : ∀ n, Kid.node n ∈ p.kids → n.idn ≠ c.idn) :
    (∀ i, ((p.addSubtree true c).2).count i =
      if i ∈ c.allIds then 1 else 0) ∧
    (∀ i, (((p.addSubtree true c).1.removeSubtree true c.idn).2).count i =
      if i ∈ c.allIds then 1 else 0) ∧
    ((p.addSubtree true c).1.removeSubtree true c.idn).1.kids = p.kids := by
  have hkids : (p.addSubtree true c).1.kids = p.kids ++ [Kid.node c] := by
    cases p
    rfl
  have hrm : removeKidById ((p.addSubtree true c).1.kids) c.idn =
      (p.kids, some c) := by
    rw [hkids]
    exact removeKidById_append c p.kids hks
  have hremove : (p.addSubtree true c).1.removeSubtree true c.idn =
      ((((p.addSubtree true c).1.withKids p.kids).withDirty true),
        c.unmountEvents) := by
    unfold Node.removeSubtree
    rw [hrm]
    rfl
  refine ⟨?_, ?_, ?_⟩
  · intro i
    show (if true then c.mountEvents else []).count i = _
    rw [if_pos rfl]
    exact mountEvents_count c hnd i
  · intro i
    rw [hremove]
    show (if true then c.unmountEvents else []).count i = _
    rw [if_pos rfl]
    exact mountEvents_count c hnd i
  · rw [hremove]
    show (((p.addSubtree true c).1.withKids p.kids).withDirty true).kids = p.kids
    cases p
    rfl

/-- Witness for C7: a three-node subtree (a div, a literal span and a
producer-cached tag) attached to and detached from a rooted body fires
each hook exactly once per node — including the cached one — and never
for a foreign id. -/
theorem claim_C7_mount_unmount_witness :
    (((Node.mk "body" 0 [] [] false [] [] []).addSubtree true
        (Node.mk "div" 1 [] [] false [] []
          [.text "x", .node (Node.mk "span" 2 [] [] false [] [] []),
           .prodr (.text "t") [Node.mk "b" 3 [] [] false [] [] []]])).2).count 3 = 1 ∧
    ((((Node.mk "body" 0 [] [] false [] [] []).addSubtree true
        (Node.mk "div" 1 [] [] false [] []
          [.text "x", .node (Node.mk "span" 2 [] [] false [] [] []),
           .prodr (.text "t") [Node.mk "b" 3 [] [] false [] [] []]])).1.removeSubtree
        true 1).2).count 2 = 1 ∧
    (((Node.mk "body" 0 [] [] false [] [] []).addSubtree true
        (Node.mk "div" 1 [] [] false [] []
          [.text "x", .node (Node.mk "span" 2 [] [] false [] [] []),
           .prodr (.text "t") [Node.mk "b" 3 [] [] false [] [] []]])).2).count 9 = 0 := by
  have h := claim_C7_mount_unmount (Node.mk "body" 0 [] [] false [] [] [])
    (Node.mk "div" 1 [] [] false [] []
      [.text "x", .node (Node.mk "span" 2 [] [] false [] [] []),
       .prodr (.text "t") [Node.mk "b" 3 [] [] false [] [] []]])
    (by decide) (fun n hn => absurd hn (List.not_mem_nil _))
  exact ⟨(h.1 3).trans (by decide), (h.2.1 2).trans (by decide),
    (h.1 9).trans (by decide)⟩

/-- C10: an inbound event whose id matches no node reachable from the root
(neither a literal child nor cached producer output) is dropped without
any outgoing message at all — no update and no error — so a client
awaiting the message's correlation id never gets an answer for it. -/
theorem claim_C10_unknown_id (app : App) (m : InMsg) (ws : Option Nat) (tid : Nat)
    (hid : m.targetId = some tid) (hfind : findTag app.root tid = none) :
    handleEvent app m ws = (app, []) := by
  unfold handleEvent
  rw [hid]
  dsimp only
  rw [hfind]

/-- Witness for C10: a concrete session dropping an event aimed at the
unknown id `99`, with a correlation id supplied and a websocket
attached. -/
theorem claim_C10_unknown_id_witness :
    handleEvent demoApp ⟨some 99, some "click", none, some "cb"⟩ (some 31) =
      (demoApp, []) :=
  claim_C10_unknown_id demoApp ⟨some 99, some "click", none, some "cb"⟩
    (some 31) 99 rfl rfl

theorem setAttr_find_self (a : List (String × JVal)) (k : String) (v : JVal) :
    (setAttr a k v).find? (fun p => p.1 = k) = some (k, v) := by
  have hmap : ∀ l : List (String × JVal), l.any (fun p => p.1 = k) = true →
      (l.map (fun p => if p.1 = k then (k, v) else p)).find? (fun p => p.1 = k) =
        some (k, v) := by
    intro l
    induction l with
    | nil => intro h; simp at h
    | cons p ps ih =>
      intro hany
      by_cases hp : p.1 = k
      · simp only [List.map_cons, if_pos hp]
        rw [List.find?_cons_of_pos _ (by simp)]
      · simp only [List.map_cons, if_neg hp]
        rw [List.find?_cons_of_neg _ (by simp [hp])]
        apply ih
        simp only [List.any_cons, Bool.or_eq_true] at hany
        rcases hany with h | h
        · exact absurd (of_decide_eq_true h) hp
        · exact h
  unfold setAttr
  by_cases hany : a.any (fun p => p.1 = k)
  · rw [if_pos hany]
    exact hmap a hany
  · rw [if_neg hany, List.find?_append]
    have hnone : a.find? (fun p => p.1 = k) = none := by
      rw [List.find?_eq_none]
      intro x hx
      simp only [List.any_eq_true, not_exists, not_and] at hany
      simp only [decide_eq_true_eq]
      exact fun hxk => hany x hx (by simp [hxk])
    rw [hnone]
    simp

theorem setAttr_find_other (a : List (String × JVal)) (k : String) (v : JVal)
    (q : String) (hq : q ≠ k) :
    (setAttr a k v).find? (fun p => p.1 = q) = a.find? (fun p => p.1 = q) := by
  have hmap : ∀ l : List (String × JVal),
      (l.map (fun p => if p.1 = k then (k, v) else p)).find? (fun p => p.1 = q) =
        l.find? (fun p => p.1 = q) := by
    intro l
    induction l with
    | nil => rfl
    | cons p ps ih =>
      by_cases hp : p.1 = k
      · simp only [List.map_cons, if_pos hp]
        rw [List.find?_cons_of_neg _
            (by simp only [decide_eq_true_eq]; exact fun h => hq h.symm),
          List.find?_cons_of_neg _
            (by simp only [decide_eq_true_eq]
                exact fun h => hq (h.symm.trans hp))]
        exact ih
      · simp only [List.map_cons, if_neg hp]
        by_cases hpq : p.1 = q
        · rw [List.find?_cons_of_pos _ (by simp [hpq]),
            List.find?_cons_of_pos _ (by simp [hpq])]
        · rw [List.find?_cons_of_neg _ (by simp [hpq]),
            List.find?_cons_of_neg _ (by simp [hpq])]
          exact ih
  unfold setAttr
  by_cases hany : a.any (fun p => p.1 = k)
  · rw [if_pos hany]
    exact hmap a
  · rw [if_neg hany, List.find?_append]
    have hsing : ([(k, v)].find? (fun p => p.1 = q)) = none := by
      rw [List.find?_eq_none]
      intro x hx
      simp only [List.mem_singleton] at hx
      subst hx
      simp only [decide_eq_true_eq]
      exact fun h => hq h.symm
    rw [hsing]
    cases a.find? (fun p => p.1 = q) <;> rfl

mutual
theorem echoValueAt_find : ∀ (n : Node) (tid : Nat) (v : JVal),
    findTag (echoValueAt n tid v) tid =
      (findTag n tid).map (fun t => echoSelf t v)
  | .mk tg i a e d j st ks, tid, v => by
    by_cases hid : i = tid
    · have he : echoValueAt (Node.mk tg i a e d j st ks) tid v =
          Node.mk tg i (setAttr a "value" v) e d j st ks := by
        unfold echoValueAt
        rw [if_pos hid]
      rw [he]
      unfold findTag
      rw [if_pos hid, if_pos hid]
      rfl
    · have he : echoValueAt (Node.mk tg i a e d j st ks) tid v =
          Node.mk tg i a e d j st (echoValueAtKids ks tid v) := by
        unfold echoValueAt
        rw [if_neg hid]
      rw [he]
      unfold findTag
      rw [if_neg hid, if_neg hid]
      rw [echoValueAtKids_findLit ks tid v]
      cases hfl : findTagKidsLit ks tid with
      | some r => rfl
      | none =>
        show findTagKidsCache (echoValueAtKids ks tid v) tid =
          (findTagKidsCache ks tid).map (fun t => echoSelf t v)
        exact echoValueAtKids_findCache ks tid v

theorem echoValueAtKids_findLit : ∀ (ks : List Kid) (tid : Nat) (v : JVal),
    findTagKidsLit (echoValueAtKids ks tid v) tid =
      (findTagKidsLit ks tid).map (fun t => echoSelf t v)
  | [], _, _ => rfl
  | .text s :: ks, tid, v => by
    simp only [echoValueAtKids, findTagKidsLit]
    exact echoValueAtKids_findLit ks tid v
  | .node n :: ks, tid, v => by
    simp only [echoValueAtKids, findTagKidsLit]
    rw [echoValueAt_find n tid v]
    cases hf : findTag n tid with
    | some r => rfl
    | none =>
      show findTagKidsLit (echoValueAtKids ks tid v) tid =
        (findTagKidsLit ks tid).map (fun t => echoSelf t v)
      exact echoValueAtKids_findLit ks tid v
  | .prodr t cache :: ks, tid, v => by
    simp only [echoValueAtKids, findTagKidsLit]
    exact echoValueAtKids_findLit ks tid v

theorem echoValueAtKids_findCache : ∀ (ks : List Kid) (tid : Nat) (v : JVal),
    findTagKidsCache (echoValueAtKids ks tid v) tid =
      (findTagKidsCache ks tid).map (fun t => echoSelf t v)
  | [], _, _ => rfl
  | .text s :: ks, tid, v => by
    simp only [echoValueAtKids, findTagKidsCache]
    exact echoValueAtKids_findCache ks tid v
  | .node n :: ks, tid, v => by
    simp only [echoValueAtKids, findTagKidsCache]
    exact echoValueAtKids_findCache ks tid v
  | .prodr t cache :: ks, tid, v => by
    simp only [echoValueAtKids, findTagKidsCache]
    rw [echoValueAtCache_find cache tid v]
    cases hf : findTagCache cache tid with
    | some r => rfl
    | none =>
      show findTagKidsCache (echoValueAtKids ks tid v) tid =
        (findTagKidsCache ks tid).map (fun t => echoSelf t v)
      exact echoValueAtKids_findCache ks tid v

theorem echoValueAtCache_find : ∀ (ns : List Node) (tid : Nat) (v : JVal),
    findTagCache (echoValueAtCache ns tid v) tid =
      (findTagCache ns tid).map (fun t => echoSelf t v)
  | [], _, _ => rfl
  | n :: ns, tid, v => by
    simp only [echoValueAtCache, findTagCache]
    rw [echoValueAt_find n tid v]
    cases hf : findTag n tid with
    | some r => rfl
    | none =>
      show findTagCache (echoValueAtCache ns tid v) tid =
        (findTagCache ns tid).map (fun t => echoSelf t v)
      exact echoValueAtCache_find ns tid v
end

mutual
theorem echoValueAt_dirtyIds : ∀ (n : Node) (tid : Nat) (v : JVal),
    (echoValueAt n tid v).dirtyIds = n.dirtyIds
  | .mk tg i a e d j st ks, tid, v => by
    by_cases hid : i = tid
    · have he : echoValueAt (Node.mk tg i a e d j st ks) tid v =
          Node.mk tg i (setAttr a "value" v) e d j st ks := by
        unfold echoValueAt
        rw [if_pos hid]
      rw [he]
      simp only [Node.dirtyIds]
    · have he : echoValueAt (Node.mk tg i a e d j st ks) tid v =
          Node.mk tg i a e d j st (echoValueAtKids ks tid v) := by
        unfold echoValueAt
        rw [if_neg hid]
      rw [he]
      simp only [Node.dirtyIds]
      rw [echoValueAtKids_dirtyIds ks tid v]

theorem echoValueAtKids_dirtyIds : ∀ (ks : List Kid) (tid : Nat) (v : JVal),
    dirtyIdsKids (echoValueAtKids ks tid v) = dirtyIdsKids ks
  | [], _, _ => rfl
  | .text s :: ks, tid, v => by
    simp only [echoValueAtKids, dirtyIdsKids]
    rw [echoValueAtKids_dirtyIds ks tid v]
  | .node n :: ks, tid, v => by
    simp only [echoValueAtKids, dirtyIdsKids, dirtyIdsKid]
    rw [echoValueAt_dirtyIds n tid v, echoValueAtKids_dirtyIds ks tid v]
  | .prodr t cache :: ks, tid, v => by
    simp only [echoValueAtKids, dirtyIdsKids, dirtyIdsKid]
    rw [echoValueAtCache_dirtyIds cache tid v, echoValueAtKids_dirtyIds ks tid v]

theorem echoValueAtCache_dirtyIds : ∀ (ns : List Node) (tid : Nat) (v : JVal),
    dirtyIdsCache (echoValueAtCache ns tid v) = dirtyIdsCache ns
  | [], _, _ => rfl
  | n :: ns, tid, v => by
    simp only [echoValueAtCache, dirtyIdsCache]
    rw [echoValueAt_dirtyIds n tid v, echoValueAtCache_dirtyIds ns tid v]
end

/-- C8: when the inbound data carries a `value` and `find_tag` finds the
target — wherever it lives: the root, a literal child, or a reactively
produced node inside a producer cache — the echo step writes exactly
the target's `value` attribute (`_GTag__attrs["value"] = v`, bypassing
`__setattr__`): finding the target afterwards yields it with `value`
set to the inbound field, every other attribute unchanged, and its
dirty flag, event bindings and children untouched; no dirty flag
anywhere in the tree changes through the assignment. -/
theorem claim_C8_value_echo (n : Node) (tid : Nat) (v : JVal)
    (target : Node) (hfind : findTag n tid = some target) :
    findTag (echoValueAt n tid v) tid = some (echoSelf target v) ∧
    (echoSelf target v).attrs.find? (fun p => p.1 = "value") =
      some ("value", v) ∧
    (∀ q, q ≠ "value" →
      (echoSelf target v).attrs.find? (fun p => p.1 = q) =
        target.attrs.find? (fun p => p.1 = q)) ∧
    (echoSelf target v).dirty = target.dirty ∧
    (echoSelf target v).events = target.events ∧
    (echoSelf target v).kids = target.kids ∧
    (echoValueAt n tid v).dirtyIds = n.dirtyIds := by
  cases target with
  | mk tg i a e d j st ks =>
    refine ⟨?_, ?_, ?_, rfl, rfl, rfl, echoValueAt_dirtyIds n tid v⟩
    · rw [echoValueAt_find n tid v, hfind]
      rfl
    · show (setAttr a "value" v).find? (fun p => p.1 = "value") = _
      exact setAttr_find_self a "value" v
    · intro q hq
      show (setAttr a "value" v).find? (fun p => p.1 = q) = _
      exact setAttr_find_other a "value" v q hq

/-- C8 witness: echoing `"ab"` into the demo session's target with id `2`,
which exists only inside a producer cache — the reactively produced
case — updates its `value` attribute, keeps everything else and flips
no dirty flag. -/
theorem claim_C8_value_echo_witness :
    findTag demoRoot 2 = some c8span ∧
    (findTag (echoValueAt demoRoot 2 (JVal.str "ab")) 2 =
      some (echoSelf c8span (JVal.str "ab")) ∧
    (echoSelf c8span (JVal.str "ab")).attrs.find?
      (fun p => p.1 = "value") = some ("value", JVal.str "ab") ∧
    (∀ q, q ≠ "value" →
      (echoSelf c8span (JVal.str "ab")).attrs.find? (fun p => p.1 = q) =
        c8span.attrs.find? (fun p => p.1 = q)) ∧
    (echoSelf c8span (JVal.str "ab")).dirty = c8span.dirty ∧
    (echoSelf c8span (JVal.str "ab")).events = c8span.events ∧
    (echoSelf c8span (JVal.str "ab")).kids = c8span.kids ∧
    (echoValueAt demoRoot 2 (JVal.str "ab")).dirtyIds = demoRoot.dirtyIds) :=
  ⟨rfl, claim_C8_value_echo demoRoot 2 (JVal.str "ab") c8span rfl⟩

/-- C5: when collecting updates raises inside `broadcast_updates`, no
update message reaches any transport in that pass — the partially
collected update map is discarded — and instead one protocol-level
error message (full traceback in debug mode, generic otherwise, with
the correlation id and a null result) goes to every attached websocket
and every SSE queue of the session. -/
theorem claim_C5_reconciliation_error (app : App) (result : RVal)
    (cbid : Option String) (e : String)
    (herr : collectUpdates app.root app.ctr = .error e) :
    broadcastUpdates app result cbid =
      (app,
        app.websockets.map (fun k => (Dest.ws k,
          OutMsg.error (if app.debug then e else "Internal Server Error") cbid)) ++
        app.sseQueues.map (fun k => (Dest.sse k,
          OutMsg.error (if app.debug then e else "Internal Server Error") cbid))) ∧
    (∀ d u j st cb,
      (d, OutMsg.update u j st cb) ∉ (broadcastUpdates app result cbid).2) := by
  have h1 : broadcastUpdates app result cbid =
      (app, sendAll app
        (.error (if app.debug then e else "Internal Server Error") cbid)) := by
    unfold broadcastUpdates
    rw [herr]
  constructor
  · rw [h1]
    rfl
  · intro d u j st cb hmem
    rw [h1] at hmem
    unfold sendAll at hmem
    rcases List.mem_append.mp hmem with h | h <;>
    · obtain ⟨k, -, hk⟩ := List.mem_map.mp h
      exact OutMsg.noConfusion (congrArg Prod.snd hk)

/-- Witness for C5: a session whose dirty root holds a raising producer —
the broadcast sends exactly one error payload to each of its two
websockets and one SSE queue, and nothing else. -/
theorem claim_C5_reconciliation_error_witness :
    broadcastUpdates failApp RVal.null (some "cb1") =
      (failApp,
        [(Dest.ws 1, OutMsg.error "boom" (some "cb1")),
         (Dest.ws 2, OutMsg.error "boom" (some "cb1")),
         (Dest.sse 7, OutMsg.error "boom" (some "cb1"))]) :=
  (claim_C5_reconciliation_error failApp RVal.null (some "cb1") "boom" rfl).1

theorem csAddAll_inv (ss : List String) (acc : List String) (h : acc.Nodup) :
    (csAddAll ss acc).Nodup ∧ ∀ s ∈ acc, s ∈ csAddAll ss acc := by
  induction ss generalizing acc with
  | nil => exact ⟨h, fun _ hs => hs⟩
  | cons s ss ih =>
    show (csAddAll ss (if s ∈ acc then acc else acc ++ [s])).Nodup ∧
      ∀ x ∈ acc, x ∈ csAddAll ss (if s ∈ acc then acc else acc ++ [s])
    by_cases hs : s ∈ acc
    · rw [if_pos hs]
      exact ih acc h
    · rw [if_neg hs]
      have hnd : (acc ++ [s]).Nodup := by
        rw [List.nodup_append]
        exact ⟨h, List.nodup_singleton s,
          fun x hx => by simp; exact fun he => hs (he ▸ hx)⟩
      have := ih (acc ++ [s]) hnd
      exact ⟨this.1, fun x hx => this.2 x (List.mem_append_left _ hx)⟩

mutual
theorem collectStatics_inv : ∀ (n : Node) (acc : List String), acc.Nodup →
    (collectStatics n acc).Nodup ∧ ∀ s ∈ acc, s ∈ collectStatics n acc
  | .mk _ _ _ _ _ _ st ks, acc, h => by
    show (csKids ks (csAddAll st acc)).Nodup ∧
      ∀ s ∈ acc, s ∈ csKids ks (csAddAll st acc)
    have h₁ := csAddAll_inv st acc h
    have h₂ := csKids_inv ks (csAddAll st acc) h₁.1
    exact ⟨h₂.1, fun s hs => h₂.2 s (h₁.2 s hs)⟩

theorem csKids_inv : ∀ (ks : List Kid) (acc : List String), acc.Nodup →
    (csKids ks acc).Nodup ∧ ∀ s ∈ acc, s ∈ csKids ks acc
  | [], _, h => ⟨h, fun _ hs => hs⟩
  | .text _ :: ks, acc, h => by
    show (csKids ks acc).Nodup ∧ ∀ s ∈ acc, s ∈ csKids ks acc
    exact csKids_inv ks acc h
  | .node n :: ks, acc, h => by
    show (csKids ks (collectStatics n acc)).Nodup ∧
      ∀ s ∈ acc, s ∈ csKids ks (collectStatics n acc)
    have h₁ := collectStatics_inv n acc h
    have h₂ := csKids_inv ks _ h₁.1
    exact ⟨h₂.1, fun s hs => h₂.2 s (h₁.2 s hs)⟩
  | .prodr _ cache :: ks, acc, h => by
    show (csKids ks (csCache cache acc)).Nodup ∧
      ∀ s ∈ acc, s ∈ csKids ks (csCache cache acc)
    have h₁ := csCache_inv cache acc h
    have h₂ := csKids_inv ks _ h₁.1
    exact ⟨h₂.1, fun s hs => h₂.2 s (h₁.2 s hs)⟩

theorem csCache_inv : ∀ (ns : List Node) (acc : List String), acc.Nodup →
    (csCache ns acc).Nodup ∧ ∀ s ∈ acc, s ∈ csCache ns acc
  | [], _, h => ⟨h, fun _ hs => hs⟩
  | n :: ns, acc, h => by
    show (csCache ns (collectStatics n acc)).Nodup ∧
      ∀ s ∈ acc, s ∈ csCache ns (collectStatics n acc)
    have h₁ := collectStatics_inv n acc h
    have h₂ := csCache_inv ns _ h₁.1
    exact ⟨h₂.1, fun s hs => h₂.2 s (h₁.2 s hs)⟩
end

theorem traceStatics_sendAll_error (app : App) (tb : String)
    (cb : Option String) :
    traceStatics (sendAll app (.error tb cb)) = [] := by
  unfold sendAll
  rcases app.websockets with _ | ⟨w, ws⟩
  · rcases app.sseQueues with _ | ⟨q, qs⟩ <;> rfl
  · rfl

theorem traceStatics_sendAll_update (app : App) (u : List (Nat × String))
    (j st : List String) (cb : Option (String × RVal)) :
    traceStatics (sendAll app (.update u j st cb)) = st ∨
    traceStatics (sendAll app (.update u j st cb)) = [] := by
  unfold sendAll
  rcases app.websockets with _ | ⟨w, ws⟩
  · rcases app.sseQueues with _ | ⟨q, qs⟩
    · exact Or.inr rfl
    · exact Or.inl rfl
  · exact Or.inl rfl

/-- What one `broadcast_updates` does to the statics bookkeeping: the
pushed statics field repeats nothing, contains only fragments not yet
recorded as sent, and everything sent before plus everything pushed now
is recorded as sent afterwards. -/
theorem broadcastUpdates_statics (app : App) (result : RVal)
    (cbid : Option String) :
    (traceStatics (broadcastUpdates app result cbid).2).Nodup ∧
    (∀ s ∈ traceStatics (broadcastUpdates app result cbid).2,
      s ∉ app.sentStatics) ∧
    (∀ s, (s ∈ app.sentStatics ∨
        s ∈ traceStatics (broadcastUpdates app result cbid).2) →
      s ∈ (broadcastUpdates app result cbid).1.sentStatics) := by
  unfold broadcastUpdates
  cases hcol : collectUpdates app.root app.ctr with
  | error e =>
    dsimp only
    rw [traceStatics_sendAll_error]
    exact ⟨List.nodup_nil, fun s hs => absurd hs (List.not_mem_nil s),
      fun s hor => hor.elim id (fun hs => absurd hs (List.not_mem_nil s))⟩
  | ok res =>
    obtain ⟨root₁, c₁, ups, js⟩ := res
    dsimp only
    have hall : (collectStatics root₁ []).Nodup :=
      (collectStatics_inv root₁ [] List.nodup_nil).1
    by_cases hcond : ups ≠ [] ∨ js ≠ [] ∨
        (collectStatics root₁ []).filter (fun s => s ∉ app.sentStatics) ≠ [] ∨
        truthyCb cbid
    · rw [if_pos hcond]
      dsimp only
      rcases traceStatics_sendAll_update _ ups js
          ((collectStatics root₁ []).filter (fun s => s ∉ app.sentStatics))
          (if truthyCb cbid then some (cbid.getD "", result) else none) with
        h | h
      · rw [h]
        refine ⟨hall.filter _, ?_, ?_⟩
        · intro s hs
          have := List.mem_filter.mp hs
          exact of_decide_eq_true this.2
        · intro s hor
          rcases hor with hs | hs
          · exact List.mem_append_left _ hs
          · exact List.mem_append_right _ hs
      · rw [h]
        exact ⟨List.nodup_nil, fun s hs => absurd hs (List.not_mem_nil s),
          fun s hor => hor.elim (fun hs => List.mem_append_left _ hs)
            (fun hs => absurd hs (List.not_mem_nil s))⟩
    · rw [if_neg hcond]
      exact ⟨List.nodup_nil, fun s hs => absurd hs (List.not_mem_nil s),
        fun s hor => hor.elim id (fun hs => absurd hs (List.not_mem_nil s))⟩

/-- Across a whole session run, every pushed statics field repeats nothing,
avoids everything already recorded as sent, and two distinct rounds
never push the same fragment. -/
theorem sessionStaticsRun_once (app : App) (rounds : List (Node × Nat)) :
    (∀ l ∈ sessionStaticsRun app rounds,
      l.Nodup ∧ ∀ s ∈ l, s ∉ app.sentStatics) ∧
    (∀ i k s, i < k →
      s ∈ (sessionStaticsRun app rounds).getD i [] →
      s ∉ (sessionStaticsRun app rounds).getD k []) := by
  induction rounds generalizing app with
  | nil =>
    refine ⟨fun l hl => absurd hl (List.not_mem_nil l), ?_⟩
    intro i k s _ hs
    rw [show (sessionStaticsRun app []).getD i [] = [] from rfl] at hs
    exact absurd hs (List.not_mem_nil s)
  | cons mu rest ih =>
    have hb := broadcastUpdates_statics
      { app with root := mu.1, ctr := mu.2 } RVal.null none
    set app₁ : App := { app with root := mu.1, ctr := mu.2 } with happ₁
    set app₂ := (broadcastUpdates app₁ RVal.null none).1 with happ₂
    set l₀ := traceStatics (broadcastUpdates app₁ RVal.null none).2 with hl₀
    have hrun : sessionStaticsRun app (mu :: rest) =
        l₀ :: sessionStaticsRun app₂ rest := rfl
    have hsent₁ : app₁.sentStatics = app.sentStatics := rfl
    have ih₂ := ih app₂
    have hmono : ∀ s, s ∈ app.sentStatics ∨ s ∈ l₀ → s ∈ app₂.sentStatics := by
      intro s hor
      exact hb.2.2 s (by rw [hsent₁] at hor ⊢; exact hor)
    constructor
    · intro l hl
      rw [hrun] at hl
      rcases List.mem_cons.mp hl with h | h
      · subst h
        exact ⟨hb.1, fun s hs => hb.2.1 s hs⟩
      · have := ih₂.1 l h
        exact ⟨this.1, fun s hs => fun hsent =>
          this.2 s hs (hmono s (Or.inl hsent))⟩
    · intro i k s hik hs
      rw [hrun] at hs ⊢
      cases i with
      | zero =>
        rw [List.getD_cons_zero] at hs
        obtain ⟨k', rfl⟩ : ∃ k', k = k' + 1 := ⟨k - 1, by omega⟩
        rw [List.getD_cons_succ]
        intro hsk
        by_cases hlen : k' < (sessionStaticsRun app₂ rest).length
        · have hmem : (sessionStaticsRun app₂ rest).getD k' [] ∈
              sessionStaticsRun app₂ rest := by
            rw [List.getD_eq_getElem?_getD, List.getElem?_eq_getElem hlen]
            exact List.getElem_mem ..
          exact (ih₂.1 _ hmem).2 s hsk (hmono s (Or.inr hs))
        · rw [List.getD_eq_getElem?_getD,
            List.getElem?_eq_none (Nat.le_of_not_lt hlen)] at hsk
          exact absurd hsk (List.not_mem_nil s)
      | succ i' =>
        obtain ⟨k', rfl⟩ : ∃ k', k = k' + 1 := ⟨k - 1, by omega⟩
        rw [List.getD_cons_succ] at hs ⊢
        exact ih₂.2 i' k' s (by omega) hs

/-- C9: per session, each static fragment is delivered at most once — the
initial full-page response inlines the statics present in the tree
without repetition and records them as sent; every subsequent update
broadcast pushes in its statics field only fragments not previously
recorded (each round repetition-free, never repeating a page-inlined
fragment), records them when pushed, and two distinct rounds never push
the same fragment. -/
theorem claim_C9_statics_once (app : App) (rounds : List (Node × Nat)) :
    (renderPage app).2.1.Nodup ∧
    (∀ l ∈ sessionStaticsRun (renderPage app).1 rounds,
      l.Nodup ∧ ∀ s ∈ (renderPage app).2.1, s ∉ l) ∧
    (∀ i k s, i < k →
      s ∈ (sessionStaticsRun (renderPage app).1 rounds).getD i [] →
      s ∉ (sessionStaticsRun (renderPage app).1 rounds).getD k []) := by
  have hpage : (renderPage app).1.sentStatics = (renderPage app).2.1 ∧
      (renderPage app).2.1.Nodup := by
    unfold renderPage
    cases hr : renderTag app.root app.ctr with
    | ok res =>
      obtain ⟨body, root₁, c₁⟩ := res
      exact ⟨rfl, (collectStatics_inv root₁ [] List.nodup_nil).1⟩
    | error e =>
      exact ⟨rfl, (collectStatics_inv app.root [] List.nodup_nil).1⟩
  have hrun := sessionStaticsRun_once (renderPage app).1 rounds
  refine ⟨hpage.2, ?_, hrun.2⟩
  intro l hl
  have h1 := hrun.1 l hl
  exact ⟨h1.1, fun s hs hsl => h1.2 s hsl (hpage.1 ▸ hs)⟩

/-- Witness for C9: the page of the concrete session inlines `S1`; the
first later round pushes exactly the new `S2`, and the second round —
with the same tree — pushes it no more. -/
theorem claim_C9_statics_once_witness :
    "S1" ∈ (renderPage c9app).2.1 ∧
    "S2" ∈ (sessionStaticsRun (renderPage c9app).1
      [(c9round, 6), (c9round, 7)]).getD 0 [] ∧
    "S2" ∉ (sessionStaticsRun (renderPage c9app).1
      [(c9round, 6), (c9round, 7)]).getD 1 [] := by
  refine ⟨by decide, by decide, ?_⟩
  exact (claim_C9_statics_once c9app [(c9round, 6), (c9round, 7)]).2.2
    0 1 "S2" (by omega) (by decide)

/- ----------------------------------------------------------------------
Rendering lemmas: what one evaluation of a producer / one `__str__` pass
produces and preserves.
---------------------------------------------------------------------- -/

theorem allIdsKids_append (a b : List Kid) :
    allIdsKids (a ++ b) = allIdsKids a ++ allIdsKids b := by
  induction a with
  | nil => rfl
  | cons k ks ih =>
    show allIdsKid k ++ allIdsKids (ks ++ b) = (allIdsKid k ++ allIdsKids ks) ++ _
    rw [ih, List.append_assoc]

theorem allIdsCache_append (a b : List Node) :
    allIdsCache (a ++ b) = allIdsCache a ++ allIdsCache b := by
  induction a with
  | nil => rfl
  | cons n ns ih =>
    show n.allIds ++ allIdsCache (ns ++ b) = (n.allIds ++ allIdsCache ns) ++ _
    rw [ih, List.append_assoc]

theorem prodFreeKids_append (a b : List Kid) :
    prodFreeKids (a ++ b) = (prodFreeKids a && prodFreeKids b) := by
  induction a with
  | nil => rfl
  | cons k ks ih =>
    cases k with
    | text s =>
      show prodFreeKids (ks ++ b) = _
      rw [ih]
      rfl
    | node n =>
      show (n.prodFree && prodFreeKids (ks ++ b)) = _
      rw [ih]
      show _ = ((n.prodFree && prodFreeKids ks) && prodFreeKids b)
      rw [Bool.and_assoc]
    | prodr t cache =>
      show false = (false && prodFreeKids b)
      rw [Bool.false_and]

theorem dirtyIffKidsList_append (a b : List Kid) :
    dirtyIffKidsList (a ++ b) = (dirtyIffKidsList a && dirtyIffKidsList b) := by
  induction a with
  | nil => rfl
  | cons k ks ih =>
    cases k with
    | text s =>
      show dirtyIffKidsList (ks ++ b) = _
      rw [ih]
      rfl
    | node n =>
      show (n.dirtyIffKids && dirtyIffKidsList (ks ++ b)) = _
      rw [ih]
      show _ = ((n.dirtyIffKids && dirtyIffKidsList ks) && dirtyIffKidsList b)
      rw [Bool.and_assoc]
    | prodr t cache =>
      show (dirtyIffKidsCache cache && dirtyIffKidsList (ks ++ b)) = _
      rw [ih]
      show _ = ((dirtyIffKidsCache cache && dirtyIffKidsList ks) &&
        dirtyIffKidsList b)
      rw [Bool.and_assoc]

theorem wKids_append (a b : List Kid) :
    wKids (a ++ b) = wKids a + wKids b := by
  induction a with
  | nil => simp [wKids]
  | cons k ks ih =>
    show wKid k + wKids (ks ++ b) = wKid k + wKids ks + wKids b
    rw [ih]
    omega

theorem wCache_append (a b : List Node) :
    wCache (a ++ b) = wCache a + wCache b := by
  induction a with
  | nil => simp [wCache]
  | cons n ns ih =>
    show 1 + n.weight + wCache (ns ++ b) = 1 + n.weight + wCache ns + wCache b
    rw [ih]
    omega

mutual
theorem toKids_allIds : ∀ v : PyVal,
    allIdsKids v.toKids = allIdsCache v.collectTags
  | .str s => rfl
  | .tag n => by
    show n.allIds ++ [] = n.allIds ++ []
    rfl
  | .list vs => toKidsList_allIds vs

theorem toKidsList_allIds : ∀ vs : List PyVal,
    allIdsKids (toKidsList vs) = allIdsCache (collectTagsList vs)
  | [] => rfl
  | v :: vs => by
    show allIdsKids (v.toKids ++ toKidsList vs) =
      allIdsCache (v.collectTags ++ collectTagsList vs)
    rw [allIdsKids_append, allIdsCache_append, toKids_allIds v,
      toKidsList_allIds vs]
end

mutual
theorem toKids_prodFree : ∀ v : PyVal,
    (∀ n ∈ v.collectTags, n.prodFree = true) → prodFreeKids v.toKids = true
  | .str s, _ => rfl
  | .tag n, h => by
    show (n.prodFree && true) = true
    rw [h n (List.mem_singleton.mpr rfl), Bool.true_and]
  | .list vs, h => toKidsList_prodFree vs h

theorem toKidsList_prodFree : ∀ vs : List PyVal,
    (∀ n ∈ collectTagsList vs, n.prodFree = true) →
      prodFreeKids (toKidsList vs) = true
  | [], _ => rfl
  | v :: vs, h => by
    show prodFreeKids (v.toKids ++ toKidsList vs) = true
    rw [prodFreeKids_append,
      toKids_prodFree v (fun n hn => h n (List.mem_append_left _ hn)),
      toKidsList_prodFree vs (fun n hn => h n (List.mem_append_right _ hn))]
    rfl
end

mutual
theorem toKids_dirtyIff : ∀ v : PyVal,
    (∀ n ∈ v.collectTags, n.dirtyIffKids = true) →
      dirtyIffKidsList v.toKids = true
  | .str s, _ => rfl
  | .tag n, h => by
    show (n.dirtyIffKids && true) = true
    rw [h n (List.mem_singleton.mpr rfl), Bool.true_and]
  | .list vs, h => toKidsList_dirtyIff vs h

theorem toKidsList_dirtyIff : ∀ vs : List PyVal,
    (∀ n ∈ collectTagsList vs, n.dirtyIffKids = true) →
      dirtyIffKidsList (toKidsList vs) = true
  | [], _ => rfl
  | v :: vs, h => by
    show dirtyIffKidsList (v.toKids ++ toKidsList vs) = true
    rw [dirtyIffKidsList_append,
      toKids_dirtyIff v (fun n hn => h n (List.mem_append_left _ hn)),
      toKidsList_dirtyIff vs (fun n hn => h n (List.mem_append_right _ hn))]
    rfl
end

theorem Node.weight_pos (n : Node) : 1 ≤ n.weight := by
  cases n with
  | mk tg i a e d j st ks =>
    simp only [Node.weight]
    omega

mutual
theorem prodFree_noFails : ∀ n : Node, n.prodFree = true → n.noFails = true
  | .mk tg i a e d j st ks, h => by
    simp only [Node.prodFree] at h
    simp only [Node.noFails]
    exact prodFreeKids_noFails ks h

theorem prodFreeKids_noFails : ∀ ks : List Kid,
    prodFreeKids ks = true → noFailsKids ks = true
  | [], _ => rfl
  | .text s :: ks, h => by
    simp only [prodFreeKids] at h
    simp only [noFailsKids, noFailsKid, Bool.true_and]
    exact prodFreeKids_noFails ks h
  | .node n :: ks, h => by
    simp only [prodFreeKids, Bool.and_eq_true] at h
    simp only [noFailsKids, noFailsKid, Bool.and_eq_true]
    exact ⟨prodFree_noFails n h.1, prodFreeKids_noFails ks h.2⟩
  | .prodr t cache :: ks, h => by
    simp only [prodFreeKids] at h
    exact absurd h (by simp)
end

theorem noFailsCache_of_forall : ∀ ns : List Node,
    (∀ n ∈ ns, n.noFails = true) → noFailsCache ns = true
  | [], _ => rfl
  | n :: ns, h => by
    simp only [noFailsCache, Bool.and_eq_true]
    exact ⟨h n (List.mem_cons_self n ns),
      noFailsCache_of_forall ns (fun m hm => h m (List.mem_cons_of_mem n hm))⟩

theorem allIdsCache_mem : ∀ (ns : List Node) (n : Node), n ∈ ns →
    ∀ i ∈ n.allIds, i ∈ allIdsCache ns
  | [], n, hn, i, _ => absurd hn (List.not_mem_nil n)
  | m :: ns, n, hn, i, hi => by
    simp only [allIdsCache]
    rcases List.mem_cons.mp hn with h | h
    · subst h
      exact List.mem_append_left _ hi
    · exact List.mem_append_right _ (allIdsCache_mem ns n h i hi)

theorem litCleanKids_cons (k : Kid) (ks : List Kid) :
    litCleanKids (k :: ks) = (litCleanKid k && litCleanKids ks) := by
  cases k with
  | text s => simp only [litCleanKids, litCleanKid, Bool.true_and]
  | node n => simp only [litCleanKids, litCleanKid]
  | prodr t cache => simp only [litCleanKids, litCleanKid, Bool.true_and]

theorem cachesFreshKids_cons (k : Kid) (ks : List Kid) (lo hi : Nat) :
    cachesFreshKids (k :: ks) lo hi ↔
      (cachesFreshKid k lo hi ∧ cachesFreshKids ks lo hi) := by
  cases k with
  | text s => simp only [cachesFreshKids, cachesFreshKid, true_and]
  | node n => simp only [cachesFreshKids, cachesFreshKid]
  | prodr t cache => simp only [cachesFreshKids, cachesFreshKid]

theorem freshTree_mono (lo hi lo₂ hi₂ : Nat) (n : Node) (h : freshTree lo hi n)
    (hlo : lo₂ ≤ lo) (hhi : hi ≤ hi₂) : freshTree lo₂ hi₂ n := by
  obtain ⟨h1, h2, h3⟩ := h
  refine ⟨h1, h2, fun i him => ?_⟩
  have := h3 i him
  omega

mutual
theorem cachesFresh_mono : ∀ (n : Node) (lo hi lo₂ hi₂ : Nat),
    n.cachesFresh lo hi → lo₂ ≤ lo → hi ≤ hi₂ → n.cachesFresh lo₂ hi₂
  | .mk tg i a e d j st ks, lo, hi, lo₂, hi₂, h, h1, h2 => by
    simp only [Node.cachesFresh] at h ⊢
    exact cachesFreshKids_mono ks lo hi lo₂ hi₂ h h1 h2

theorem cachesFreshKids_mono : ∀ (ks : List Kid) (lo hi lo₂ hi₂ : Nat),
    cachesFreshKids ks lo hi → lo₂ ≤ lo → hi ≤ hi₂ → cachesFreshKids ks lo₂ hi₂
  | [], _, _, _, _, _, _, _ => by simp only [cachesFreshKids]
  | .text s :: ks, lo, hi, lo₂, hi₂, h, h1, h2 => by
    simp only [cachesFreshKids] at h ⊢
    exact cachesFreshKids_mono ks lo hi lo₂ hi₂ h h1 h2
  | .node n :: ks, lo, hi, lo₂, hi₂, h, h1, h2 => by
    simp only [cachesFreshKids] at h ⊢
    exact ⟨cachesFresh_mono n lo hi lo₂ hi₂ h.1 h1 h2,
      cachesFreshKids_mono ks lo hi lo₂ hi₂ h.2 h1 h2⟩
  | .prodr t cache :: ks, lo, hi, lo₂, hi₂, h, h1, h2 => by
    simp only [cachesFreshKids] at h ⊢
    exact ⟨fun n hn => freshTree_mono lo hi lo₂ hi₂ n (h.1 n hn) h1 h2,
      cachesFreshKids_mono ks lo hi lo₂ hi₂ h.2 h1 h2⟩
end

mutual
theorem minKeys_sub_allIds : ∀ (n : Node), ∀ k ∈ n.minKeys, k ∈ n.allIds
  | .mk tg i a e d j st ks, k, hk => by
    simp only [Node.minKeys] at hk
    simp only [Node.allIds]
    cases d with
    | true =>
      rw [if_pos rfl] at hk
      rw [List.mem_singleton] at hk
      subst hk
      exact List.mem_cons_self _ _
    | false =>
      rw [if_neg (by simp)] at hk
      exact List.mem_cons_of_mem _ (minKeysKids_sub ks k hk)

theorem minKeysKids_sub : ∀ (ks : List Kid), ∀ k ∈ minKeysKids ks, k ∈ allIdsKids ks
  | [], k, hk => absurd hk (by simp [minKeysKids])
  | kd :: ks, k, hk => by
    simp only [minKeysKids] at hk
    simp only [allIdsKids]
    rcases List.mem_append.mp hk with h | h
    · exact List.mem_append_left _ (minKeysKid_sub kd k h)
    · exact List.mem_append_right _ (minKeysKids_sub ks k h)

theorem minKeysKid_sub : ∀ (kd : Kid), ∀ k ∈ minKeysKid kd, k ∈ allIdsKid kd
  | .text s, k, hk => absurd hk (by simp [minKeysKid])
  | .node n, k, hk => by
    simp only [minKeysKid] at hk
    simp only [allIdsKid]
    exact minKeys_sub_allIds n k hk
  | .prodr t cache, k, hk => by
    simp only [minKeysKid] at hk
    simp only [allIdsKid]
    exact minKeysCache_sub cache k hk

theorem minKeysCache_sub : ∀ (ns : List Node), ∀ k ∈ minKeysCache ns, k ∈ allIdsCache ns
  | [], k, hk => absurd hk (by simp [minKeysCache])
  | n :: ns, k, hk => by
    simp only [minKeysCache] at hk
    simp only [allIdsCache]
    rcases List.mem_append.mp hk with h | h
    · exact List.mem_append_left _ (minKeys_sub_allIds n k h)
    · exact List.mem_append_right _ (minKeysCache_sub ns k h)
end

theorem minKeysCache_mem : ∀ (ns : List Node) (k : Nat), k ∈ minKeysCache ns →
    ∃ n, n ∈ ns ∧ k ∈ n.minKeys
  | [], k, hk => absurd hk (by simp [minKeysCache])
  | n :: ns, k, hk => by
    simp only [minKeysCache] at hk
    rcases List.mem_append.mp hk with h | h
    · exact ⟨n, List.mem_cons_self n ns, h⟩
    · obtain ⟨m, hm, hkm⟩ := minKeysCache_mem ns k h
      exact ⟨m, List.mem_cons_of_mem n hm, hkm⟩

mutual
theorem minKeys_bound : ∀ (n : Node) (lo hi : Nat), n.litClean = true →
    n.cachesFresh lo hi → ∀ k ∈ n.minKeys, lo ≤ k
  | .mk tg i a e d j st ks, lo, hi, hc, hf, k, hk => by
    simp only [Node.litClean, Bool.and_eq_true, Bool.not_eq_true'] at hc
    simp only [Node.cachesFresh] at hf
    simp only [Node.minKeys] at hk
    rw [hc.1] at hk
    rw [if_neg (by simp)] at hk
    exact minKeysKids_bound ks lo hi hc.2 hf k hk

theorem minKeysKids_bound : ∀ (ks : List Kid) (lo hi : Nat),
    litCleanKids ks = true → cachesFreshKids ks lo hi →
    ∀ k ∈ minKeysKids ks, lo ≤ k
  | [], _, _, _, _, k, hk => absurd hk (by simp [minKeysKids])
  | kd :: ks, lo, hi, hc, hf, k, hk => by
    rw [litCleanKids_cons, Bool.and_eq_true] at hc
    rw [cachesFreshKids_cons] at hf
    simp only [minKeysKids] at hk
    rcases List.mem_append.mp hk with h | h
    · cases kd with
      | text s => exact absurd h (by simp [minKeysKid])
      | node n =>
        simp only [minKeysKid] at h
        exact minKeys_bound n lo hi hc.1 hf.1 k h
      | prodr t cache =>
        simp only [minKeysKid] at h
        obtain ⟨m, hm, hkm⟩ := minKeysCache_mem cache k h
        have hfr := hf.1 m hm
        have := hfr.2.2 k (minKeys_sub_allIds m k hkm)
        omega
    · exact minKeysKids_bound ks lo hi hc.2 hf.2 k h
end

mutual
theorem minKeys_sub_dirtyIds : ∀ (n : Node), ∀ k ∈ n.minKeys, k ∈ n.dirtyIds
  | .mk tg i a e d j st ks, k, hk => by
    simp only [Node.minKeys] at hk
    simp only [Node.dirtyIds]
    cases d with
    | true =>
      rw [if_pos rfl] at hk
      rw [List.mem_singleton] at hk
      subst hk
      rw [if_pos rfl]
      exact List.mem_append_left _ (List.mem_singleton_self _)
    | false =>
      rw [if_neg (by simp)] at hk
      rw [if_neg (by simp), List.nil_append]
      exact minKeysKids_sub_dirty ks k hk

theorem minKeysKids_sub_dirty : ∀ (ks : List Kid),
    ∀ k ∈ minKeysKids ks, k ∈ dirtyIdsKids ks
  | [], k, hk => absurd hk (by simp [minKeysKids])
  | kd :: ks, k, hk => by
    simp only [minKeysKids] at hk
    simp only [dirtyIdsKids]
    rcases List.mem_append.mp hk with h | h
    · exact List.mem_append_left _ (minKeysKid_sub_dirty kd k h)
    · exact List.mem_append_right _ (minKeysKids_sub_dirty ks k h)

theorem minKeysKid_sub_dirty : ∀ (kd : Kid),
    ∀ k ∈ minKeysKid kd, k ∈ dirtyIdsKid kd
  | .text s, k, hk => absurd hk (by simp [minKeysKid])
  | .node n, k, hk => by
    simp only [minKeysKid] at hk
    simp only [dirtyIdsKid]
    exact minKeys_sub_dirtyIds n k hk
  | .prodr t cache, k, hk => by
    simp only [minKeysKid] at hk
    simp only [dirtyIdsKid]
    exact minKeysCache_sub_dirty cache k hk

theorem minKeysCache_sub_dirty : ∀ (ns : List Node),
    ∀ k ∈ minKeysCache ns, k ∈ dirtyIdsCache ns
  | [], k, hk => absurd hk (by simp [minKeysCache])
  | n :: ns, k, hk => by
    simp only [minKeysCache] at hk
    simp only [dirtyIdsCache]
    rcases List.mem_append.mp hk with h | h
    · exact List.mem_append_left _ (minKeys_sub_dirtyIds n k h)
    · exact List.mem_append_right _ (minKeysCache_sub_dirty ns k h)
end


mutual
theorem processNode_char : ∀ n : Node,
    (processNode n).noFails = n.noFails ∧ (processNode n).weight = n.weight ∧
    (processNode n).litClean = true ∧ (processNode n).idn = n.idn ∧
    (processNode n).dirty = false
  | .mk tg i a e d j st ks => by
    have hk := processKids_char ks
    refine ⟨?_, ?_, ?_, ?_, ?_⟩ <;>
      simp only [processNode, Node.noFails, Node.weight, Node.litClean,
        Node.idn, Node.dirty, Bool.not_false, Bool.true_and]
    · exact hk.1
    · rw [hk.2.1]
    · exact hk.2.2

theorem processKids_char : ∀ ks : List Kid,
    noFailsKids (processKids ks) = noFailsKids ks ∧
    wKids (processKids ks) = wKids ks ∧
    litCleanKids (processKids ks) = true
  | [] => ⟨rfl, rfl, rfl⟩
  | .text s :: ks => by
    have hk := processKids_char ks
    simp only [processKids, processKid, noFailsKids, noFailsKid, wKids, wKid,
      litCleanKids_cons, litCleanKid, Bool.true_and]
    exact ⟨by rw [hk.1], by rw [hk.2.1], hk.2.2⟩
  | .node n :: ks => by
    have hk := processKids_char ks
    have hn := processNode_char n
    simp only [processKids, processKid, noFailsKids, noFailsKid, wKids, wKid,
      litCleanKids_cons, litCleanKid]
    refine ⟨?_, ?_, ?_⟩
    · rw [hn.1, hk.1]
    · rw [hn.2.1, hk.2.1]
    · rw [hn.2.2.1, hk.2.2]
      rfl
  | .prodr t cache :: ks => by
    have hk := processKids_char ks
    simp only [processKids, processKid, noFailsKids, noFailsKid, wKids, wKid,
      litCleanKids_cons, litCleanKid, Bool.true_and]
    exact ⟨by rw [hk.1], by rw [hk.2.1], hk.2.2⟩
end

mutual
theorem instTemplate_ok : ∀ (t : Template) (c : Nat), tmplOk t = true →
    ∃ v cf, instTemplate t c = .ok (v, cf)
  | .fails m, _, h => absurd h (by simp [tmplOk])
  | .text s, c, _ => ⟨.str s, c, by rw [instTemplate]⟩
  | .list ts, c, h => by
    simp only [tmplOk] at h
    obtain ⟨vs, cf, hl⟩ := instTemplateList_ok ts c h
    exact ⟨.list vs, cf, by rw [instTemplate, hl]⟩
  | .node tg ts, c, h => by
    simp only [tmplOk] at h
    obtain ⟨vs, cf, hl⟩ := instTemplateList_ok ts c h
    exact ⟨.tag (Node.mk tg cf [] [] (!((PyVal.list vs).toKids).isEmpty) [] []
      ((PyVal.list vs).toKids)), cf + 1, by rw [instTemplate, hl]⟩

theorem instTemplateList_ok : ∀ (ts : List Template) (c : Nat),
    tmplOkList ts = true → ∃ vs cf, instTemplateList ts c = .ok (vs, cf)
  | [], c, _ => ⟨[], c, by rw [instTemplateList]⟩
  | t :: ts, c, h => by
    simp only [tmplOkList, Bool.and_eq_true] at h
    obtain ⟨v, c₁, h₁⟩ := instTemplate_ok t c h.1
    obtain ⟨vs, c₂, h₂⟩ := instTemplateList_ok ts c₁ h.2
    exact ⟨v :: vs, c₂, by rw [instTemplateList, h₁]; dsimp only; rw [h₂]⟩
end

mutual
/-- What one producer evaluation yields: fresh tags whose ids fill part of
`[c, cf)` without repetition, producer-free, dirty exactly where they
have children, and bounded in weight by the template. -/
theorem instTemplate_props : ∀ (t : Template) (c : Nat) (v : PyVal) (cf : Nat),
    instTemplate t c = .ok (v, cf) →
    c ≤ cf ∧
    (∀ i ∈ allIdsCache v.collectTags, c ≤ i ∧ i < cf) ∧
    (allIdsCache v.collectTags).Nodup ∧
    (∀ n ∈ v.collectTags, n.prodFree = true) ∧
    (∀ n ∈ v.collectTags, n.dirtyIffKids = true) ∧
    wCache v.collectTags ≤ wTmpl t ∧
    wKids v.toKids ≤ wTmpl t
  | .fails m, c, v, cf, h => absurd h (by simp [instTemplate])
  | .text s, c, v, cf, h => by
    simp only [instTemplate, Except.ok.injEq, Prod.mk.injEq] at h
    obtain ⟨hv, hc⟩ := h
    subst hv
    subst hc
    refine ⟨Nat.le_refl c, ?_, ?_, ?_, ?_, ?_, ?_⟩ <;>
      simp [PyVal.collectTags, allIdsCache, wCache, PyVal.toKids, wKids,
        wKid, wTmpl]
  | .list ts, c, v, cf, h => by
    cases hl : instTemplateList ts c with
    | error e => rw [instTemplate, hl] at h; exact absurd h (by simp)
    | ok p =>
      obtain ⟨vs, c₁⟩ := p
      rw [instTemplate, hl] at h
      simp only [Except.ok.injEq, Prod.mk.injEq] at h
      obtain ⟨hv, hc⟩ := h
      subst hv
      subst hc
      have hp := instTemplateList_props ts c vs c₁ hl
      refine ⟨hp.1, hp.2.1, hp.2.2.1, hp.2.2.2.1, hp.2.2.2.2.1, ?_, ?_⟩
      · show wCache (collectTagsList vs) ≤ wTmpl (.list ts)
        have := hp.2.2.2.2.2.1
        unfold wTmpl
        omega
      · show wKids (toKidsList vs) ≤ wTmpl (.list ts)
        have := hp.2.2.2.2.2.2
        unfold wTmpl
        omega
  | .node tg ts, c, v, cf, h => by
    cases hl : instTemplateList ts c with
    | error e => rw [instTemplate, hl] at h; exact absurd h (by simp)
    | ok p =>
      obtain ⟨vs, c₁⟩ := p
      rw [instTemplate, hl] at h
      simp only [Except.ok.injEq, Prod.mk.injEq] at h
      obtain ⟨hv, hc⟩ := h
      subst hv
      subst hc
      have hp := instTemplateList_props ts c vs c₁ hl
      have hids : allIdsKids (toKidsList vs) = allIdsCache (collectTagsList vs) :=
        toKidsList_allIds vs
      have hcol : ((PyVal.tag (Node.mk tg c₁ [] []
          (!((PyVal.list vs).toKids).isEmpty) [] []
          ((PyVal.list vs).toKids))).collectTags) =
          [Node.mk tg c₁ [] [] (!((PyVal.list vs).toKids).isEmpty) [] []
            ((PyVal.list vs).toKids)] := rfl
      have htk : (PyVal.list vs).toKids = toKidsList vs := rfl
      rw [hcol]
      have hai : allIdsCache [Node.mk tg c₁ [] []
          (!((PyVal.list vs).toKids).isEmpty) [] [] ((PyVal.list vs).toKids)] =
          c₁ :: allIdsKids (toKidsList vs) := by
        show (c₁ :: allIdsKids ((PyVal.list vs).toKids)) ++ [] = _
        rw [List.append_nil, htk]
      refine ⟨Nat.le_trans hp.1 (Nat.le_succ c₁), ?_, ?_, ?_, ?_, ?_, ?_⟩
      · rw [hai]
        intro i hi
        rcases List.mem_cons.mp hi with hi | hi
        · subst hi
          exact ⟨hp.1, Nat.lt_succ_self i⟩
        · rw [hids] at hi
          have := hp.2.1 i hi
          omega
      · rw [hai]
        refine List.nodup_cons.mpr ⟨?_, ?_⟩
        · rw [hids]
          intro hmem
          have := hp.2.1 c₁ hmem
          omega
        · rw [hids]
          exact hp.2.2.1
      · intro n hn
        rw [List.mem_singleton] at hn
        subst hn
        show prodFreeKids ((PyVal.list vs).toKids) = true
        rw [htk]
        exact toKidsList_prodFree vs hp.2.2.2.1
      · intro n hn
        rw [List.mem_singleton] at hn
        subst hn
        have hb : ∀ b : Bool, (b == b) = true := fun b => by cases b <;> rfl
        simp only [Node.dirtyIffKids]
        rw [hb, Bool.true_and, htk]
        exact toKidsList_dirtyIff vs hp.2.2.2.2.1
      · show wCache [Node.mk tg c₁ [] [] (!((PyVal.list vs).toKids).isEmpty)
          [] [] ((PyVal.list vs).toKids)] ≤ wTmpl (.node tg ts)
        show 1 + (1 + wKids ((PyVal.list vs).toKids)) + 0 ≤ wTmpl (.node tg ts)
        rw [htk]
        have := hp.2.2.2.2.2.2
        unfold wTmpl
        omega
      · show wKids [Kid.node (Node.mk tg c₁ [] []
          (!((PyVal.list vs).toKids).isEmpty) [] [] ((PyVal.list vs).toKids))] ≤
          wTmpl (.node tg ts)
        show 1 + (1 + wKids ((PyVal.list vs).toKids)) + 0 ≤ wTmpl (.node tg ts)
        rw [htk]
        have := hp.2.2.2.2.2.2
        unfold wTmpl
        omega

theorem instTemplateList_props : ∀ (ts : List Template) (c : Nat)
    (vs : List PyVal) (cf : Nat),
    instTemplateList ts c = .ok (vs, cf) →
    c ≤ cf ∧
    (∀ i ∈ allIdsCache (collectTagsList vs), c ≤ i ∧ i < cf) ∧
    (allIdsCache (collectTagsList vs)).Nodup ∧
    (∀ n ∈ collectTagsList vs, n.prodFree = true) ∧
    (∀ n ∈ collectTagsList vs, n.dirtyIffKids = true) ∧
    wCache (collectTagsList vs) ≤ wTmplList ts ∧
    wKids (toKidsList vs) ≤ wTmplList ts
  | [], c, vs, cf, h => by
    simp only [instTemplateList, Except.ok.injEq, Prod.mk.injEq] at h
    obtain ⟨hv, hc⟩ := h
    subst hv
    subst hc
    refine ⟨Nat.le_refl c, ?_, ?_, ?_, ?_, ?_, ?_⟩ <;>
      simp [collectTagsList, allIdsCache, wCache, toKidsList, wKids, wTmplList]
  | t :: ts, c, vs, cf, h => by
    cases h₁ : instTemplate t c with
    | error e => rw [instTemplateList, h₁] at h; exact absurd h (by simp)
    | ok p =>
      obtain ⟨v, c₁⟩ := p
      rw [instTemplateList, h₁] at h
      dsimp only at h
      cases h₂ : instTemplateList ts c₁ with
      | error e =>
        rw [h₂] at h
        exact absurd h (by simp)
      | ok q =>
        obtain ⟨vs', c₂⟩ := q
        rw [h₂] at h
        simp only [Except.ok.injEq, Prod.mk.injEq] at h
        obtain ⟨hv, hc⟩ := h
        subst hv
        subst hc
        have hp₁ := instTemplate_props t c v c₁ h₁
        have hp₂ := instTemplateList_props ts c₁ vs' c₂ h₂
        have hcol : collectTagsList (v :: vs') =
            v.collectTags ++ collectTagsList vs' := rfl
        have htkl : toKidsList (v :: vs') = v.toKids ++ toKidsList vs' := rfl
        rw [hcol, htkl]
        refine ⟨Nat.le_trans hp₁.1 hp₂.1, ?_, ?_, ?_, ?_, ?_, ?_⟩
        · rw [allIdsCache_append]
          intro i hi
          rcases List.mem_append.mp hi with hi | hi
          · have := hp₁.2.1 i hi
            have := hp₂.1
            omega
          · have := hp₂.2.1 i hi
            have := hp₁.1
            omega
        · rw [allIdsCache_append]
          rw [List.nodup_append]
          refine ⟨hp₁.2.2.1, hp₂.2.2.1, ?_⟩
          intro i hi₁ hi₂
          have := hp₁.2.1 i hi₁
          have := hp₂.2.1 i hi₂
          omega
        · intro n hn
          rcases List.mem_append.mp hn with hn | hn
          · exact hp₁.2.2.2.1 n hn
          · exact hp₂.2.2.2.1 n hn
        · intro n hn
          rcases List.mem_append.mp hn with hn | hn
          · exact hp₁.2.2.2.2.1 n hn
          · exact hp₂.2.2.2.2.1 n hn
        · rw [wCache_append]
          have := hp₁.2.2.2.2.2.1
          have := hp₂.2.2.2.2.2.1
          show _ ≤ wTmpl t + wTmplList ts
          omega
        · rw [wKids_append]
          have := hp₁.2.2.2.2.2.2
          have := hp₂.2.2.2.2.2.2
          show _ ≤ wTmpl t + wTmplList ts
          omega
end

theorem cachesFreshKid_mono (k : Kid) (lo hi lo₂ hi₂ : Nat)
    (h : cachesFreshKid k lo hi) (h1 : lo₂ ≤ lo) (h2 : hi ≤ hi₂) :
    cachesFreshKid k lo₂ hi₂ := by
  cases k with
  | text s => exact True.intro
  | node n => exact cachesFresh_mono n lo hi lo₂ hi₂ h h1 h2
  | prodr t cache =>
    exact fun m hm => freshTree_mono lo hi lo₂ hi₂ m (h m hm) h1 h2

mutual
/-- What one `__str__` pass does to a producer-sound tree: it succeeds, the
counter only grows, the literal skeleton keeps its ids and flags, every
producer cache is replaced by a fresh instantiation whose ids live in
the pass's counter window, and the weight cannot grow. -/
theorem renderNode_char : ∀ (n : Node) (c : Nat), n.noFails = true →
    ∃ s n₁ c₁, renderNode n c = .ok (s, n₁, c₁) ∧ c ≤ c₁ ∧
      n₁.noFails = true ∧ n₁.weight ≤ n.weight ∧ n₁.idn = n.idn ∧
      n₁.dirty = n.dirty ∧ n₁.litClean = n.litClean ∧ n₁.cachesFresh c c₁
  | .mk tg i a e d j st ks, c, h => by
    simp only [Node.noFails] at h
    obtain ⟨s, ks₁, c₁, hr, hc, hnf, hw, hlc, hcf⟩ := renderKids_char ks c h
    have heq : ∃ s₂, renderNode (Node.mk tg i a e d j st ks) c =
        .ok (s₂, Node.mk tg i a e d j st ks₁, c₁) := by
      by_cases hv : tg ∈ voidElements
      · exact ⟨_, by rw [renderNode, hr]; dsimp only; rw [if_pos hv]⟩
      · exact ⟨_, by rw [renderNode, hr]; dsimp only; rw [if_neg hv]⟩
    obtain ⟨s₂, heq⟩ := heq
    refine ⟨s₂, Node.mk tg i a e d j st ks₁, c₁, heq, hc, ?_, ?_, rfl, rfl,
      ?_, ?_⟩
    · simp only [Node.noFails]
      exact hnf
    · simp only [Node.weight]
      omega
    · simp only [Node.litClean]
      rw [hlc]
    · simp only [Node.cachesFresh]
      exact hcf

theorem renderKids_char : ∀ (ks : List Kid) (c : Nat), noFailsKids ks = true →
    ∃ s ks₁ c₁, renderKids ks c = .ok (s, ks₁, c₁) ∧ c ≤ c₁ ∧
      noFailsKids ks₁ = true ∧ wKids ks₁ ≤ wKids ks ∧
      litCleanKids ks₁ = litCleanKids ks ∧ cachesFreshKids ks₁ c c₁
  | [], c, _ => ⟨"", [], c, by rw [renderKids], Nat.le_refl c, rfl,
      Nat.le_refl _, rfl, by simp only [cachesFreshKids]⟩
  | k :: ks, c, h => by
    simp only [noFailsKids, Bool.and_eq_true] at h
    obtain ⟨s₁, k₁, c₁, hr1, hc1, hnf1, hw1, hlc1, hcf1⟩ :=
      renderKid_char k c h.1
    obtain ⟨s₂, ks₁, c₂, hr2, hc2, hnf2, hw2, hlc2, hcf2⟩ :=
      renderKids_char ks c₁ h.2
    refine ⟨s₁ ++ s₂, k₁ :: ks₁, c₂, ?_, Nat.le_trans hc1 hc2, ?_, ?_, ?_, ?_⟩
    · rw [renderKids, hr1]
      dsimp only
      rw [hr2]
    · simp only [noFailsKids, Bool.and_eq_true]
      exact ⟨hnf1, hnf2⟩
    · simp only [wKids]
      omega
    · rw [litCleanKids_cons, litCleanKids_cons, hlc1, hlc2]
    · rw [cachesFreshKids_cons]
      exact ⟨cachesFreshKid_mono k₁ c c₁ c c₂ hcf1 (Nat.le_refl c) hc2,
        cachesFreshKids_mono ks₁ c₁ c₂ c c₂ hcf2 hc1 (Nat.le_refl c₂)⟩

theorem renderKid_char : ∀ (k : Kid) (c : Nat), noFailsKid k = true →
    ∃ s k₁ c₁, renderKid k c = .ok (s, k₁, c₁) ∧ c ≤ c₁ ∧
      noFailsKid k₁ = true ∧ wKid k₁ ≤ wKid k ∧
      litCleanKid k₁ = litCleanKid k ∧ cachesFreshKid k₁ c c₁
  | .text s, c, _ => ⟨s, .text s, c, by rw [renderKid], Nat.le_refl c, rfl,
      Nat.le_refl _, rfl, True.intro⟩
  | .node n, c, h => by
    have hn := renderNode_char n c (by simpa [noFailsKid] using h)
    obtain ⟨s, n₁, c₁, hr, hc, hnf, hw, hid, hd, hlc, hcf⟩ := hn
    refine ⟨s, .node n₁, c₁, ?_, hc, ?_, ?_, ?_, ?_⟩
    · rw [renderKid, hr]
    · simpa [noFailsKid] using hnf
    · simp only [wKid]
      omega
    · simp only [litCleanKid]
      rw [hlc]
    · simpa [cachesFreshKid] using hcf
  | .prodr t cache, c, h => by
    simp only [noFailsKid, Bool.and_eq_true] at h
    obtain ⟨v, c₁, hi⟩ := instTemplate_ok t c h.1
    have hp := instTemplate_props t c v c₁ hi
    refine ⟨renderPyVal v, .prodr t v.collectTags, c₁, ?_, hp.1, ?_, ?_,
      rfl, ?_⟩
    · rw [renderKid, hi]
    · simp only [noFailsKid, Bool.and_eq_true]
      exact ⟨h.1, noFailsCache_of_forall _
        (fun m hm => prodFree_noFails m (hp.2.2.2.1 m hm))⟩
    · simp only [wKid]
      have h1 : wCache v.collectTags ≤ wTmpl t := hp.2.2.2.2.2.1
      have h2 : max (wTmpl t) (wCache v.collectTags) = wTmpl t :=
        Nat.max_eq_left h1
      rw [h2]
      have := Nat.le_max_left (wTmpl t) (wCache cache)
      omega
    · intro m hm
      refine ⟨hp.2.2.2.1 m hm, hp.2.2.2.2.1 m hm, fun i him => ?_⟩
      exact hp.2.1 i (allIdsCache_mem _ m hm i him)
end

theorem cuCacheListF_char (fuel : Nat)
    (go : Node → Nat → Except String (Node × Nat × List (Nat × String) × List String))
    (H : ∀ (n : Node) (c : Nat), n.noFails = true → n.weight ≤ fuel →
      ∃ n₁ c₁ u jx, go n c = .ok (n₁, c₁, u, jx) ∧ c ≤ c₁ ∧
        n₁.noFails = true ∧ n₁.weight ≤ n.weight ∧
        (∀ k ∈ u.map Prod.fst, k ∈ n.minKeys ∨ c ≤ k) ∧
        (∀ k ∈ n.minKeys, k ∈ u.map Prod.fst) ∧
        n₁.anyDirty = false) :
    ∀ (ns : List Node), noFailsCache ns = true → wCache ns ≤ fuel →
    ∀ c, ∃ ns₁ c₁ u jx, cuCacheListF go ns c = .ok (ns₁, c₁, u, jx) ∧ c ≤ c₁ ∧
      noFailsCache ns₁ = true ∧ wCache ns₁ ≤ wCache ns ∧
      (∀ k ∈ u.map Prod.fst, k ∈ minKeysCache ns ∨ c ≤ k) ∧
      (∀ k ∈ minKeysCache ns, k ∈ u.map Prod.fst) ∧
      anyDirtyCache ns₁ = false
  | [], _, _, c => ⟨[], c, [], [], by rw [cuCacheListF], Nat.le_refl c, rfl,
      Nat.le_refl _, by simp, by simp [minKeysCache], by simp [anyDirtyCache]⟩
  | n :: ns, hnf, hw, c => by
    simp only [noFailsCache, Bool.and_eq_true] at hnf
    simp only [wCache] at hw
    obtain ⟨n₁, c₁, u₁, j₁, hgo, hc1, hnf1, hw1, hks1, hkc1, hcl1⟩ :=
      H n c hnf.1 (by omega)
    obtain ⟨ns₁, c₂, u₂, j₂, hrec, hc2, hnf2, hw2, hks2, hkc2, hcl2⟩ :=
      cuCacheListF_char fuel go H ns hnf.2 (by omega) c₁
    refine ⟨n₁ :: ns₁, c₂, u₁ ++ u₂, j₁ ++ j₂, ?_, Nat.le_trans hc1 hc2,
      ?_, ?_, ?_, ?_, ?_⟩
    · rw [cuCacheListF, hgo]
      dsimp only
      rw [hrec]
    · simp only [noFailsCache, Bool.and_eq_true]
      exact ⟨hnf1, hnf2⟩
    · simp only [wCache]
      omega
    · intro k hk
      rw [List.map_append, List.mem_append] at hk
      simp only [minKeysCache]
      rcases hk with hk | hk
      · rcases hks1 k hk with h | h
        · exact Or.inl (List.mem_append_left _ h)
        · exact Or.inr h
      · rcases hks2 k hk with h | h
        · exact Or.inl (List.mem_append_right _ h)
        · exact Or.inr (by omega)
    · intro k hk
      simp only [minKeysCache] at hk
      rw [List.map_append, List.mem_append]
      rcases List.mem_append.mp hk with h | h
      · exact Or.inl (hkc1 k h)
      · exact Or.inr (hkc2 k h)
    · simp only [anyDirtyCache]
      rw [hcl1, hcl2]
      rfl

theorem cuPhases_char (fuel : Nat)
    (go : Node → Nat → Except String (Node × Nat × List (Nat × String) × List String))
    (H : ∀ (n : Node) (c : Nat), n.noFails = true → n.weight ≤ fuel →
      ∃ n₁ c₁ u jx, go n c = .ok (n₁, c₁, u, jx) ∧ c ≤ c₁ ∧
        n₁.noFails = true ∧ n₁.weight ≤ n.weight ∧
        (∀ k ∈ u.map Prod.fst, k ∈ n.minKeys ∨ c ≤ k) ∧
        (∀ k ∈ n.minKeys, k ∈ u.map Prod.fst) ∧
        n₁.anyDirty = false) :
    ∀ (ks : List Kid), noFailsKids ks = true → wKids ks ≤ fuel →
    ∀ c, ∃ ks₂ c₂ u₂ j₂,
      cuKidsLitF go ks c = .ok (ks₂, c₂, u₂, j₂) ∧ c ≤ c₂ ∧
      noFailsKids ks₂ = true ∧ wKids ks₂ ≤ wKids ks ∧
      (∀ k ∈ u₂.map Prod.fst, k ∈ minKeysKids ks ∨ c ≤ k) ∧
      ∀ c₃, ∃ ks₃ c₄ u₃ j₃,
        cuKidsCacheF go ks ks₂ c₃ = .ok (ks₃, c₄, u₃, j₃) ∧ c₃ ≤ c₄ ∧
        noFailsKids ks₃ = true ∧ wKids ks₃ ≤ wKids ks ∧
        (∀ k ∈ u₃.map Prod.fst, k ∈ minKeysKids ks ∨ c₃ ≤ k) ∧
        (∀ k ∈ minKeysKids ks, k ∈ u₂.map Prod.fst ∨ k ∈ u₃.map Prod.fst) ∧
        anyDirtyKids ks₃ = false
  | [], _, _, c => by
    refine ⟨[], c, [], [], by rw [cuKidsLitF], Nat.le_refl c, rfl,
      Nat.le_refl _, by simp, fun c₃ => ?_⟩
    exact ⟨[], c₃, [], [], by rw [cuKidsCacheF], Nat.le_refl c₃, rfl,
      Nat.le_refl _, by simp, by simp [minKeysKids], by simp [anyDirtyKids]⟩
  | .text s :: ks, hnf, hw, c => by
    have hnf' : noFailsKids ks = true := by
      simp only [noFailsKids, noFailsKid, Bool.true_and] at hnf
      exact hnf
    have hw' : wKids ks ≤ fuel := by
      simp only [wKids, wKid] at hw
      omega
    obtain ⟨ks₂, c₂, u₂, j₂, hlit, hc2, hnf2, hw2, hsound2, hinner⟩ :=
      cuPhases_char fuel go H ks hnf' hw' c
    refine ⟨.text s :: ks₂, c₂, u₂, j₂, ?_, hc2, ?_, ?_, ?_, fun c₃ => ?_⟩
    · simp only [cuKidsLitF]
      rw [hlit]
    · simp only [noFailsKids, noFailsKid, Bool.true_and]
      exact hnf2
    · simp only [wKids, wKid]
      omega
    · intro k hk
      rcases hsound2 k hk with h | h
      · exact Or.inl (by
          simp only [minKeysKids, minKeysKid, List.nil_append]
          exact h)
      · exact Or.inr h
    · obtain ⟨ks₃, c₄, u₃, j₃, hcache, hc4, hnf3, hw3, hsound3, hcomp3,
        hclean3⟩ := hinner c₃
      refine ⟨.text s :: ks₃, c₄, u₃, j₃, ?_, hc4, ?_, ?_, ?_, ?_, ?_⟩
      · simp only [cuKidsCacheF]
        rw [hcache]
      · simp only [noFailsKids, noFailsKid, Bool.true_and]
        exact hnf3
      · simp only [wKids, wKid]
        omega
      · intro k hk
        rcases hsound3 k hk with h | h
        · exact Or.inl (by
            simp only [minKeysKids, minKeysKid, List.nil_append]
            exact h)
        · exact Or.inr h
      · intro k hk
        simp only [minKeysKids, minKeysKid, List.nil_append] at hk
        exact hcomp3 k hk
      · simp only [anyDirtyKids, anyDirtyKid, Bool.false_or]
        exact hclean3
  | .node n :: ks, hnf, hw, c => by
    simp only [noFailsKids, noFailsKid, Bool.and_eq_true] at hnf
    have hwk : wKid (.node n) + wKids ks ≤ fuel := by
      simp only [wKids] at hw
      exact hw
    obtain ⟨n₁, c₁, u₁, j₁, hgo, hc1, hnf1, hw1, hsound1, hcomp1, hclean1⟩ :=
      H n c hnf.1 (by simp only [wKid] at hwk; omega)
    obtain ⟨ks₂, c₂, u₂, j₂, hlit, hc2, hnf2, hw2, hsound2, hinner⟩ :=
      cuPhases_char fuel go H ks hnf.2 (by simp only [wKid] at hwk; omega) c₁
    refine ⟨.node n₁ :: ks₂, c₂, u₁ ++ u₂, j₁ ++ j₂, ?_,
      Nat.le_trans hc1 hc2, ?_, ?_, ?_, fun c₃ => ?_⟩
    · simp only [cuKidsLitF]
      rw [hgo]
      dsimp only
      rw [hlit]
    · simp only [noFailsKids, noFailsKid, Bool.and_eq_true]
      exact ⟨hnf1, hnf2⟩
    · simp only [wKids, wKid]
      omega
    · intro k hk
      rw [List.map_append, List.mem_append] at hk
      rcases hk with hk | hk
      · rcases hsound1 k hk with h | h
        · exact Or.inl (by
            simp only [minKeysKids, minKeysKid]
            exact List.mem_append_left _ h)
        · exact Or.inr h
      · rcases hsound2 k hk with h | h
        · exact Or.inl (by
            simp only [minKeysKids, minKeysKid]
            exact List.mem_append_right _ h)
        · exact Or.inr (by omega)
    · obtain ⟨ks₃, c₄, u₃, j₃, hcache, hc4, hnf3, hw3, hsound3, hcomp3,
        hclean3⟩ := hinner c₃
      refine ⟨.node n₁ :: ks₃, c₄, u₃, j₃, ?_, hc4, ?_, ?_, ?_, ?_, ?_⟩
      · simp only [cuKidsCacheF]
        rw [hcache]
      · simp only [noFailsKids, noFailsKid, Bool.and_eq_true]
        exact ⟨hnf1, hnf3⟩
      · simp only [wKids, wKid]
        omega
      · intro k hk
        rcases hsound3 k hk with h | h
        · exact Or.inl (by
            simp only [minKeysKids, minKeysKid]
            exact List.mem_append_right _ h)
        · exact Or.inr h
      · intro k hk
        simp only [minKeysKids, minKeysKid] at hk
        rcases List.mem_append.mp hk with h | h
        · exact Or.inl (by
            rw [List.map_append, List.mem_append]
            exact Or.inl (hcomp1 k h))
        · rcases hcomp3 k h with h2 | h2
          · exact Or.inl (by
              rw [List.map_append, List.mem_append]
              exact Or.inr h2)
          · exact Or.inr h2
      · simp only [anyDirtyKids, anyDirtyKid]
        rw [hclean1, hclean3]
        rfl
  | .prodr t cache :: ks, hnf, hw, c => by
    simp only [noFailsKids, noFailsKid, Bool.and_eq_true] at hnf
    have hwk : wKid (.prodr t cache) + wKids ks ≤ fuel := by
      simp only [wKids] at hw
      exact hw
    have hwc : wCache cache ≤ fuel := by
      simp only [wKid] at hwk
      have := Nat.le_max_right (wTmpl t) (wCache cache)
      omega
    obtain ⟨ks₂, c₂, u₂, j₂, hlit, hc2, hnf2, hw2, hsound2, hinner⟩ :=
      cuPhases_char fuel go H ks hnf.2 (by simp only [wKid] at hwk; omega) c
    refine ⟨.prodr t cache :: ks₂, c₂, u₂, j₂, ?_, hc2, ?_, ?_, ?_,
      fun c₃ => ?_⟩
    · simp only [cuKidsLitF]
      rw [hlit]
    · simp only [noFailsKids, noFailsKid, Bool.and_eq_true]
      exact ⟨hnf.1, hnf2⟩
    · simp only [wKids]
      omega
    · intro k hk
      rcases hsound2 k hk with h | h
      · exact Or.inl (by
          simp only [minKeysKids, minKeysKid]
          exact List.mem_append_right _ h)
      · exact Or.inr h
    · obtain ⟨cache₁, cA, uC, jC, hcl, hcA, hnfC, hwCa, hsoundC, hcompC,
        hcleanC⟩ := cuCacheListF_char fuel go H cache hnf.1.2 hwc c₃
      obtain ⟨ks₃, c₄, u₃, j₃, hcache, hc4, hnf3, hw3, hsound3, hcomp3,
        hclean3⟩ := hinner cA
      refine ⟨.prodr t cache₁ :: ks₃, c₄, uC ++ u₃, jC ++ j₃, ?_,
        Nat.le_trans hcA hc4, ?_, ?_, ?_, ?_, ?_⟩
      · simp only [cuKidsCacheF]
        rw [hcl]
        dsimp only
        rw [hcache]
      · simp only [noFailsKids, noFailsKid, Bool.and_eq_true]
        exact ⟨⟨hnf.1.1, hnfC⟩, hnf3⟩
      · simp only [wKids, wKid]
        have hmax : max (wTmpl t) (wCache cache₁) ≤ max (wTmpl t) (wCache cache) :=
          max_le_max (Nat.le_refl _) hwCa
        omega
      · intro k hk
        rw [List.map_append, List.mem_append] at hk
        rcases hk with hk | hk
        · rcases hsoundC k hk with h | h
          · exact Or.inl (by
              simp only [minKeysKids, minKeysKid]
              exact List.mem_append_left _ h)
          · exact Or.inr h
        · rcases hsound3 k hk with h | h
          · exact Or.inl (by
              simp only [minKeysKids, minKeysKid]
              exact List.mem_append_right _ h)
          · exact Or.inr (by omega)
      · intro k hk
        simp only [minKeysKids, minKeysKid] at hk
        rcases List.mem_append.mp hk with h | h
        · exact Or.inr (by
            rw [List.map_append, List.mem_append]
            exact Or.inl (hcompC k h))
        · rcases hcomp3 k h with h2 | h2
          · exact Or.inl h2
          · exact Or.inr (by
              rw [List.map_append, List.mem_append]
              exact Or.inr h2)
      · simp only [anyDirtyKids, anyDirtyKid]
        rw [hcleanC, hclean3]
        rfl

/-- What `render_tag` does to a producer-sound tree: `process` clears the
literal flags and keeps everything the characterization tracks, then
the `__str__` pass runs as characterized. -/
theorem renderTag_char (n : Node) (c : Nat) (h : n.noFails = true) :
    ∃ s n₁ c₁, renderTag n c = .ok (s, n₁, c₁) ∧ c ≤ c₁ ∧
      n₁.noFails = true ∧ n₁.weight ≤ n.weight ∧ n₁.idn = n.idn ∧
      n₁.dirty = false ∧ n₁.litClean = true ∧ n₁.cachesFresh c c₁ := by
  have hp := processNode_char n
  obtain ⟨s, n₁, c₁, hr, hc, hnf, hw, hid, hd, hlc, hcf⟩ :=
    renderNode_char (processNode n) c (by rw [hp.1]; exact h)
  exact ⟨s, n₁, c₁, by rw [renderTag]; exact hr, hc, hnf,
    Nat.le_trans hw (Nat.le_of_eq hp.2.1), hid.trans hp.2.2.2.1,
    hd.trans hp.2.2.2.2, hlc.trans hp.2.2.1, hcf⟩

theorem cuGoChar : ∀ (fuel : Nat) (n : Node) (c : Nat), n.noFails = true →
    n.weight ≤ fuel →
    ∃ n₁ c₁ u jx, cuGo fuel n c = .ok (n₁, c₁, u, jx) ∧ c ≤ c₁ ∧
      n₁.noFails = true ∧ n₁.weight ≤ n.weight ∧
      (∀ k ∈ u.map Prod.fst, k ∈ n.minKeys ∨ c ≤ k) ∧
      (∀ k ∈ n.minKeys, k ∈ u.map Prod.fst) ∧
      n₁.anyDirty = false
  | 0, n, _, _, hw => absurd hw (by have := Node.weight_pos n; omega)
  | fuel + 1, .mk tg i a e d jj st ks, c, hnf, hw => by
    have hnfk : noFailsKids ks = true := by
      simp only [Node.noFails] at hnf
      exact hnf
    have hwk : 1 + wKids ks ≤ fuel + 1 := by
      simp only [Node.weight] at hw
      exact hw
    cases d with
    | false =>
      obtain ⟨ks₂, c₂, u₂, j₂, hlit, hc2, hnf2, hw2, hsound2, hinner⟩ :=
        cuPhases_char fuel (cuGo fuel)
          (fun m cm hm hwm => cuGoChar fuel m cm hm hwm) ks hnfk (by omega) c
      obtain ⟨ks₃, c₄, u₃, j₃, hcache, hc4, hnf3, hw3, hsound3, hcomp3,
        hclean3⟩ := hinner c₂
      have hmk : (Node.mk tg i a e false jj st ks).minKeys = minKeysKids ks := by
        simp only [Node.minKeys]
        rw [if_neg (by simp)]
      refine ⟨((Node.mk tg i a e false jj st ks).withKids ks₃).withJs [],
        c₄, ([] ++ u₂) ++ u₃, (j₂ ++ j₃) ++ jj, ?_,
        Nat.le_trans hc2 hc4, ?_, ?_, ?_, ?_, ?_⟩
      · rw [cuGo, if_neg (by simp [Node.dirty])]
        dsimp only [Node.kids, Node.idn, Node.jsCalls]
        rw [hlit]
        dsimp only
        rw [hcache]
      · simp only [Node.withKids, Node.withJs, Node.noFails]
        exact hnf3
      · simp only [Node.withKids, Node.withJs, Node.weight]
        omega
      · intro k hk
        rw [hmk]
        simp only [List.nil_append] at hk
        rw [List.map_append, List.mem_append] at hk
        rcases hk with hk | hk
        · rcases hsound2 k hk with h | h
          · exact Or.inl h
          · exact Or.inr h
        · rcases hsound3 k hk with h | h
          · exact Or.inl h
          · exact Or.inr (by omega)
      · intro k hk
        rw [hmk] at hk
        simp only [List.nil_append]
        rw [List.map_append, List.mem_append]
        rcases hcomp3 k hk with h | h
        · exact Or.inl h
        · exact Or.inr h
      · simp only [Node.withKids, Node.withJs, Node.anyDirty]
        rw [hclean3]
        rfl
    | true =>
      obtain ⟨s, n₁, c₁, hr, hc1, hnf1, hw1, hid, hd1, hlc1, hcf1⟩ :=
        renderTag_char (Node.mk tg i a e true jj st ks) c hnf
      cases n₁ with
      | mk tg₂ i₂ a₂ e₂ d₂ j₂x st₂ ks₂ =>
        simp only [Node.noFails] at hnf1
        simp only [Node.weight] at hw1
        simp only [Node.idn] at hid
        simp only [Node.dirty] at hd1
        simp only [Node.litClean, Bool.and_eq_true, Bool.not_eq_true'] at hlc1
        simp only [Node.cachesFresh] at hcf1
        subst hid
        subst hd1
        have hwk2 : wKids ks₂ ≤ fuel := by omega
        obtain ⟨ksL, cL, uL, jL, hlit, hcL, hnfL, hwL, hsoundL, hinner⟩ :=
          cuPhases_char fuel (cuGo fuel)
            (fun m cm hm hwm => cuGoChar fuel m cm hm hwm) ks₂ hnf1 hwk2 c₁
        obtain ⟨ksC, cC, uC, jC, hcache, hcC, hnfC, hwC, hsoundC, hcompC,
          hcleanC⟩ := hinner cL
        refine ⟨((Node.mk tg₂ i₂ a₂ e₂ false j₂x st₂ ks₂).withKids ksC).withJs
          [], cC, ([(i₂, s)] ++ uL) ++ uC, (jL ++ jC) ++ j₂x, ?_,
          Nat.le_trans hc1 (Nat.le_trans hcL hcC), ?_, ?_, ?_, ?_, ?_⟩
        · rw [cuGo, if_pos (by simp [Node.dirty])]
          rw [hr]
          dsimp only [Node.kids, Node.idn, Node.jsCalls]
          rw [hlit]
          dsimp only
          rw [hcache]
        · simp only [Node.withKids, Node.withJs, Node.noFails]
          exact hnfC
        · simp only [Node.withKids, Node.withJs, Node.weight]
          omega
        · intro k hk
          rw [List.map_append, List.mem_append] at hk
          rcases hk with hk | hk
          · rw [List.map_append, List.mem_append] at hk
            rcases hk with hk | hk
            · simp only [List.map_cons, List.map_nil,
                List.mem_singleton] at hk
              subst hk
              left
              simp only [Node.minKeys]
              rw [if_pos trivial]
              exact List.mem_singleton_self _
            · rcases hsoundL k hk with h | h
              · exact Or.inr (minKeysKids_bound ks₂ c c₁ hlc1.2
                  (cachesFreshKids_mono ks₂ c c₁ c c₁ hcf1 (Nat.le_refl c)
                    (Nat.le_refl c₁)) k h)
              · exact Or.inr (by omega)
          · rcases hsoundC k hk with h | h
            · exact Or.inr (minKeysKids_bound ks₂ c c₁ hlc1.2
                (cachesFreshKids_mono ks₂ c c₁ c c₁ hcf1 (Nat.le_refl c)
                  (Nat.le_refl c₁)) k h)
            · exact Or.inr (by omega)
        · intro k hk
          simp only [Node.minKeys] at hk
          rw [if_pos trivial] at hk
          rw [List.mem_singleton] at hk
          subst hk
          rw [List.map_append, List.mem_append]
          left
          rw [List.map_append, List.mem_append]
          left
          simp only [List.map_cons, List.map_nil]
          exact List.mem_singleton_self _
        · simp only [Node.withKids, Node.withJs, Node.anyDirty]
          rw [hcleanC]
          rfl


/-- C1 (amended): one reconciliation pass (`collect_updates` from the
root) over a producer-sound tree whose ids all lie below the id counter
succeeds, and among the ids existing at the start of the pass the
update-map keys are exactly the dirty nodes with no dirty strict
ancestor — a dirty node is re-rendered whole, so a dirty descendant is
folded into its ancestor's update instead of keying one of its own; any
other key is a fresh id born during the pass from a re-evaluated
producer.  Every key that is not fresh is the id of a node that was
dirty at the start, and after the pass no dirty flag remains anywhere.
The original claim's "keys are exactly all ids dirty at the start"
fails for nested dirty nodes (see the counterexample). -/
theorem claim_C1_reconciliation (n : Node) (c : Nat)
    (hnf : n.noFails = true) (hlt : ∀ i ∈ n.allIds, i < c) :
    ∃ n₁ c₁ ups js, collectUpdates n c = .ok (n₁, c₁, ups, js) ∧
      (∀ i ∈ n.allIds, (i ∈ ups.map Prod.fst ↔ i ∈ n.minKeys)) ∧
      (∀ k ∈ ups.map Prod.fst, k ∈ n.dirtyIds ∨ c ≤ k) ∧
      n₁.anyDirty = false := by
  obtain ⟨n₁, c₁, u, jx, heq, hc, hnf1, hw1, hsound, hcomp, hclean⟩ :=
    cuGoChar n.weight n c hnf (Nat.le_refl _)
  refine ⟨n₁, c₁, u, jx, by rw [collectUpdates]; exact heq, ?_, ?_, hclean⟩
  · intro i hi
    constructor
    · intro hmem
      rcases hsound i hmem with h | h
      · exact h
      · exact absurd (hlt i hi) (by omega)
    · exact fun h => hcomp i h
  · intro k hk
    rcases hsound k hk with h | h
    · exact Or.inl (minKeys_sub_dirtyIds n k h)
    · exact Or.inr h

/-- C1 counterexample: in `c1root` both the div (id 1) and its span child
(id 2) have their dirty flag raised at the start of the pass, yet the
pass keys the update map with the div alone — so the keys are not
"exactly the ids of the nodes whose dirty flag was true at the start". -/
theorem claim_C1_reconciliation_counterexample :
    (match collectUpdates c1root 10 with
      | .ok (_, _, ups, _) => ups.map Prod.fst
      | .error _ => [42]) = [1] ∧
    c1root.dirtyIds = [1, 2] := by
  exact ⟨by decide, by decide⟩

/-- C1 witness: the amended characterization applied to the concrete
two-dirty-node session. -/
theorem claim_C1_reconciliation_witness :
    (c1root.noFails = true ∧ ∀ i ∈ c1root.allIds, i < 10) ∧
    (∃ n₁ c₁ ups js, collectUpdates c1root 10 = .ok (n₁, c₁, ups, js) ∧
      (∀ i ∈ c1root.allIds, (i ∈ ups.map Prod.fst ↔ i ∈ c1root.minKeys)) ∧
      (∀ k ∈ ups.map Prod.fst, k ∈ c1root.dirtyIds ∨ 10 ≤ k) ∧
      n₁.anyDirty = false) :=
  ⟨⟨by decide, by decide⟩,
    claim_C1_reconciliation c1root 10 (by decide) (by decide)⟩

theorem sendAll_msg (app : App) (m : OutMsg) :
    ∀ dm ∈ sendAll app m, dm.2 = m := by
  intro dm hdm
  unfold sendAll at hdm
  rcases List.mem_append.mp hdm with h | h
  · obtain ⟨k, _, hd⟩ := List.mem_map.mp h
    rw [← hd]
  · obtain ⟨k, _, hd⟩ := List.mem_map.mp h
    rw [← hd]

theorem broadcastUpdates_transports (app : App) (r : RVal)
    (cid : Option String) :
    (broadcastUpdates app r cid).1.debug = app.debug ∧
    (broadcastUpdates app r cid).1.websockets = app.websockets ∧
    (broadcastUpdates app r cid).1.sseQueues = app.sseQueues := by
  unfold broadcastUpdates
  cases hcol : collectUpdates app.root app.ctr with
  | error e => exact ⟨rfl, rfl, rfl⟩
  | ok res =>
    obtain ⟨root₁, c₁, ups, js⟩ := res
    dsimp only
    by_cases hcond : ups ≠ [] ∨ js ≠ [] ∨
        (collectStatics root₁ []).filter (fun s => s ∉ app.sentStatics) ≠ [] ∨
        truthyCb cid
    · rw [if_pos hcond]
      exact ⟨rfl, rfl, rfl⟩
    · rw [if_neg hcond]
      exact ⟨rfl, rfl, rfl⟩

theorem broadcastUpdates_noCb (app : App) (r : RVal) :
    ∀ dm ∈ (broadcastUpdates app r none).2, noCbMsg dm.2 = true := by
  intro dm
  unfold broadcastUpdates
  cases hcol : collectUpdates app.root app.ctr with
  | error e =>
    intro hdm
    dsimp only at hdm
    rw [sendAll_msg _ _ dm hdm]
    rfl
  | ok res =>
    obtain ⟨root₁, c₁, ups, js⟩ := res
    dsimp only
    by_cases hcond : ups ≠ [] ∨ js ≠ [] ∨
        (collectStatics root₁ []).filter (fun s => s ∉ app.sentStatics) ≠ [] ∨
        truthyCb none
    · rw [if_pos hcond]
      intro hdm
      dsimp only at hdm
      rw [sendAll_msg _ _ dm hdm]
      rfl
    · rw [if_neg hcond]
      intro hdm
      exact absurd hdm (List.not_mem_nil dm)

theorem runYields_noCb : ∀ (ys : List (List Nat)) (app : App)
    (tr : List (Dest × OutMsg)), (∀ dm ∈ tr, noCbMsg dm.2 = true) →
    (runYields app tr ys).1.debug = app.debug ∧
    (runYields app tr ys).1.websockets = app.websockets ∧
    (runYields app tr ys).1.sseQueues = app.sseQueues ∧
    (∀ dm ∈ (runYields app tr ys).2, noCbMsg dm.2 = true)
  | [], app, tr, h => ⟨rfl, rfl, rfl, h⟩
  | eff :: rest, app, tr, h => by
    cases hbu : broadcastUpdates { app with root := applyEffects app.root eff }
        RVal.null none with
    | mk app₂ tr₁ =>
      have hb := broadcastUpdates_noCb
        { app with root := applyEffects app.root eff } RVal.null
      have ht := broadcastUpdates_transports
        { app with root := applyEffects app.root eff } RVal.null none
      rw [hbu] at hb ht
      have hrec := runYields_noCb rest app₂ (tr ++ tr₁) (fun dm hdm =>
        (List.mem_append.mp hdm).elim (h dm) (hb dm))
      have hstep : runYields app tr (eff :: rest) =
          runYields app₂ (tr ++ tr₁) rest := by
        rw [runYields]
        dsimp only
        rw [hbu]
      rw [hstep]
      exact ⟨hrec.1.trans ht.1, hrec.2.1.trans ht.2.1,
        hrec.2.2.1.trans ht.2.2, hrec.2.2.2⟩

theorem runCallback_raises (app : App) (cb : Callback) (e : String)
    (h : cb.raises = some e) :
    ∃ app₂ tr, runCallback app cb = (app₂, tr, .error e) ∧
      app₂.debug = app.debug ∧ app₂.websockets = app.websockets ∧
      app₂.sseQueues = app.sseQueues ∧
      ∀ dm ∈ tr, noCbMsg dm.2 = true := by
  cases cb with
  | direct eff out =>
    cases out with
    | ok v => exact absurd h (by simp [Callback.raises])
    | error e2 =>
      have he : e2 = e := by
        simp only [Callback.raises, Option.some.injEq] at h
        exact h
      subst he
      refine ⟨{ app with root := applyEffects app.root eff }, [], ?_, rfl,
        rfl, rfl, fun dm hdm => absurd hdm (List.not_mem_nil dm)⟩
      rw [runCallback]
  | asyncDirect eff out =>
    cases out with
    | ok v => exact absurd h (by simp [Callback.raises])
    | error e2 =>
      have he : e2 = e := by
        simp only [Callback.raises, Option.some.injEq] at h
        exact h
      subst he
      refine ⟨{ app with root := applyEffects app.root eff }, [], ?_, rfl,
        rfl, rfl, fun dm hdm => absurd hdm (List.not_mem_nil dm)⟩
      rw [runCallback]
  | gen yields fin =>
    cases fin with
    | ok p => exact absurd h (by simp [Callback.raises])
    | error e2 =>
      have he : e2 = e := by
        simp only [Callback.raises, Option.some.injEq] at h
        exact h
      subst he
      cases hry : runYields app [] yields with
      | mk app₁ tr =>
        have hr := runYields_noCb yields app []
          (fun dm hdm => absurd hdm (List.not_mem_nil dm))
        rw [hry] at hr
        refine ⟨app₁, tr, ?_, hr.1, hr.2.1, hr.2.2.1, hr.2.2.2⟩
        rw [runCallback]
        dsimp only
        rw [hry]
  | asyncGen yields fin =>
    cases fin with
    | ok p => exact absurd h (by simp [Callback.raises])
    | error e2 =>
      have he : e2 = e := by
        simp only [Callback.raises, Option.some.injEq] at h
        exact h
      subst he
      cases hry : runYields app [] yields with
      | mk app₁ tr =>
        have hr := runYields_noCb yields app []
          (fun dm hdm => absurd hdm (List.not_mem_nil dm))
        rw [hry] at hr
        refine ⟨app₁, tr, ?_, hr.1, hr.2.1, hr.2.2.1, hr.2.2.2⟩
        rw [runCallback]
        dsimp only
        rw [hry]

/-- C4 (amended): a raising bound callback makes `handle_event` finish by
emitting one protocol error payload — `traceback` is the exception text
in debug mode and a generic message otherwise, alongside the supplied
correlation id — to the originating websocket when the event arrived on
one, otherwise to every SSE queue of the session.  After the raising
resumption no further callback step runs.  The original claim's "no
update message is sent for that callback invocation" is wrong: each
yield of a generator callback broadcasts intermediate updates before
the exception (see the counterexample); those earlier messages all
carry no correlation id, so the error payload is the only answer the
correlation id receives. -/
theorem claim_C4_callback_error (app : App) (m : InMsg) (ws : Option Nat)
    (tid : Nat) (target : Node) (cb : Callback) (e : String)
    (h1 : m.targetId = some tid)
    (h2 : findTag app.root tid = some target)
    (h3 : m.eventName.bind
      (fun nm => (target.events.find? (fun p => p.1 = nm)).map Prod.snd) =
      some (.cb cb))
    (h4 : cb.raises = some e) :
    ∃ app₂ trPre,
      handleEvent app m ws = (app₂, trPre ++
        (match ws with
         | some w => [(Dest.ws w,
             OutMsg.error (if app.debug then e else "Internal Server Error")
               m.callbackId)]
         | none => app.sseQueues.map (fun k => (Dest.sse k,
             OutMsg.error (if app.debug then e else "Internal Server Error")
               m.callbackId)))) ∧
      ∀ dm ∈ trPre, noCbMsg dm.2 = true := by
  have hA : (match m.dataValue with
      | some v => { app with root := echoValueAt app.root tid v }
      | none => app).debug = app.debug ∧
      (match m.dataValue with
      | some v => { app with root := echoValueAt app.root tid v }
      | none => app).sseQueues = app.sseQueues := by
    cases m.dataValue <;> exact ⟨rfl, rfl⟩
  obtain ⟨app₂, tr, hrc, hd, hws2, hsse, hpre⟩ := runCallback_raises
    (match m.dataValue with
     | some v => { app with root := echoValueAt app.root tid v }
     | none => app) cb e h4
  refine ⟨app₂, tr, ?_, hpre⟩
  rw [handleEvent, h1]
  dsimp only
  rw [h2]
  dsimp only
  rw [h3]
  dsimp only
  rw [hrc]
  dsimp only
  rw [emitError.eq_def]
  cases ws with
  | some w =>
    dsimp only
    rw [hd.trans hA.1]
  | none =>
    dsimp only
    rw [hd.trans hA.1, hsse.trans hA.2]

/-- C4 counterexample: a generator callback that dirties the root on its
first yield and then raises makes `handle_event` push an update message
(from the yield-time broadcast) before the error payload, so "no update
message is sent for that callback invocation" does not hold. -/
theorem claim_C4_callback_error_counterexample :
    Callback.raises (.gen [[0]] (.error "err1")) = some "err1" ∧
    ((handleEvent c4app c4msg (some 31)).2.any
      (fun dm => dm.2.isUpdate)) = true := by
  exact ⟨rfl, by decide⟩

/-- C4 witness: the amended claim applied to the concrete raising-generator
session. -/
theorem claim_C4_callback_error_witness :
    (c4msg.targetId = some 0 ∧
     findTag c4app.root 0 = some c4root ∧
     c4msg.eventName.bind (fun nm =>
       (c4root.events.find? (fun p => p.1 = nm)).map Prod.snd) =
       some (.cb (.gen [[0]] (.error "err1"))) ∧
     Callback.raises (.gen [[0]] (.error "err1")) = some "err1") ∧
    (∃ app₂ trPre,
      handleEvent c4app c4msg (some 31) = (app₂, trPre ++
        [(Dest.ws 31,
          OutMsg.error (if c4app.debug then "err1" else "Internal Server Error")
            c4msg.callbackId)]) ∧
      ∀ dm ∈ trPre, noCbMsg dm.2 = true) :=
  ⟨⟨rfl, rfl, rfl, rfl⟩,
    claim_C4_callback_error c4app c4msg (some 31) 0 c4root
      (.gen [[0]] (.error "err1")) "err1" rfl rfl rfl rfl⟩

mutual
theorem markDirty_noFails : ∀ (n : Node) (t : Nat),
    (markDirty n t).noFails = n.noFails
  | .mk tg i a e d j st ks, t => by
    simp only [markDirty, Node.noFails]
    exact markDirtyKids_noFails ks t

theorem markDirtyKids_noFails : ∀ (ks : List Kid) (t : Nat),
    noFailsKids (markDirtyKids ks t) = noFailsKids ks
  | [], _ => rfl
  | k :: ks, t => by
    simp only [markDirtyKids, noFailsKids]
    rw [markDirtyKid_noFails k t, markDirtyKids_noFails ks t]

theorem markDirtyKid_noFails : ∀ (k : Kid) (t : Nat),
    noFailsKid (markDirtyKid k t) = noFailsKid k
  | .text s, _ => rfl
  | .node n, t => by
    simp only [markDirtyKid, noFailsKid]
    exact markDirty_noFails n t
  | .prodr tm cache, t => by
    simp only [markDirtyKid, noFailsKid]
    rw [markDirtyCache_noFails cache t]

theorem markDirtyCache_noFails : ∀ (ns : List Node) (t : Nat),
    noFailsCache (markDirtyCache ns t) = noFailsCache ns
  | [], _ => rfl
  | n :: ns, t => by
    simp only [markDirtyCache, noFailsCache]
    rw [markDirty_noFails n t, markDirtyCache_noFails ns t]
end

theorem applyEffects_noFails : ∀ (eff : List Nat) (n : Node),
    (applyEffects n eff).noFails = n.noFails
  | [], n => rfl
  | t :: eff, n => by
    show (applyEffects (markDirty n t) eff).noFails = n.noFails
    rw [applyEffects_noFails eff (markDirty n t), markDirty_noFails n t]

mutual
theorem echoValueAt_noFails : ∀ (n : Node) (tid : Nat) (v : JVal),
    (echoValueAt n tid v).noFails = n.noFails
  | .mk tg i a e d j st ks, tid, v => by
    simp only [echoValueAt]
    by_cases hid : i = tid
    · rw [if_pos hid]
      simp only [Node.noFails]
    · rw [if_neg hid]
      simp only [Node.noFails]
      exact echoValueAtKids_noFails ks tid v

theorem echoValueAtKids_noFails : ∀ (ks : List Kid) (tid : Nat) (v : JVal),
    noFailsKids (echoValueAtKids ks tid v) = noFailsKids ks
  | [], _, _ => rfl
  | .text s :: ks, tid, v => by
    simp only [echoValueAtKids, noFailsKids]
    rw [echoValueAtKids_noFails ks tid v]
  | .node n :: ks, tid, v => by
    simp only [echoValueAtKids, noFailsKids, noFailsKid]
    rw [echoValueAt_noFails n tid v, echoValueAtKids_noFails ks tid v]
  | .prodr t cache :: ks, tid, v => by
    simp only [echoValueAtKids, noFailsKids, noFailsKid]
    rw [echoValueAtCache_noFails cache tid v, echoValueAtKids_noFails ks tid v]

theorem echoValueAtCache_noFails : ∀ (ns : List Node) (tid : Nat) (v : JVal),
    noFailsCache (echoValueAtCache ns tid v) = noFailsCache ns
  | [], _, _ => rfl
  | n :: ns, tid, v => by
    simp only [echoValueAtCache, noFailsCache]
    rw [echoValueAt_noFails n tid v, echoValueAtCache_noFails ns tid v]
end

theorem broadcastUpdates_root_noFails (app : App) (r : RVal)
    (cid : Option String) (h : app.root.noFails = true) :
    (broadcastUpdates app r cid).1.root.noFails = true := by
  unfold broadcastUpdates
  cases hcol : collectUpdates app.root app.ctr with
  | error e => exact h
  | ok res =>
    obtain ⟨root₁, c₁, ups, js⟩ := res
    obtain ⟨n₁, c₁x, u, jx, heq, _, hnf1, _⟩ :=
      cuGoChar app.root.weight app.root app.ctr h (Nat.le_refl _)
    rw [collectUpdates, heq] at hcol
    simp only [Except.ok.injEq, Prod.mk.injEq] at hcol
    obtain ⟨hn, _, _, _⟩ := hcol
    dsimp only
    by_cases hcond : ups ≠ [] ∨ js ≠ [] ∨
        (collectStatics root₁ []).filter (fun s => s ∉ app.sentStatics) ≠ [] ∨
        truthyCb cid
    · rw [if_pos hcond]
      show root₁.noFails = true
      rw [← hn]
      exact hnf1
    · rw [if_neg hcond]
      show root₁.noFails = true
      rw [← hn]
      exact hnf1

theorem broadcastUpdates_none_ok (app : App) (r : RVal)
    (h : app.root.noFails = true) :
    ∀ dm ∈ (broadcastUpdates app r none).2, isUpdateNone dm.2 = true := by
  intro dm
  unfold broadcastUpdates
  obtain ⟨n₁, c₁x, u, jx, heq, _⟩ :=
    cuGoChar app.root.weight app.root app.ctr h (Nat.le_refl _)
  have heq2 : collectUpdates app.root app.ctr = .ok (n₁, c₁x, u, jx) := by
    rw [collectUpdates]
    exact heq
  rw [heq2]
  dsimp only
  by_cases hcond : u ≠ [] ∨ jx ≠ [] ∨
      (collectStatics n₁ []).filter (fun s => s ∉ app.sentStatics) ≠ [] ∨
      truthyCb none
  · rw [if_pos hcond]
    intro hdm
    dsimp only at hdm
    rw [sendAll_msg _ _ dm hdm]
    rfl
  · rw [if_neg hcond]
    exact fun hdm => absurd hdm (List.not_mem_nil dm)

theorem broadcastUpdates_final (app : App) (r : RVal) (cid : String)
    (hcid : cid ≠ "") (h : app.root.noFails = true) :
    ∃ app₁ ups js st, broadcastUpdates app r (some cid) =
      (app₁, sendAll app₁ (.update ups js st (some (cid, r)))) := by
  obtain ⟨n₁, c₁x, u, jx, heq, _⟩ :=
    cuGoChar app.root.weight app.root app.ctr h (Nat.le_refl _)
  have heq2 : collectUpdates app.root app.ctr = .ok (n₁, c₁x, u, jx) := by
    rw [collectUpdates]
    exact heq
  have htr : truthyCb (some cid) = true := by
    simp [truthyCb, hcid]
  unfold broadcastUpdates
  rw [heq2]
  dsimp only
  rw [if_pos (Or.inr (Or.inr (Or.inr htr)))]
  refine ⟨{ app with
              root := n₁,
              ctr := c₁x,
              sentStatics := app.sentStatics ++
                (collectStatics n₁ []).filter (fun s => s ∉ app.sentStatics) },
    u, jx, (collectStatics n₁ []).filter (fun s => s ∉ app.sentStatics), ?_⟩
  rw [if_pos htr]
  rfl

theorem runYields_ok : ∀ (ys : List (List Nat)) (app : App)
    (tr : List (Dest × OutMsg)), app.root.noFails = true →
    (∀ dm ∈ tr, isUpdateNone dm.2 = true) →
    (runYields app tr ys).1.root.noFails = true ∧
    (runYields app tr ys).1.debug = app.debug ∧
    (runYields app tr ys).1.websockets = app.websockets ∧
    (runYields app tr ys).1.sseQueues = app.sseQueues ∧
    (∀ dm ∈ (runYields app tr ys).2, isUpdateNone dm.2 = true)
  | [], app, tr, hroot, h => ⟨hroot, rfl, rfl, rfl, h⟩
  | eff :: rest, app, tr, hroot, h => by
    cases hbu : broadcastUpdates { app with root := applyEffects app.root eff }
        RVal.null none with
    | mk app₂ tr₁ =>
      have hroot1 :
          ({ app with root := applyEffects app.root eff } : App).root.noFails
            = true := by
        show (applyEffects app.root eff).noFails = true
        rw [applyEffects_noFails]
        exact hroot
      have hb := broadcastUpdates_none_ok
        { app with root := applyEffects app.root eff } RVal.null hroot1
      have ht := broadcastUpdates_transports
        { app with root := applyEffects app.root eff } RVal.null none
      have hr2 := broadcastUpdates_root_noFails
        { app with root := applyEffects app.root eff } RVal.null none hroot1
      rw [hbu] at hb ht hr2
      have hrec := runYields_ok rest app₂ (tr ++ tr₁) hr2 (fun dm hdm =>
        (List.mem_append.mp hdm).elim (h dm) (hb dm))
      have hstep : runYields app tr (eff :: rest) =
          runYields app₂ (tr ++ tr₁) rest := by
        rw [runYields]
        dsimp only
        rw [hbu]
      rw [hstep]
      exact ⟨hrec.1, hrec.2.1.trans ht.1, hrec.2.2.1.trans ht.2.1,
        hrec.2.2.2.1.trans ht.2.2, hrec.2.2.2.2⟩

theorem runCallback_completes (app : App) (cb : Callback) (v : RVal)
    (hroot : app.root.noFails = true) (h : cb.completes = some v) :
    ∃ app₂ tr, runCallback app cb = (app₂, tr, .ok v) ∧
      app₂.root.noFails = true ∧ app₂.debug = app.debug ∧
      app₂.websockets = app.websockets ∧ app₂.sseQueues = app.sseQueues ∧
      ∀ dm ∈ tr, isUpdateNone dm.2 = true := by
  cases cb with
  | direct eff out =>
    cases out with
    | error e => exact absurd h (by simp [Callback.completes])
    | ok v2 =>
      have he : v2 = v := by
        simp only [Callback.completes, Option.some.injEq] at h
        exact h
      subst he
      refine ⟨{ app with root := applyEffects app.root eff }, [], ?_, ?_,
        rfl, rfl, rfl, fun dm hdm => absurd hdm (List.not_mem_nil dm)⟩
      · rw [runCallback]
      · show (applyEffects app.root eff).noFails = true
        rw [applyEffects_noFails]
        exact hroot
  | asyncDirect eff out =>
    cases out with
    | error e => exact absurd h (by simp [Callback.completes])
    | ok v2 =>
      have he : v2 = v := by
        simp only [Callback.completes, Option.some.injEq] at h
        exact h
      subst he
      refine ⟨{ app with root := applyEffects app.root eff }, [], ?_, ?_,
        rfl, rfl, rfl, fun dm hdm => absurd hdm (List.not_mem_nil dm)⟩
      · rw [runCallback]
      · show (applyEffects app.root eff).noFails = true
        rw [applyEffects_noFails]
        exact hroot
  | gen yields fin =>
    cases fin with
    | error e => exact absurd h (by simp [Callback.completes])
    | ok p =>
      obtain ⟨eff, v2⟩ := p
      have he : v2 = v := by
        simp only [Callback.completes, Option.some.injEq] at h
        exact h
      subst he
      cases hry : runYields app [] yields with
      | mk app₁ tr =>
        have hr := runYields_ok yields app [] hroot
          (fun dm hdm => absurd hdm (List.not_mem_nil dm))
        rw [hry] at hr
        refine ⟨{ app₁ with root := applyEffects app₁.root eff }, tr, ?_, ?_,
          hr.2.1, hr.2.2.1, hr.2.2.2.1, hr.2.2.2.2⟩
        · rw [runCallback]
          dsimp only
          rw [hry]
        · show (applyEffects app₁.root eff).noFails = true
          rw [applyEffects_noFails]
          exact hr.1
  | asyncGen yields fin =>
    cases fin with
    | error e => exact absurd h (by simp [Callback.completes])
    | ok eff =>
      have he : RVal.null = v := by
        simp only [Callback.completes, Option.some.injEq] at h
        exact h
      subst he
      cases hry : runYields app [] yields with
      | mk app₁ tr =>
        have hr := runYields_ok yields app [] hroot
          (fun dm hdm => absurd hdm (List.not_mem_nil dm))
        rw [hry] at hr
        refine ⟨{ app₁ with root := applyEffects app₁.root eff }, tr, ?_, ?_,
          hr.2.1, hr.2.2.1, hr.2.2.2.1, hr.2.2.2.2⟩
        · rw [runCallback]
          dsimp only
          rw [hry]
        · show (applyEffects app₁.root eff).noFails = true
          rw [applyEffects_noFails]
          exact hr.1

/-- C6: when a bound callback completes successfully — in any of the four
shapes (plain call, coroutine, generator, async generator, the last
completing with `None`) — and the event supplied a truthy correlation
id, on a producer-sound tree the invocation ends with exactly one final
update broadcast carrying that correlation id and the completion value
as result, a returned `GTag` being coerced to the boolean `true`; any
earlier messages of the invocation are yield-time updates without
correlation id. -/
theorem claim_C6_callback_result (app : App) (m : InMsg) (ws : Option Nat)
    (tid : Nat) (target : Node) (cb : Callback) (v : RVal) (cid : String)
    (hroot : app.root.noFails = true)
    (h1 : m.targetId = some tid)
    (h2 : findTag app.root tid = some target)
    (h3 : m.eventName.bind
      (fun nm => (target.events.find? (fun p => p.1 = nm)).map Prod.snd) =
      some (.cb cb))
    (h4 : cb.completes = some v)
    (h5 : m.callbackId = some cid)
    (h6 : cid ≠ "") :
    ∃ app₃ trPre ups js st,
      handleEvent app m ws = (app₃, trPre ++
        sendAll app₃ (.update ups js st (some (cid, coerceResult v)))) ∧
      ∀ dm ∈ trPre, isUpdateNone dm.2 = true := by
  have hA : (match m.dataValue with
      | some v2 => { app with root := echoValueAt app.root tid v2 }
      | none => app).root.noFails = true := by
    cases m.dataValue with
    | none => exact hroot
    | some v2 =>
      show (echoValueAt app.root tid v2).noFails = true
      rw [echoValueAt_noFails]
      exact hroot
  obtain ⟨app₂, tr, hrc, hnf2, hd, hws2, hsse, hpre⟩ := runCallback_completes
    (match m.dataValue with
     | some v2 => { app with root := echoValueAt app.root tid v2 }
     | none => app) cb v hA h4
  obtain ⟨app₃, ups, js, st, hfin⟩ :=
    broadcastUpdates_final app₂ (coerceResult v) cid h6 hnf2
  refine ⟨app₃, tr, ups, js, st, ?_, hpre⟩
  rw [handleEvent, h1]
  dsimp only
  rw [h2]
  dsimp only
  rw [h3]
  dsimp only
  rw [hrc]
  dsimp only
  rw [h5]
  cases v <;> (dsimp only; simp only [coerceResult] at hfin ⊢; rw [hfin])

/-- C6 witness: the claim applied to the demo session's input click with a
direct callback returning `5` and correlation id `K`. -/
theorem claim_C6_callback_result_witness :
    (demoApp.root.noFails = true ∧
     c6msg.targetId = some 1 ∧
     findTag demoApp.root 1 = some c6target ∧
     c6msg.eventName.bind (fun nm =>
       (c6target.events.find? (fun p => p.1 = nm)).map Prod.snd) =
       some (.cb (.direct [] (.ok (.num 5)))) ∧
     Callback.completes (.direct [] (.ok (.num 5))) = some (.num 5) ∧
     c6msg.callbackId = some "K" ∧ "K" ≠ "") ∧
    (∃ app₃ trPre ups js st,
      handleEvent demoApp c6msg none = (app₃, trPre ++
        sendAll app₃ (.update ups js st (some ("K", coerceResult (.num 5))))) ∧
      ∀ dm ∈ trPre, isUpdateNone dm.2 = true) :=
  ⟨⟨by decide, rfl, rfl, rfl, rfl, rfl, by decide⟩,
    claim_C6_callback_result demoApp c6msg none 1 c6target
      (.direct [] (.ok (.num 5))) (.num 5) "K" (by decide) rfl rfl rfl rfl
      rfl (by decide)⟩

end Htag
